import Mathlib

/-!
# Verification of the Sudoku engine

Shallow embedding of the Sudoku engine (validator, backtracking solver and
puzzle generator) of this repository, together with proofs and refutations of
the specification claims.

Boards are functions `Nat → Nat → Option Nat`, mirroring the TypeScript type
`(number | null)[][]`; all engine operations only inspect and modify cells with
row and column below 9.  The ambient randomness (`Math.random`) is modelled by
explicit entropy streams that are universally quantified in every theorem, so a
proved property holds for every possible sequence of random draws.
-/

namespace Sudoku

/-- A Sudoku board: cell `(row, col)` holds `some v` for a digit `v`, or `none`
when the cell is empty.  Mirrors `type Board = (number | null)[][]`. -/
def Board : Type := Nat → Nat → Option Nat

/-- The board with every cell empty. -/
def emptyBoard : Board := fun _ _ => none

/-- In-place update `board[r][c] = v` of the TypeScript code, as a functional
update. -/
def setCell (b : Board) (r c : Nat) (v : Option Nat) : Board :=
  fun r2 c2 => if r2 = r ∧ c2 = c then v else b r2 c2

theorem setCell_same (b : Board) (r c : Nat) (v : Option Nat) :
    setCell b r c v r c = v := by
  simp [setCell]

theorem setCell_other (b : Board) (r c : Nat) (v : Option Nat) (r2 c2 : Nat)
    (h : ¬(r2 = r ∧ c2 = c)) : setCell b r c v r2 c2 = b r2 c2 := by
  simp [setCell, h]

theorem setCell_setCell (b : Board) (r c : Nat) (v w : Option Nat) :
    setCell (setCell b r c v) r c w = setCell b r c w := by
  funext r2 c2
  by_cases h : r2 = r ∧ c2 = c <;> simp [setCell, h]

theorem setCell_self (b : Board) (r c : Nat) :
    setCell b r c (b r c) = b := by
  funext r2 c2
  by_cases h : r2 = r ∧ c2 = c
  · obtain ⟨h1, h2⟩ := h; subst h1; subst h2; simp [setCell]
  · simp [setCell, h]

/-! ## Validator (`sudokuValidator.ts`) -/

/-- `isValidMove(board, row, col, num)`: true iff no *other* cell in the same
row, column or 3×3 box currently holds `num`. -/
def isValidMove (b : Board) (row col num : Nat) : Bool :=
  ((List.range 9).all fun x => !(x != col && b row x == some num)) &&
  ((List.range 9).all fun x => !(x != row && b x col == some num)) &&
  ((List.range 3).all fun i => (List.range 3).all fun j =>
    (row - row % 3 + i == row && col - col % 3 + j == col) ||
      !(b (row - row % 3 + i) (col - col % 3 + j) == some num))

/-- The cells of the 3×3 box containing `(row, col)`, in the traversal order of
the source's box loop. -/
def boxScan (row col : Nat) : List (Nat × Nat) :=
  (List.range 3).flatMap fun i => (List.range 3).map fun j =>
    (row - row % 3 + i, col - col % 3 + j)

/-- `findConflicts(board, row, col)`: all other cells sharing a row, column or
box with `(row, col)` and holding the same value; `[]` for an empty cell. -/
def findConflicts (b : Board) (row col : Nat) : List (Nat × Nat) :=
  match b row col with
  | none => []
  | some v =>
    (((List.range 9).filter fun x => x != col && b row x == some v).map
        fun x => (row, x)) ++
    (((List.range 9).filter fun x => x != row && b x col == some v).map
        fun x => (x, col)) ++
    ((boxScan row col).filter fun p =>
      !(p.1 == row && p.2 == col) && b p.1 p.2 == some v)

/-- `isBoardValid(board)`: no non-empty cell has any conflict. -/
def isBoardValid (b : Board) : Bool :=
  (List.range 9).all fun row => (List.range 9).all fun col =>
    b row col == none || (findConflicts b row col).isEmpty

/-- `isBoardSolved(board)`: every cell is filled and the board is valid. -/
def isBoardSolved (b : Board) : Bool :=
  ((List.range 9).all fun row => (List.range 9).all fun col =>
    !(b row col == none)) && isBoardValid b

/-! ### Semantic characterisations of the validator -/

/-- Two in-range positions see each other: same row, same column or same box.
This is the peer relation the three scan loops of the validator cover. -/
def Peers (r c r2 c2 : Nat) : Prop :=
  r = r2 ∨ c = c2 ∨ (r / 3 = r2 / 3 ∧ c / 3 = c2 / 3)

/-- Semantic board validity: no two distinct in-range peer cells hold the same
value. -/
def ValidProp (b : Board) : Prop :=
  ∀ r c r2 c2, r < 9 → c < 9 → r2 < 9 → c2 < 9 → (r, c) ≠ (r2, c2) →
    Peers r c r2 c2 → b r c ≠ none → b r c ≠ b r2 c2

theorem isValidMove_iff (b : Board) (row col num : Nat) :
    isValidMove b row col num = true ↔
      (∀ x, x < 9 → x ≠ col → b row x ≠ some num) ∧
      (∀ x, x < 9 → x ≠ row → b x col ≠ some num) ∧
      (∀ i j, i < 3 → j < 3 →
        ¬(row - row % 3 + i = row ∧ col - col % 3 + j = col) →
        b (row - row % 3 + i) (col - col % 3 + j) ≠ some num) := by
  simp only [isValidMove, Bool.and_eq_true, List.all_eq_true, List.mem_range]
  constructor
  · rintro ⟨⟨h1, h2⟩, h3⟩
    refine ⟨fun x hx hxc => ?_, fun x hx hxr => ?_, fun i j hi hj hne => ?_⟩
    · have := h1 x hx
      simp only [Bool.not_eq_true', Bool.and_eq_false_iff, bne_eq_false_iff_eq,
        beq_eq_false_iff_ne] at this
      rcases this with h | h
      · exact absurd h hxc
      · exact h
    · have := h2 x hx
      simp only [Bool.not_eq_true', Bool.and_eq_false_iff, bne_eq_false_iff_eq,
        beq_eq_false_iff_ne] at this
      rcases this with h | h
      · exact absurd h hxr
      · exact h
    · have := h3 i hi j hj
      simp only [Bool.or_eq_true, Bool.and_eq_true, beq_iff_eq,
        Bool.not_eq_true', beq_eq_false_iff_ne] at this
      rcases this with ⟨h1', h2'⟩ | h
      · exact absurd ⟨h1', h2'⟩ hne
      · exact h
  · rintro ⟨h1, h2, h3⟩
    refine ⟨⟨fun x hx => ?_, fun x hx => ?_⟩, fun i hi j hj => ?_⟩
    · simp only [Bool.not_eq_true', Bool.and_eq_false_iff, bne_eq_false_iff_eq,
        beq_eq_false_iff_ne]
      by_cases hxc : x = col
      · exact Or.inl hxc
      · exact Or.inr (h1 x hx hxc)
    · simp only [Bool.not_eq_true', Bool.and_eq_false_iff, bne_eq_false_iff_eq,
        beq_eq_false_iff_ne]
      by_cases hxr : x = row
      · exact Or.inl hxr
      · exact Or.inr (h2 x hx hxr)
    · simp only [Bool.or_eq_true, Bool.and_eq_true, beq_iff_eq,
        Bool.not_eq_true', beq_eq_false_iff_ne]
      by_cases hne : row - row % 3 + i = row ∧ col - col % 3 + j = col
      · exact Or.inl hne
      · exact Or.inr (h3 i j hi hj hne)

theorem peers_symm {r c r2 c2 : Nat} (h : Peers r c r2 c2) : Peers r2 c2 r c := by
  rcases h with h | h | ⟨h1, h2⟩
  · exact Or.inl h.symm
  · exact Or.inr (Or.inl h.symm)
  · exact Or.inr (Or.inr ⟨h1.symm, h2.symm⟩)

theorem box_base (r : Nat) : r - r % 3 = 3 * (r / 3) := by omega

/-- The peer-relation form of `isValidMove`: the value `num` does not occur at
any other in-range cell sharing a row, column or box with `(row, col)`. -/
theorem isValidMove_iff_peers (b : Board) (row col num : Nat) (hr : row < 9)
    (hc : col < 9) :
    isValidMove b row col num = true ↔
      ∀ r2 c2, r2 < 9 → c2 < 9 → (r2, c2) ≠ (row, col) →
        Peers row col r2 c2 → b r2 c2 ≠ some num := by
  rw [isValidMove_iff]
  constructor
  · rintro ⟨h1, h2, h3⟩ r2 c2 hr2 hc2 hne hp
    by_cases hrow : r2 = row
    · subst hrow
      have hcol : c2 ≠ col := fun h => hne (by simp [h])
      exact h1 c2 hc2 hcol
    · by_cases hcol : c2 = col
      · subst hcol
        exact h2 r2 hr2 hrow
      · rcases hp with h | h | ⟨hb1, hb2⟩
        · exact absurd h.symm hrow
        · exact absurd h.symm hcol
        · have e1 : row - row % 3 + r2 % 3 = r2 := by omega
        
          have e2 : col - col % 3 + c2 % 3 = c2 := by omega
          have := h3 (r2 % 3) (c2 % 3) (Nat.mod_lt _ (by omega))
            (Nat.mod_lt _ (by omega)) (by rw [e1, e2]; exact fun hx => hrow hx.1)
          rwa [e1, e2] at this
  · intro h
    refine ⟨fun x hx hxc => ?_, fun x hx hxr => ?_, fun i j hi hj hne => ?_⟩
    · exact h row x hr hx (by simp [hxc]) (Or.inl rfl)
    · exact h x col hx hc (by simp [hxr]) (Or.inr (Or.inl rfl))
    · have hir : row - row % 3 + i < 9 := by omega
      have hic : col - col % 3 + j < 9 := by omega
      refine h _ _ hir hic (by simpa using hne) (Or.inr (Or.inr ⟨?_, ?_⟩)) <;> omega

theorem findConflicts_empty (b : Board) (row col : Nat)
    (h : b row col = none) : findConflicts b row col = [] := by
  simp [findConflicts, h]

/-- Membership in the box scan list. -/
theorem mem_boxScan (row col r2 c2 : Nat) (hr : row < 9) (hc : col < 9)
    (hr2 : r2 < 9) (hc2 : c2 < 9) :
    (r2, c2) ∈ boxScan row col ↔ r2 / 3 = row / 3 ∧ c2 / 3 = col / 3 := by
  simp only [boxScan, List.mem_flatMap, List.mem_map, List.mem_range]
  constructor
  · rintro ⟨i, hi, j, hj, hpe⟩
    have e1 : r2 = row - row % 3 + i := by
      have := congrArg Prod.fst hpe; simpa using this.symm
    have e2 : c2 = col - col % 3 + j := by
      have := congrArg Prod.snd hpe; simpa using this.symm
    omega
  · rintro ⟨e1, e2⟩
    refine ⟨r2 % 3, Nat.mod_lt _ (by omega), c2 % 3, Nat.mod_lt _ (by omega), ?_⟩
    have : row - row % 3 + r2 % 3 = r2 := by omega
    have h2 : col - col % 3 + c2 % 3 = c2 := by omega
    rw [this, h2]

/-- `findConflicts` is empty at an occupied in-range cell exactly when no other
in-range peer cell holds the same value. -/
theorem findConflicts_eq_nil_iff (b : Board) (row col v : Nat) (hr : row < 9)
    (hc : col < 9) (hv : b row col = some v) :
    findConflicts b row col = [] ↔
      ∀ r2 c2, r2 < 9 → c2 < 9 → (r2, c2) ≠ (row, col) →
        Peers row col r2 c2 → b r2 c2 ≠ some v := by
  simp only [findConflicts, hv, List.append_eq_nil, List.map_eq_nil_iff,
    List.filter_eq_nil_iff, List.mem_range, Bool.and_eq_true, bne_iff_ne,
    beq_iff_eq, not_and, Bool.not_eq_true]
  constructor
  · rintro ⟨⟨h1, h2⟩, h3⟩ r2 c2 hr2 hc2 hne hp heq
    by_cases hrow : r2 = row
    · subst hrow
      have hcol : c2 ≠ col := fun h => hne (by simp [h])
      exact absurd heq (by simpa using h1 c2 hc2 hcol)
    · by_cases hcol : c2 = col
      · subst hcol
        exact absurd heq (by simpa using h2 r2 hr2 hrow)
      · rcases hp with h | h | ⟨hb1, hb2⟩
        · exact absurd h.symm hrow
        · exact absurd h.symm hcol
        · have hmem : (r2, c2) ∈ boxScan row col :=
            (mem_boxScan row col r2 c2 hr hc hr2 hc2).mpr ⟨hb1.symm, hb2.symm⟩
          have hpre : (!((r2, c2).1 == row && (r2, c2).2 == col)) = true := by
            simp only [Bool.not_eq_eq_eq_not, Bool.not_true,
              Bool.and_eq_false_iff, beq_eq_false_iff_ne]
            exact Or.inl hrow
          exact absurd heq (by simpa using h3 (r2, c2) hmem hpre)
  · intro h
    refine ⟨⟨fun x hx hxc => ?_, fun x hx hxr => ?_⟩, fun p hp hpre => ?_⟩
    · exact fun heq => h row x hr hx (by simp [hxc]) (Or.inl rfl) heq
    · exact fun heq => h x col hx hc (by simp [hxr]) (Or.inr (Or.inl rfl)) heq
    · obtain ⟨r2, c2⟩ := p
      have hr2 : r2 < 9 := by
        simp only [boxScan, List.mem_flatMap, List.mem_map, List.mem_range] at hp
        obtain ⟨i, hi, j, hj, hpe⟩ := hp
        have := congrArg Prod.fst hpe; simp at this; omega
      have hc2 : c2 < 9 := by
        simp only [boxScan, List.mem_flatMap, List.mem_map, List.mem_range] at hp
        obtain ⟨i, hi, j, hj, hpe⟩ := hp
        have := congrArg Prod.snd hpe; simp at this; omega
      have hbx := (mem_boxScan row col r2 c2 hr hc hr2 hc2).mp hp
      have hself : ¬(r2 = row ∧ c2 = col) := by
        simp only [Bool.not_eq_eq_eq_not, Bool.not_true, Bool.and_eq_false_iff,
          beq_eq_false_iff_ne] at hpre
        rcases hpre with hx | hx
        · exact fun hy => hx hy.1
        · exact fun hy => hx hy.2
      have hne : (r2, c2) ≠ (row, col) := by
        intro hx
        exact hself (by constructor <;> simp_all)
      exact h r2 c2 hr2 hc2 hne (Or.inr (Or.inr ⟨hbx.1.symm, hbx.2.symm⟩))

/-- `isBoardValid` is exactly the semantic no-duplicate-in-any-group
property. -/
theorem isBoardValid_iff (b : Board) :
    isBoardValid b = true ↔ ValidProp b := by
  simp only [isBoardValid, List.all_eq_true, List.mem_range]
  constructor
  · intro h r c r2 c2 hr hc hr2 hc2 hne hp hnn heq
    obtain ⟨v, hv⟩ := Option.ne_none_iff_exists'.mp hnn
    have := h r hr c hc
    simp only [Bool.or_eq_true, beq_iff_eq, List.isEmpty_iff] at this
    rcases this with h1 | h1
    · exact hnn h1
    · rw [findConflicts_eq_nil_iff b r c v hr hc hv] at h1
      exact h1 r2 c2 hr2 hc2 (fun hx => hne (by simpa using hx.symm))
        hp (heq ▸ hv)
  · intro h r hr c hc
    simp only [Bool.or_eq_true, beq_iff_eq, List.isEmpty_iff]
    cases hv : b r c with
    | none => exact Or.inl rfl
    | some v =>
      refine Or.inr ((findConflicts_eq_nil_iff b r c v hr hc hv).mpr ?_)
      intro r2 c2 hr2 hc2 hne hp heq
      exact h r c r2 c2 hr hc hr2 hc2 (fun hx => hne (by simpa using hx.symm))
        hp (hv ▸ Option.some_ne_none v) (by rw [hv, heq])

/-- Placing a legal value keeps the board valid. -/
theorem isBoardValid_setCell (b : Board) (r c v : Nat) (hr : r < 9) (hc : c < 9)
    (hmv : isValidMove b r c v = true) (hbv : isBoardValid b = true) :
    isBoardValid (setCell b r c (some v)) = true := by
  rw [isBoardValid_iff] at hbv ⊢
  have hpeers := (isValidMove_iff_peers b r c v hr hc).mp hmv
  intro r1 c1 r2 c2 hr1 hc1 hr2 hc2 hne hp hnn heq
  by_cases h1 : r1 = r ∧ c1 = c
  · have h2 : ¬(r2 = r ∧ c2 = c) := by
      intro hx
      exact hne (by rw [h1.1, h1.2, hx.1, hx.2])
    rw [h1.1, h1.2, setCell_same] at heq
    rw [setCell_other _ _ _ _ _ _ h2] at heq
    exact hpeers r2 c2 hr2 hc2 (by simpa using fun ha hb => h2 ⟨ha, hb⟩)
      (h1.1 ▸ h1.2 ▸ hp) heq.symm
  · rw [setCell_other _ _ _ _ _ _ h1] at hnn heq
    by_cases h2 : r2 = r ∧ c2 = c
    · rw [h2.1, h2.2, setCell_same] at heq
      exact hpeers r1 c1 hr1 hc1 (by simpa using fun ha hb => h1 ⟨ha, hb⟩)
        (peers_symm (h2.1 ▸ h2.2 ▸ hp)) heq
    · rw [setCell_other _ _ _ _ _ _ h2] at heq
      exact hbv r1 c1 r2 c2 hr1 hc1 hr2 hc2 hne hp hnn heq

/-- A board obtained by blanking some cells of a valid board is valid. -/
theorem isBoardValid_subboard (p b : Board)
    (hsub : ∀ r c, p r c = b r c ∨ p r c = none)
    (hbv : isBoardValid b = true) : isBoardValid p = true := by
  rw [isBoardValid_iff] at hbv ⊢
  intro r1 c1 r2 c2 hr1 hc1 hr2 hc2 hne hp hnn heq
  rcases hsub r1 c1 with e1 | e1
  · rcases hsub r2 c2 with e2 | e2
    · rw [e1, e2] at heq
      exact hbv r1 c1 r2 c2 hr1 hc1 hr2 hc2 hne hp (e1 ▸ hnn) heq
    · rw [e2] at heq
      exact hnn heq
  · exact hnn e1

/-! ## Cell enumeration and counting -/

/-- All 81 in-range cells in row-major order. -/
def cellList : List (Nat × Nat) :=
  (List.range 9).flatMap fun r => (List.range 9).map fun c => (r, c)

theorem mem_cellList (r c : Nat) : (r, c) ∈ cellList ↔ r < 9 ∧ c < 9 := by
  simp [cellList]

theorem cellList_nodup : cellList.Nodup := by decide

theorem cellList_length : cellList.length = 81 := by decide

/-- The first empty cell in row-major order, as scanned by the solver. -/
def firstEmpty (b : Board) : Option (Nat × Nat) :=
  cellList.find? fun p => b p.1 p.2 == none

theorem firstEmpty_eq_none_iff (b : Board) :
    firstEmpty b = none ↔ ∀ r c, r < 9 → c < 9 → b r c ≠ none := by
  simp only [firstEmpty, List.find?_eq_none, beq_iff_eq]
  constructor
  · intro h r c hr hc
    exact h (r, c) ((mem_cellList r c).mpr ⟨hr, hc⟩)
  · rintro h ⟨r, c⟩ hm
    rw [mem_cellList] at hm
    exact h r c hm.1 hm.2

theorem firstEmpty_spec (b : Board) (r c : Nat)
    (h : firstEmpty b = some (r, c)) : r < 9 ∧ c < 9 ∧ b r c = none := by
  have hmem := List.mem_of_find?_eq_some h
  have hp := List.find?_some h
  rw [mem_cellList] at hmem
  simp only [beq_iff_eq] at hp
  exact ⟨hmem.1, hmem.2, hp⟩

/-- `find?` over a strictly sorted list returns the match with least key. -/
theorem find?_min_key {α : Type} (key : α → Nat) (p : α → Bool) :
    ∀ (l : List α) (a : α), l.Pairwise (fun x y => key x < key y) →
      l.find? p = some a → ∀ x ∈ l, p x = true → key a ≤ key x := by
  intro l
  induction l with
  | nil => intro a _ h; simp [List.find?] at h
  | cons q t ih =>
    intro a hpair hfind x hx hpx
    rw [List.pairwise_cons] at hpair
    by_cases hq : p q = true
    · rw [List.find?_cons_of_pos _ hq] at hfind
      obtain rfl : q = a := by simpa using hfind
      rcases List.mem_cons.mp hx with rfl | hx2
      · exact le_refl _
      · exact le_of_lt (hpair.1 x hx2)
    · rw [List.find?_cons_of_neg _ hq] at hfind
      rcases List.mem_cons.mp hx with rfl | hx2
      · exact absurd hpx hq
      · exact ih a hpair.2 hfind x hx2 hpx

theorem cellList_sorted :
    cellList.Pairwise (fun x y => 9 * x.1 + x.2 < 9 * y.1 + y.2) := by decide

/-- The cell found by `firstEmpty` is the row-major-first empty cell. -/
theorem firstEmpty_min (b : Board) (r c : Nat)
    (h : firstEmpty b = some (r, c)) :
    ∀ r2 c2, r2 < 9 → c2 < 9 → b r2 c2 = none → 9 * r + c ≤ 9 * r2 + c2 := by
  intro r2 c2 hr2 hc2 hb
  have h2 : cellList.find? (fun p => b p.1 p.2 == none) = some (r, c) := h
  have := find?_min_key (fun p => 9 * p.1 + p.2) (fun p => b p.1 p.2 == none)
    cellList (r, c) cellList_sorted h2 (r2, c2)
    ((mem_cellList r2 c2).mpr ⟨hr2, hc2⟩) (by simpa using hb)
  simpa using this

/-- Number of empty in-range cells. -/
def emptyCount (b : Board) : Nat :=
  cellList.countP fun p => b p.1 p.2 == none

/-- Number of filled in-range cells (the clue count of a puzzle). -/
def cluesCount (b : Board) : Nat :=
  cellList.countP fun p => b p.1 p.2 != none

theorem emptyCount_le (b : Board) : emptyCount b ≤ 81 := by
  have := List.countP_le_length (l := cellList)
    (p := fun p => b p.1 p.2 == none)
  rw [cellList_length] at this
  exact this

/-- Generic counting step: updating one listed cell exchanges its contribution.
Stated without natural subtraction. -/
theorem countP_setCell {l : List (Nat × Nat)} (hnd : l.Nodup) (b : Board)
    (r c : Nat) (v : Option Nat) (hm : (r, c) ∈ l) (p : Option Nat → Bool) :
    l.countP (fun q => p (setCell b r c v q.1 q.2)) +
      (if p (b r c) then 1 else 0) =
    l.countP (fun q => p (b q.1 q.2)) + (if p v then 1 else 0) := by
  induction l with
  | nil => simp at hm
  | cons q t ih =>
    rw [List.nodup_cons] at hnd
    rcases List.mem_cons.mp hm with heq1 | hmt
    · subst heq1
      have ht : ∀ x ∈ t, p (setCell b r c v x.1 x.2) = true ↔
          p (b x.1 x.2) = true := by
        intro x hx
        have hne : ¬(x.1 = r ∧ x.2 = c) := by
          intro hxe
          apply hnd.1
          have hxe2 : x = (r, c) := Prod.ext hxe.1 hxe.2
          rwa [← hxe2]
        rw [setCell_other _ _ _ _ _ _ hne]
      rw [List.countP_cons, List.countP_cons, List.countP_congr ht]
      simp only [setCell_same]
      by_cases h1 : p (b r c) = true <;> by_cases h2 : p v = true <;>
        simp [h1, h2] <;> omega
    · have hqne : ¬(q.1 = r ∧ q.2 = c) := by
        intro hxe
        apply hnd.1
        have : q = (r, c) := Prod.ext hxe.1 hxe.2
        rwa [this]
      rw [List.countP_cons, List.countP_cons]
      simp only [setCell_other _ _ _ _ _ _ hqne]
      have := ih hnd.2 hmt
      by_cases h1 : p (b q.1 q.2) = true <;> simp [h1] <;> omega

/-! ## Semantic solution notions -/

/-- A well-formed board in the sense of the data model: every in-range cell is
empty or holds a digit 1..9. -/
def WellFormedBoard (b : Board) : Prop :=
  ∀ r c, r < 9 → c < 9 → b r c = none ∨ ∃ v, 1 ≤ v ∧ v ≤ 9 ∧ b r c = some v

/-- `s` is a completion of `b`: it agrees with `b` on filled cells (and on
everything outside the 9×9 grid), fills every in-range cell with a digit 1..9,
and no row, column or box contains the same digit twice. -/
def IsCompletion (b s : Board) : Prop :=
  (∀ r c, b r c ≠ none → s r c = b r c) ∧
  (∀ r c, ¬(r < 9 ∧ c < 9) → s r c = b r c) ∧
  (∀ r c, r < 9 → c < 9 → ∃ v, 1 ≤ v ∧ v ≤ 9 ∧ s r c = some v) ∧
  isBoardValid s = true

/-! ## Solver (`sudokuSolver.ts`) -/

/-- The digit list `1..9` tried by the solver loops. -/
def nums19 : List Nat := [1, 2, 3, 4, 5, 6, 7, 8, 9]

/-- The `for num = 1..9` trial loop of `solveSudoku`, abstracted over the
recursive call `rec` on the board with the candidate placed.  On failure of the
recursive call the candidate is removed again (backtracking). -/
def trySolve (rec : Board → Bool × Board) (r c : Nat) :
    List Nat → Board → Bool × Board
  | [], b => (false, b)
  | n :: rest, b =>
    if isValidMove b r c n then
      match rec (setCell b r c (some n)) with
      | (true, b2) => (true, b2)
      | (false, b2) => trySolve rec r c rest (setCell b2 r c none)
    else trySolve rec r c rest b

/-- `solveSudoku`, with explicit fuel.  The fuel only bounds the recursion
depth, which never exceeds `emptyCount b + 1`; `solveSudoku` supplies fuel 82,
which always suffices. -/
def solveAux : Nat → Board → Bool × Board
  | 0, b => (false, b)
  | fuel + 1, b =>
    match firstEmpty b with
    | none => (true, b)
    | some (r, c) => trySolve (solveAux fuel) r c nums19 b

/-- `solveSudoku(board)`: returns the success flag together with the final
state of the (in the source, mutated in place) board. -/
def solveSudoku (b : Board) : Bool × Board := solveAux 82 b

/-- `getNextHint(board)`: solve a copy; if solvable, return the first cell that
is empty in the original together with the solved copy's value there. -/
def getNextHint (b : Board) : Option (Nat × Nat × Nat) :=
  let res := solveSudoku b
  if res.1 then
    (cellList.find? fun p => b p.1 p.2 == none && res.2 p.1 p.2 != none).map
      fun p => (p.1, p.2, (res.2 p.1 p.2).getD 0)
  else none

/-- `isSolvable(board)`: solve a copy, report the flag. -/
def isSolvable (b : Board) : Bool := (solveSudoku b).1

theorem trySolve_restore (rec : Board → Bool × Board) (r c : Nat)
    (hrec : ∀ b0 b1, rec b0 = (false, b1) → b1 = b0) :
    ∀ (nums : List Nat) (b b2 : Board), b r c = none →
      trySolve rec r c nums b = (false, b2) → b2 = b := by
  intro nums
  induction nums with
  | nil =>
    intro b b2 _ h
    simpa using (Prod.mk.injEq _ _ _ _ ▸ h).2.symm
  | cons n rest ih =>
    intro b b2 hrc h
    rw [trySolve] at h
    by_cases hmv : isValidMove b r c n = true
    · rw [if_pos hmv] at h
      rcases hrec2 : rec (setCell b r c (some n)) with ⟨fl, b1⟩
      rw [hrec2] at h
      cases fl with
      | true => simp at h
      | false =>
        simp only at h
        have hb1 : b1 = setCell b r c (some n) := hrec _ _ hrec2
        have hreset : setCell b1 r c none = b := by
          rw [hb1, setCell_setCell, ← hrc, setCell_self]
        rw [hreset] at h
        exact ih b b2 hrc h
    · rw [if_neg hmv] at h
      exact ih b b2 hrc h

theorem solveAux_restore :
    ∀ (fuel : Nat) (b b2 : Board), solveAux fuel b = (false, b2) → b2 = b := by
  intro fuel
  induction fuel with
  | zero =>
    intro b b2 h
    simpa using (Prod.mk.injEq _ _ _ _ ▸ h).2.symm
  | succ fuel ih =>
    intro b b2 h
    rw [solveAux] at h
    cases hfe : firstEmpty b with
    | none => rw [hfe] at h; simp at h
    | some p =>
      obtain ⟨r, c⟩ := p
      rw [hfe] at h
      have hspec := firstEmpty_spec b r c hfe
      exact trySolve_restore (solveAux fuel) r c ih nums19 b b2 hspec.2.2 h

/-- Everything `solveSudoku` guarantees about the final board when it reports
success: filled input cells are untouched, cells outside the grid are
untouched, every changed cell got a digit from the trial list, the result has
no empty in-range cell, and validity of the input is preserved. -/
def SolveSound (b b2 : Board) : Prop :=
  (∀ r c, b r c ≠ none → b2 r c = b r c) ∧
  (∀ r c, ¬(r < 9 ∧ c < 9) → b2 r c = b r c) ∧
  (∀ r c, r < 9 → c < 9 → b2 r c = b r c ∨ ∃ v, v ∈ nums19 ∧ b2 r c = some v) ∧
  firstEmpty b2 = none ∧
  (isBoardValid b = true → isBoardValid b2 = true)

theorem solveSound_refl (b : Board) (hfull : firstEmpty b = none) :
    SolveSound b b := by
  refine ⟨fun r c _ => rfl, fun r c _ => rfl, fun r c _ _ => Or.inl rfl,
    hfull, fun h => h⟩

/-- Prepending a single legal placement to a sound run stays sound. -/
theorem solveSound_step (b b2 : Board) (r c n : Nat) (hr : r < 9) (hc : c < 9)
    (hrc : b r c = none) (hn : n ∈ nums19) (hmv : isValidMove b r c n = true)
    (h : SolveSound (setCell b r c (some n)) b2) : SolveSound b b2 := by
  obtain ⟨hext, hframe, hvals, hfull, hvalid⟩ := h
  refine ⟨fun r2 c2 hne => ?_, fun r2 c2 hout => ?_, fun r2 c2 hr2 hc2 => ?_,
    hfull, fun hv => hvalid (isBoardValid_setCell b r c n hr hc hmv hv)⟩
  · have hne2 : ¬(r2 = r ∧ c2 = c) := by
      intro hx
      rw [hx.1, hx.2] at hne
      exact hne hrc
    rw [hext r2 c2 (by rw [setCell_other _ _ _ _ _ _ hne2]; exact hne),
      setCell_other _ _ _ _ _ _ hne2]
  · have hne2 : ¬(r2 = r ∧ c2 = c) := by
      intro hx
      exact hout (hx.1 ▸ hx.2 ▸ ⟨hr, hc⟩)
    rw [hframe r2 c2 hout, setCell_other _ _ _ _ _ _ hne2]
  · by_cases hne2 : r2 = r ∧ c2 = c
    · right
      refine ⟨n, hn, ?_⟩
      rw [hext r2 c2 ?_, hne2.1, hne2.2, setCell_same]
      rw [hne2.1, hne2.2, setCell_same]
      simp
    · rcases hvals r2 c2 hr2 hc2 with h1 | h1
      · left
        rw [h1, setCell_other _ _ _ _ _ _ hne2]
      · exact Or.inr h1

theorem trySolve_sound (rec : Board → Bool × Board) (r c : Nat)
    (hr : r < 9) (hc : c < 9)
    (hrecs : ∀ b0 b1, rec b0 = (true, b1) → SolveSound b0 b1)
    (hrecr : ∀ b0 b1, rec b0 = (false, b1) → b1 = b0) :
    ∀ (nums : List Nat) (b b2 : Board), b r c = none →
      (∀ n, n ∈ nums → n ∈ nums19) →
      trySolve rec r c nums b = (true, b2) → SolveSound b b2 := by
  intro nums
  induction nums with
  | nil => intro b b2 _ _ h; simp [trySolve] at h
  | cons n rest ih =>
    intro b b2 hrc hsub h
    rw [trySolve] at h
    by_cases hmv : isValidMove b r c n = true
    · rw [if_pos hmv] at h
      rcases hrec2 : rec (setCell b r c (some n)) with ⟨fl, b1⟩
      rw [hrec2] at h
      cases fl with
      | true =>
        simp only [Prod.mk.injEq] at h
        rw [← h.2]
        exact solveSound_step b b1 r c n hr hc hrc
          (hsub n (List.mem_cons_self n rest)) hmv (hrecs _ _ hrec2)
      | false =>
        simp only at h
        have hb1 : b1 = setCell b r c (some n) := hrecr _ _ hrec2
        have hreset : setCell b1 r c none = b := by
          rw [hb1, setCell_setCell, ← hrc, setCell_self]
        rw [hreset] at h
        exact ih b b2 hrc (fun m hm => hsub m (List.mem_cons_of_mem n hm)) h
    · rw [if_neg hmv] at h
      exact ih b b2 hrc (fun m hm => hsub m (List.mem_cons_of_mem n hm)) h

theorem solveAux_sound :
    ∀ (fuel : Nat) (b b2 : Board), solveAux fuel b = (true, b2) →
      SolveSound b b2 := by
  intro fuel
  induction fuel with
  | zero => intro b b2 h; simp [solveAux] at h
  | succ fuel ih =>
    intro b b2 h
    rw [solveAux] at h
    cases hfe : firstEmpty b with
    | none =>
      rw [hfe] at h
      simp only [Prod.mk.injEq] at h
      rw [← h.2]
      exact solveSound_refl b hfe
    | some p =>
      obtain ⟨r, c⟩ := p
      rw [hfe] at h
      have hspec := firstEmpty_spec b r c hfe
      exact trySolve_sound (solveAux fuel) r c hspec.1 hspec.2.1 ih
        (solveAux_restore fuel) nums19 b b2 hspec.2.2 (fun n hn => hn) h

theorem mem_nums19 {v : Nat} (h1 : 1 ≤ v) (h2 : v ≤ 9) : v ∈ nums19 := by
  have : v = 1 ∨ v = 2 ∨ v = 3 ∨ v = 4 ∨ v = 5 ∨ v = 6 ∨ v = 7 ∨ v = 8 ∨
      v = 9 := by omega
  rcases this with rfl | rfl | rfl | rfl | rfl | rfl | rfl | rfl | rfl <;>
    simp [nums19]

theorem nums19_bounds {v : Nat} (h : v ∈ nums19) : 1 ≤ v ∧ v ≤ 9 := by
  rcases h with _ | ⟨_, _ | ⟨_, _ | ⟨_, _ | ⟨_, _ | ⟨_, _ | ⟨_, _ | ⟨_, _ |
    ⟨_, _ | ⟨_, h⟩⟩⟩⟩⟩⟩⟩⟩⟩ <;> first | omega | cases h

theorem emptyCount_setCell_some (b : Board) (r c v : Nat) (hr : r < 9)
    (hc : c < 9) (hrc : b r c = none) :
    emptyCount (setCell b r c (some v)) + 1 = emptyCount b := by
  have := countP_setCell cellList_nodup b r c (some v)
    ((mem_cellList r c).mpr ⟨hr, hc⟩) (fun o => o == none)
  rw [hrc] at this
  simpa [emptyCount] using this

theorem emptyCount_pos (b : Board) (r c : Nat) (hr : r < 9) (hc : c < 9)
    (hrc : b r c = none) : 0 < emptyCount b := by
  rw [emptyCount, List.countP_pos]
  exact ⟨(r, c), (mem_cellList r c).mpr ⟨hr, hc⟩, by simpa using hrc⟩

/-- If a completion assigns digit `n` to an empty cell, placing `n` there is a
legal move on the partial board. -/
theorem isValidMove_of_completion (b s : Board) (r c n : Nat) (hr : r < 9)
    (hc : c < 9) (hcomp : IsCompletion b s) (hs : s r c = some n) :
    isValidMove b r c n = true := by
  obtain ⟨hext, _, _, hvalid⟩ := hcomp
  rw [isValidMove_iff_peers b r c n hr hc]
  intro r2 c2 hr2 hc2 hne hp hb2
  have hs2 : s r2 c2 = some n := by
    rw [hext r2 c2 (by rw [hb2]; simp), hb2]
  rw [isBoardValid_iff] at hvalid
  exact hvalid r c r2 c2 hr hc hr2 hc2 (fun hx => hne (by simpa using hx.symm))
    hp (by rw [hs]; simp) (by rw [hs, hs2])

theorem IsCompletion_setCell (b s : Board) (r c n : Nat) (hr : r < 9)
    (hc : c < 9) (hrc : b r c = none) (hs : s r c = some n)
    (hcomp : IsCompletion b s) : IsCompletion (setCell b r c (some n)) s := by
  obtain ⟨hext, hframe, hdig, hvalid⟩ := hcomp
  refine ⟨fun r2 c2 hnn => ?_, fun r2 c2 hout => ?_, hdig, hvalid⟩
  · by_cases hne : r2 = r ∧ c2 = c
    · rw [hne.1, hne.2, setCell_same, hs]
    · rw [setCell_other _ _ _ _ _ _ hne] at hnn ⊢
      exact hext r2 c2 hnn
  · have hne : ¬(r2 = r ∧ c2 = c) := by
      intro hx
      exact hout (hx.1 ▸ hx.2 ▸ ⟨hr, hc⟩)
    rw [setCell_other _ _ _ _ _ _ hne]
    exact hframe r2 c2 hout

theorem IsCompletion_unset (b s : Board) (r c n : Nat) (hr : r < 9)
    (hc : c < 9) (hrc : b r c = none)
    (hcomp : IsCompletion (setCell b r c (some n)) s) :
    IsCompletion b s ∧ s r c = some n := by
  obtain ⟨hext, hframe, hdig, hvalid⟩ := hcomp
  have hsrc : s r c = some n := by
    have := hext r c (by rw [setCell_same]; simp)
    rwa [setCell_same] at this
  refine ⟨⟨fun r2 c2 hnn => ?_, fun r2 c2 hout => ?_, hdig, hvalid⟩, hsrc⟩
  · have hne : ¬(r2 = r ∧ c2 = c) := by
      intro hx
      rw [hx.1, hx.2] at hnn
      exact hnn hrc
    have := hext r2 c2 (by rw [setCell_other _ _ _ _ _ _ hne]; exact hnn)
    rwa [setCell_other _ _ _ _ _ _ hne] at this
  · have hne : ¬(r2 = r ∧ c2 = c) := by
      intro hx
      exact hout (hx.1 ▸ hx.2 ▸ ⟨hr, hc⟩)
    have := hframe r2 c2 hout
    rwa [setCell_other _ _ _ _ _ _ hne] at this

/-- Completeness of the backtracking search: on a valid board that has a
completion, the solver succeeds (given enough fuel). -/
theorem solveAux_complete :
    ∀ (fuel : Nat) (b : Board), emptyCount b < fuel →
      isBoardValid b = true → (∃ s, IsCompletion b s) →
      (solveAux fuel b).1 = true := by
  intro fuel
  induction fuel with
  | zero => intro b hfuel _ _; omega
  | succ fuel ih =>
    intro b hfuel hvalid hex
    rw [solveAux]
    cases hfe : firstEmpty b with
    | none => simp
    | some p =>
      obtain ⟨r, c⟩ := p
      obtain ⟨hr, hc, hrc⟩ := firstEmpty_spec b r c hfe
      obtain ⟨s, hcomp⟩ := hex
      obtain ⟨v, hv1, hv9, hsv⟩ := hcomp.2.2.1 r c hr hc
      have hinner : ∀ nums : List Nat, (∃ n ∈ nums, s r c = some n) →
          (trySolve (solveAux fuel) r c nums b).1 = true := by
        intro nums
        induction nums with
        | nil => rintro ⟨n, hn, _⟩; simp at hn
        | cons n rest ihn =>
          rintro ⟨m, hm, hsm⟩
          rw [trySolve]
          by_cases hmv : isValidMove b r c n = true
          · rw [if_pos hmv]
            rcases hrec : solveAux fuel (setCell b r c (some n)) with ⟨fl, b2⟩
            cases fl with
            | true => simp
            | false =>
              simp only
              have hb2 : b2 = setCell b r c (some n) := solveAux_restore _ _ _ hrec
              have hreset : setCell b2 r c none = b := by
                rw [hb2, setCell_setCell, ← hrc, setCell_self]
              rw [hreset]
              have hmne : s r c ≠ some n := by
                intro hsn
                have hcomp1 := IsCompletion_setCell b s r c n hr hc hrc hsn hcomp
                have hcount : emptyCount (setCell b r c (some n)) < fuel := by
                  have := emptyCount_setCell_some b r c n hr hc hrc
                  omega
                have := ih (setCell b r c (some n)) hcount
                  (isBoardValid_setCell b r c n hr hc hmv hvalid) ⟨s, hcomp1⟩
                rw [hrec] at this
                simp at this
              rcases List.mem_cons.mp hm with rfl | hm2
              · exact absurd hsm hmne
              · exact ihn ⟨m, hm2, hsm⟩
          · rw [if_neg hmv]
            have hmne : s r c ≠ some n :=
              fun hsn => hmv (isValidMove_of_completion b s r c n hr hc hcomp hsn)
            rcases List.mem_cons.mp hm with rfl | hm2
            · exact absurd hsm hmne
            · exact ihn ⟨m, hm2, hsm⟩
      exact hinner nums19 ⟨v, mem_nums19 hv1 hv9, hsv⟩

theorem emptyCount_lt_fuel (b : Board) : emptyCount b < 82 := by
  have := emptyCount_le b
  omega

theorem solve_restore (b : Board) (h : (solveSudoku b).1 = false) :
    (solveSudoku b).2 = b := by
  rcases hs : solveSudoku b with ⟨fl, b2⟩
  rw [hs] at h
  simp only at h
  rw [h] at hs
  simpa using solveAux_restore 82 b b2 hs

theorem solve_sound (b : Board) (h : (solveSudoku b).1 = true) :
    SolveSound b (solveSudoku b).2 := by
  rcases hs : solveSudoku b with ⟨fl, b2⟩
  rw [hs] at h
  simp only at h
  rw [h] at hs
  simpa using solveAux_sound 82 b b2 hs

theorem solve_complete (b : Board) (hvalid : isBoardValid b = true)
    (hex : ∃ s, IsCompletion b s) : (solveSudoku b).1 = true :=
  solveAux_complete 82 b (emptyCount_lt_fuel b) hvalid hex

/-- On a well-formed valid board, a successful solver run produces a
completion of the input. -/
theorem solve_completion (b : Board) (hwf : WellFormedBoard b)
    (hvalid : isBoardValid b = true) (h : (solveSudoku b).1 = true) :
    IsCompletion b (solveSudoku b).2 := by
  obtain ⟨hext, hframe, hvals, hfull, hvalid2⟩ := solve_sound b h
  refine ⟨hext, hframe, fun r c hr hc => ?_, hvalid2 hvalid⟩
  have hnn : (solveSudoku b).2 r c ≠ none :=
    (firstEmpty_eq_none_iff _).mp hfull r c hr hc
  rcases hvals r c hr hc with h1 | h1
  · rcases hwf r c hr hc with h2 | ⟨v, hv1, hv9, h2⟩
    · rw [h1] at hnn; exact absurd h2 hnn
    · exact ⟨v, hv1, hv9, by rw [h1, h2]⟩
  · obtain ⟨v, hv, h2⟩ := h1
    obtain ⟨hv1, hv9⟩ := nums19_bounds hv
    exact ⟨v, hv1, hv9, h2⟩

/-- `find?` only depends on the values of the predicate on the list. -/
theorem find?_congr_list {α : Type} (p q : α → Bool) :
    ∀ l : List α, (∀ x ∈ l, p x = q x) → l.find? p = l.find? q := by
  intro l
  induction l with
  | nil => intro _; rfl
  | cons x xs ih =>
    intro h
    have hx := h x (List.mem_cons_self x xs)
    by_cases hpx : p x = true
    · rw [List.find?_cons_of_pos _ hpx, List.find?_cons_of_pos _ (hx ▸ hpx)]
    · rw [List.find?_cons_of_neg _ hpx,
        List.find?_cons_of_neg _ (by rw [← hx]; exact hpx)]
      exact ih fun y hy => h y (List.mem_cons_of_mem x hy)

theorem getNextHint_of_unsolvable (b : Board)
    (h : (solveSudoku b).1 = false) : getNextHint b = none := by
  rw [getNextHint]
  simp [h]

theorem getNextHint_of_solvable (b : Board) (r c : Nat)
    (h : (solveSudoku b).1 = true) (hfe : firstEmpty b = some (r, c)) :
    ∃ v, getNextHint b = some (r, c, v) ∧ (solveSudoku b).2 r c = some v := by
  obtain ⟨hext, hframe, hvals, hfull, hvalid2⟩ := solve_sound b h
  have hcong : cellList.find?
      (fun p => b p.1 p.2 == none && (solveSudoku b).2 p.1 p.2 != none) =
      cellList.find? (fun p => b p.1 p.2 == none) := by
    apply find?_congr_list
    rintro ⟨r2, c2⟩ hmem
    rw [mem_cellList] at hmem
    have := (firstEmpty_eq_none_iff _).mp hfull r2 c2 hmem.1 hmem.2
    simp only [bne_iff_ne, ne_eq, Bool.and_eq_true, beq_iff_eq]
    by_cases hb : b r2 c2 = none <;> simp [hb, this]
  obtain ⟨hr, hc, hrc⟩ := firstEmpty_spec b r c hfe
  have hnn : (solveSudoku b).2 r c ≠ none :=
    (firstEmpty_eq_none_iff _).mp hfull r c hr hc
  obtain ⟨v, hv⟩ := Option.ne_none_iff_exists'.mp hnn
  refine ⟨v, ?_, hv⟩
  rw [getNextHint]
  simp only [h, if_true]
  rw [hcong]
  rw [firstEmpty] at hfe
  rw [hfe]
  simp [hv]

/-! ## Solution counting (`hasUniqueSolution` in `sudokuGenerator.ts`) -/

/-- The digit trial loop of the counting solver `solve` inside
`hasUniqueSolution`, abstracted over the recursive call. -/
def tryCount (rec : Board → Nat → Bool × Board × Nat) (r c : Nat) :
    List Nat → Board → Nat → Bool × Board × Nat
  | [], b, k => (false, b, k)
  | n :: rest, b, k =>
    if isValidMove b r c n then
      match rec (setCell b r c (some n)) k with
      | (true, b2, k2) => (true, b2, k2)
      | (false, b2, k2) => tryCount rec r c rest (setCell b2 r c none) k2
    else tryCount rec r c rest b k

/-- The recursive `solve` of `hasUniqueSolution`: on a full board it
increments the solution counter and reports stop once the count reaches 2. -/
def countAux : Nat → Board → Nat → Bool × Board × Nat
  | 0, b, k => (false, b, k)
  | fuel + 1, b, k =>
    match firstEmpty b with
    | none => (decide (2 ≤ k + 1), b, k + 1)
    | some (r, c) => tryCount (countAux fuel) r c nums19 b k

/-- `hasUniqueSolution(puzzle)`: run the counting solver on a copy and test
whether the final count is exactly 1. -/
def hasUniqueSolution (b : Board) : Bool :=
  (countAux 82 b 0).2.2 == 1

theorem tryCount_restore (rec : Board → Nat → Bool × Board × Nat) (r c : Nat)
    (hrec : ∀ b0 k0 b1 k1, rec b0 k0 = (false, b1, k1) → b1 = b0) :
    ∀ (nums : List Nat) (b : Board) (k : Nat) (b2 : Board) (k2 : Nat),
      b r c = none → tryCount rec r c nums b k = (false, b2, k2) → b2 = b := by
  intro nums
  induction nums with
  | nil =>
    intro b k b2 k2 _ h
    rw [tryCount] at h
    exact (congrArg (fun x : Bool × Board × Nat => x.2.1) h).symm
  | cons n rest ih =>
    intro b k b2 k2 hrc h
    rw [tryCount] at h
    by_cases hmv : isValidMove b r c n = true
    · rw [if_pos hmv] at h
      rcases hrec2 : rec (setCell b r c (some n)) k with ⟨fl, b1, k1⟩
      rw [hrec2] at h
      cases fl with
      | true => simp at h
      | false =>
        simp only at h
        have hb1 : b1 = setCell b r c (some n) := hrec _ _ _ _ hrec2
        have hreset : setCell b1 r c none = b := by
          rw [hb1, setCell_setCell, ← hrc, setCell_self]
        rw [hreset] at h
        exact ih b k1 b2 k2 hrc h
    · rw [if_neg hmv] at h
      exact ih b k b2 k2 hrc h

theorem countAux_restore :
    ∀ (fuel : Nat) (b : Board) (k : Nat) (b2 : Board) (k2 : Nat),
      countAux fuel b k = (false, b2, k2) → b2 = b := by
  intro fuel
  induction fuel with
  | zero =>
    intro b k b2 k2 h
    rw [countAux] at h
    exact (congrArg (fun x : Bool × Board × Nat => x.2.1) h).symm
  | succ fuel ih =>
    intro b k b2 k2 h
    rw [countAux] at h
    cases hfe : firstEmpty b with
    | none =>
      rw [hfe] at h
      have hb := congrArg (fun x => x.2.1) h
      simpa using hb.symm
    | some p =>
      obtain ⟨r, c⟩ := p
      rw [hfe] at h
      exact tryCount_restore (countAux fuel) r c
        (fun b0 k0 b1 k1 hx => ih b0 k0 b1 k1 hx)
        nums19 b k b2 k2 (firstEmpty_spec b r c hfe).2.2 h

theorem tryCount_mono (rec : Board → Nat → Bool × Board × Nat) (r c : Nat)
    (hrec : ∀ b0 k0, k0 ≤ (rec b0 k0).2.2) :
    ∀ (nums : List Nat) (b : Board) (k : Nat),
      k ≤ (tryCount rec r c nums b k).2.2 := by
  intro nums
  induction nums with
  | nil => intro b k; rw [tryCount]
  | cons n rest ih =>
    intro b k
    rw [tryCount]
    by_cases hmv : isValidMove b r c n = true
    · rw [if_pos hmv]
      rcases hrec2 : rec (setCell b r c (some n)) k with ⟨fl, b1, k1⟩
      have hk1 : k ≤ k1 := by
        have := hrec (setCell b r c (some n)) k
        rw [hrec2] at this
        exact this
      cases fl with
      | true => exact hk1
      | false => exact le_trans hk1 (ih _ k1)
    · rw [if_neg hmv]
      exact ih b k

theorem countAux_mono :
    ∀ (fuel : Nat) (b : Board) (k : Nat), k ≤ (countAux fuel b k).2.2 := by
  intro fuel
  induction fuel with
  | zero => intro b k; rw [countAux]
  | succ fuel ih =>
    intro b k
    rw [countAux]
    cases hfe : firstEmpty b with
    | none => simp
    | some p =>
      obtain ⟨r, c⟩ := p
      exact tryCount_mono (countAux fuel) r c (fun b0 k0 => ih b0 k0) nums19 b k

/-- The short-circuit cap: starting from a count of at most 1, a `true` result
means the counter reached exactly 2 and a `false` result means it is still at
most 1. -/
theorem tryCount_cap (rec : Board → Nat → Bool × Board × Nat) (r c : Nat)
    (hrec : ∀ b0 k0, k0 ≤ 1 →
      ((rec b0 k0).1 = true → (rec b0 k0).2.2 = 2) ∧
      ((rec b0 k0).1 = false → (rec b0 k0).2.2 ≤ 1)) :
    ∀ (nums : List Nat) (b : Board) (k : Nat), k ≤ 1 →
      ((tryCount rec r c nums b k).1 = true →
        (tryCount rec r c nums b k).2.2 = 2) ∧
      ((tryCount rec r c nums b k).1 = false →
        (tryCount rec r c nums b k).2.2 ≤ 1) := by
  intro nums
  induction nums with
  | nil =>
    intro b k hk
    rw [tryCount]
    exact ⟨fun h => by simp at h, fun _ => hk⟩
  | cons n rest ih =>
    intro b k hk
    rw [tryCount]
    by_cases hmv : isValidMove b r c n = true
    · rw [if_pos hmv]
      rcases hrec2 : rec (setCell b r c (some n)) k with ⟨fl, b1, k1⟩
      have hcap := hrec (setCell b r c (some n)) k hk
      rw [hrec2] at hcap
      cases fl with
      | true =>
        simp only
        exact ⟨fun _ => hcap.1 rfl, fun h => by simp at h⟩
      | false =>
        simp only
        exact ih _ k1 (hcap.2 rfl)
    · rw [if_neg hmv]
      exact ih b k hk

theorem countAux_cap :
    ∀ (fuel : Nat) (b : Board) (k : Nat), k ≤ 1 →
      ((countAux fuel b k).1 = true → (countAux fuel b k).2.2 = 2) ∧
      ((countAux fuel b k).1 = false → (countAux fuel b k).2.2 ≤ 1) := by
  intro fuel
  induction fuel with
  | zero =>
    intro b k hk
    rw [countAux]
    exact ⟨fun h => by simp at h, fun _ => hk⟩
  | succ fuel ih =>
    intro b k hk
    rw [countAux]
    cases hfe : firstEmpty b with
    | none =>
      simp only
      constructor
      · intro h
        simp only [decide_eq_true_eq] at h
        omega
      · intro h
        simp only [decide_eq_false_iff_not] at h
        omega
    | some p =>
      obtain ⟨r, c⟩ := p
      exact tryCount_cap (countAux fuel) r c (fun b0 k0 hk0 => ih b0 k0 hk0)
        nums19 b k hk

/-- A full, valid, well-formed board is a completion of itself. -/
theorem completion_self (b : Board) (hwf : WellFormedBoard b)
    (hvalid : isBoardValid b = true) (hfull : firstEmpty b = none) :
    IsCompletion b b := by
  refine ⟨fun _ _ _ => rfl, fun _ _ _ => rfl, fun r c hr hc => ?_, hvalid⟩
  have hnn := (firstEmpty_eq_none_iff b).mp hfull r c hr hc
  rcases hwf r c hr hc with h | ⟨v, hv1, hv9, hv⟩
  · exact absurd h hnn
  · exact ⟨v, hv1, hv9, hv⟩

theorem WF_setCell (b : Board) (r c n : Nat) (hwf : WellFormedBoard b)
    (h1 : 1 ≤ n) (h9 : n ≤ 9) : WellFormedBoard (setCell b r c (some n)) := by
  intro r2 c2 hr2 hc2
  by_cases hne : r2 = r ∧ c2 = c
  · rw [hne.1, hne.2, setCell_same]
    exact Or.inr ⟨n, h1, h9, rfl⟩
  · rw [setCell_other _ _ _ _ _ _ hne]
    exact hwf r2 c2 hr2 hc2

/-- A board with no completion contributes nothing to the solution counter:
the counting search returns with the board restored and the count unchanged. -/
theorem tryCount_zero (rec : Board → Nat → Bool × Board × Nat) (r c : Nat)
    (hr : r < 9) (hc : c < 9)
    (hrec : ∀ b0 k0, WellFormedBoard b0 → isBoardValid b0 = true →
      (∀ s, ¬IsCompletion b0 s) → rec b0 k0 = (false, b0, k0)) :
    ∀ (nums : List Nat) (b : Board) (k : Nat),
      (∀ n, n ∈ nums → n ∈ nums19) → b r c = none →
      WellFormedBoard b → isBoardValid b = true →
      (∀ s, ¬IsCompletion b s) →
      tryCount rec r c nums b k = (false, b, k) := by
  intro nums
  induction nums with
  | nil => intro b k _ _ _ _ _; rw [tryCount]
  | cons n rest ih =>
    intro b k hsub hrc hwf hvalid hnone
    rw [tryCount]
    by_cases hmv : isValidMove b r c n = true
    · rw [if_pos hmv]
      have hb1 := nums19_bounds (hsub n (List.mem_cons_self n rest))
      have hsubnone : ∀ s, ¬IsCompletion (setCell b r c (some n)) s := by
        intro s hs
        exact hnone s (IsCompletion_unset b s r c n hr hc hrc hs).1
      rw [hrec (setCell b r c (some n)) k
        (WF_setCell b r c n hwf hb1.1 hb1.2)
        (isBoardValid_setCell b r c n hr hc hmv hvalid) hsubnone]
      have hreset : setCell (setCell b r c (some n)) r c none = b := by
        rw [setCell_setCell, ← hrc, setCell_self]
      show tryCount rec r c rest (setCell (setCell b r c (some n)) r c none) k =
        (false, b, k)
      rw [hreset]
      exact ih b k (fun m hm => hsub m (List.mem_cons_of_mem n hm)) hrc hwf
        hvalid hnone
    · rw [if_neg hmv]
      exact ih b k (fun m hm => hsub m (List.mem_cons_of_mem n hm)) hrc hwf
        hvalid hnone

theorem countAux_zero :
    ∀ (fuel : Nat) (b : Board) (k : Nat), WellFormedBoard b →
      isBoardValid b = true → (∀ s, ¬IsCompletion b s) →
      countAux fuel b k = (false, b, k) := by
  intro fuel
  induction fuel with
  | zero => intro b k _ _ _; rw [countAux]
  | succ fuel ih =>
    intro b k hwf hvalid hnone
    rw [countAux]
    cases hfe : firstEmpty b with
    | none => exact absurd (completion_self b hwf hvalid hfe) (hnone b)
    | some p =>
      obtain ⟨r, c⟩ := p
      obtain ⟨hr, hc, hrc⟩ := firstEmpty_spec b r c hfe
      exact tryCount_zero (countAux fuel) r c hr hc
        (fun b0 k0 => ih b0 k0) nums19 b k (fun n hn => hn) hrc hwf hvalid hnone

/-- Any increase of the solution counter witnesses a completion. -/
theorem tryCount_ex (rec : Board → Nat → Bool × Board × Nat) (r c : Nat)
    (hr : r < 9) (hc : c < 9)
    (hrecx : ∀ b0 k0, WellFormedBoard b0 → isBoardValid b0 = true →
      (rec b0 k0).2.2 > k0 → ∃ s, IsCompletion b0 s)
    (hrecm : ∀ b0 k0, k0 ≤ (rec b0 k0).2.2)
    (hrecr : ∀ b0 k0 b1 k1, rec b0 k0 = (false, b1, k1) → b1 = b0) :
    ∀ (nums : List Nat) (b : Board) (k : Nat),
      (∀ n, n ∈ nums → n ∈ nums19) → b r c = none →
      WellFormedBoard b → isBoardValid b = true →
      (tryCount rec r c nums b k).2.2 > k → ∃ s, IsCompletion b s := by
  intro nums
  induction nums with
  | nil =>
    intro b k _ _ _ _ h
    rw [tryCount] at h
    exact absurd h (lt_irrefl k)
  | cons n rest ih =>
    intro b k hsub hrc hwf hvalid h
    rw [tryCount] at h
    by_cases hmv : isValidMove b r c n = true
    · rw [if_pos hmv] at h
      rcases hrec2 : rec (setCell b r c (some n)) k with ⟨fl, b1, k1⟩
      rw [hrec2] at h
      have hb1 := nums19_bounds (hsub n (List.mem_cons_self n rest))
      have hsubwf := WF_setCell b r c n hwf hb1.1 hb1.2
      have hsubvalid := isBoardValid_setCell b r c n hr hc hmv hvalid
      have hsubex : k1 > k → ∃ s, IsCompletion b s := by
        intro hgt
        have := hrecx (setCell b r c (some n)) k hsubwf hsubvalid
          (by rw [hrec2]; exact hgt)
        obtain ⟨s, hs⟩ := this
        exact ⟨s, (IsCompletion_unset b s r c n hr hc hrc hs).1⟩
      cases fl with
      | true =>
        simp only at h
        exact hsubex h
      | false =>
        simp only at h
        have hk1 : k ≤ k1 := by
          have := hrecm (setCell b r c (some n)) k
          rw [hrec2] at this
          exact this
        by_cases hgt : k1 > k
        · exact hsubex hgt
        · have hkk : k1 = k := by omega
          have hbb1 : b1 = setCell b r c (some n) := hrecr _ _ _ _ hrec2
          have hreset : setCell b1 r c none = b := by
            rw [hbb1, setCell_setCell, ← hrc, setCell_self]
          rw [hreset, hkk] at h
          exact ih b k (fun m hm => hsub m (List.mem_cons_of_mem n hm)) hrc
            hwf hvalid h
    · rw [if_neg hmv] at h
      exact ih b k (fun m hm => hsub m (List.mem_cons_of_mem n hm)) hrc hwf
        hvalid h

theorem countAux_ex :
    ∀ (fuel : Nat) (b : Board) (k : Nat), WellFormedBoard b →
      isBoardValid b = true → (countAux fuel b k).2.2 > k →
      ∃ s, IsCompletion b s := by
  intro fuel
  induction fuel with
  | zero => intro b k _ _ h; rw [countAux] at h; exact absurd h (lt_irrefl k)
  | succ fuel ih =>
    intro b k hwf hvalid h
    rw [countAux] at h
    cases hfe : firstEmpty b with
    | none => exact ⟨b, completion_self b hwf hvalid hfe⟩
    | some p =>
      obtain ⟨r, c⟩ := p
      rw [hfe] at h
      obtain ⟨hr, hc, hrc⟩ := firstEmpty_spec b r c hfe
      exact tryCount_ex (countAux fuel) r c hr hc (fun b0 k0 => ih b0 k0)
        (fun b0 k0 => countAux_mono fuel b0 k0)
        (fun b0 k0 b1 k1 hx => countAux_restore fuel b0 k0 b1 k1 hx)
        nums19 b k (fun n hn => hn) hrc hwf hvalid h

/-- If the board has a completion, the counting search increments the counter
at least once (or has already short-circuited at 2). -/
theorem tryCount_atleast (rec : Board → Nat → Bool × Board × Nat)
    (fuel r c : Nat) (hr : r < 9) (hc : c < 9)
    (hrecm : ∀ b0 k0, k0 ≤ (rec b0 k0).2.2)
    (hrecr : ∀ b0 k0 b1 k1, rec b0 k0 = (false, b1, k1) → b1 = b0)
    (hreccap : ∀ b0 k0, k0 ≤ 1 →
      ((rec b0 k0).1 = true → (rec b0 k0).2.2 = 2) ∧
      ((rec b0 k0).1 = false → (rec b0 k0).2.2 ≤ 1))
    (hreca : ∀ b0 k0, emptyCount b0 < fuel → isBoardValid b0 = true →
      k0 ≤ 1 → (∃ s, IsCompletion b0 s) → (rec b0 k0).2.2 ≥ k0 + 1) :
    ∀ (nums : List Nat) (b : Board) (k : Nat) (s : Board) (v : Nat),
      b r c = none → emptyCount b ≤ fuel → isBoardValid b = true → k ≤ 1 →
      IsCompletion b s → s r c = some v → v ∈ nums →
      (tryCount rec r c nums b k).2.2 ≥ k + 1 := by
  intro nums
  induction nums with
  | nil => intro b k s v _ _ _ _ _ _ hv; simp at hv
  | cons n rest ih =>
    intro b k s v hrc hfuel hvalid hk hcomp hsv hv
    rw [tryCount]
    by_cases hmv : isValidMove b r c n = true
    · rw [if_pos hmv]
      rcases hrec2 : rec (setCell b r c (some n)) k with ⟨fl, b1, k1⟩
      have hcap := hreccap (setCell b r c (some n)) k hk
      rw [hrec2] at hcap
      have hk1m : k ≤ k1 := by
        have := hrecm (setCell b r c (some n)) k
        rw [hrec2] at this
        exact this
      cases fl with
      | true =>
        show k1 ≥ k + 1
        have h2cap : k1 = 2 := hcap.1 rfl
        omega
      | false =>
        simp only
        have hk1c : k1 ≤ 1 := hcap.2 rfl
        have hbb1 : b1 = setCell b r c (some n) := hrecr _ _ _ _ hrec2
        have hreset : setCell b1 r c none = b := by
          rw [hbb1, setCell_setCell, ← hrc, setCell_self]
        rw [hreset]
        by_cases hnv : n = v
        · have hsub : emptyCount (setCell b r c (some n)) < fuel := by
            have h1 := emptyCount_setCell_some b r c n hr hc hrc
            have h2 := emptyCount_pos b r c hr hc hrc
            omega
          have hcomps : IsCompletion (setCell b r c (some n)) s :=
            IsCompletion_setCell b s r c n hr hc hrc (hnv ▸ hsv) hcomp
          have hge := hreca (setCell b r c (some n)) k hsub
            (isBoardValid_setCell b r c n hr hc hmv hvalid) hk ⟨s, hcomps⟩
          rw [hrec2] at hge
          have hge2 : k1 ≥ k + 1 := hge
          have hfinal := tryCount_mono rec r c hrecm rest b k1
          omega
        · have hvrest : v ∈ rest := by
            rcases List.mem_cons.mp hv with h | h
            · exact absurd h.symm hnv
            · exact h
          have := ih b k1 s v hrc hfuel hvalid hk1c hcomp hsv hvrest
          omega
    · rw [if_neg hmv]
      have hnv : n ≠ v := by
        intro h
        apply hmv
        rw [h]
        exact isValidMove_of_completion b s r c v hr hc hcomp hsv
      have hvrest : v ∈ rest := by
        rcases List.mem_cons.mp hv with h | h
        · exact absurd h.symm hnv
        · exact h
      exact ih b k s v hrc hfuel hvalid hk hcomp hsv hvrest

theorem countAux_atleast :
    ∀ (fuel : Nat) (b : Board) (k : Nat), emptyCount b < fuel →
      isBoardValid b = true → k ≤ 1 → (∃ s, IsCompletion b s) →
      (countAux fuel b k).2.2 ≥ k + 1 := by
  intro fuel
  induction fuel with
  | zero => intro b k hfuel _ _ _; omega
  | succ fuel ih =>
    intro b k hfuel hvalid hk hex
    rw [countAux]
    cases hfe : firstEmpty b with
    | none => simp
    | some p =>
      obtain ⟨r, c⟩ := p
      obtain ⟨hr, hc, hrc⟩ := firstEmpty_spec b r c hfe
      obtain ⟨s, hcomp⟩ := hex
      obtain ⟨v, hv1, hv9, hsv⟩ := hcomp.2.2.1 r c hr hc
      exact tryCount_atleast (countAux fuel) fuel r c hr hc
        (fun b0 k0 => countAux_mono fuel b0 k0)
        (fun b0 k0 b1 k1 hx => countAux_restore fuel b0 k0 b1 k1 hx)
        (fun b0 k0 hk0 => countAux_cap fuel b0 k0 hk0)
        (fun b0 k0 h1 h2 h3 h4 => ih b0 k0 h1 h2 h3 h4)
        nums19 b k s v hrc (by omega) hvalid hk hcomp hsv
        (mem_nums19 hv1 hv9)

/-- With two distinct completions available, the counting search pushes the
counter to at least 2. -/
theorem tryCount_two (rec : Board → Nat → Bool × Board × Nat)
    (fuel r c : Nat) (hr : r < 9) (hc : c < 9)
    (hrecm : ∀ b0 k0, k0 ≤ (rec b0 k0).2.2)
    (hrecr : ∀ b0 k0 b1 k1, rec b0 k0 = (false, b1, k1) → b1 = b0)
    (hreccap : ∀ b0 k0, k0 ≤ 1 →
      ((rec b0 k0).1 = true → (rec b0 k0).2.2 = 2) ∧
      ((rec b0 k0).1 = false → (rec b0 k0).2.2 ≤ 1))
    (hreca : ∀ b0 k0, emptyCount b0 < fuel → isBoardValid b0 = true →
      k0 ≤ 1 → (∃ s, IsCompletion b0 s) → (rec b0 k0).2.2 ≥ k0 + 1)
    (hrect : ∀ b0 k0, emptyCount b0 < fuel → isBoardValid b0 = true →
      k0 ≤ 1 → (∃ s1 s2, IsCompletion b0 s1 ∧ IsCompletion b0 s2 ∧ s1 ≠ s2) →
      (rec b0 k0).2.2 ≥ 2) :
    ∀ (nums : List Nat) (b : Board) (k : Nat) (s1 s2 : Board) (v1 v2 : Nat),
      b r c = none → emptyCount b ≤ fuel → isBoardValid b = true → k ≤ 1 →
      IsCompletion b s1 → IsCompletion b s2 → s1 ≠ s2 →
      s1 r c = some v1 → s2 r c = some v2 → v1 ∈ nums → v2 ∈ nums →
      (tryCount rec r c nums b k).2.2 ≥ 2 := by
  intro nums
  induction nums with
  | nil => intro b k s1 s2 v1 v2 _ _ _ _ _ _ _ _ _ hv1 _; simp at hv1
  | cons n rest ih =>
    intro b k s1 s2 v1 v2 hrc hfuel hvalid hk hcomp1 hcomp2 hne hs1 hs2 hv1 hv2
    have hsubcnt : emptyCount (setCell b r c (some n)) < fuel := by
      have h1 := emptyCount_setCell_some b r c n hr hc hrc
      have h2 := emptyCount_pos b r c hr hc hrc
      omega
    rw [tryCount]
    by_cases hmv : isValidMove b r c n = true
    · rw [if_pos hmv]
      rcases hrec2 : rec (setCell b r c (some n)) k with ⟨fl, b1, k1⟩
      have hcap := hreccap (setCell b r c (some n)) k hk
      rw [hrec2] at hcap
      have hsubvalid := isBoardValid_setCell b r c n hr hc hmv hvalid
      cases fl with
      | true =>
        show k1 ≥ 2
        have h2cap : k1 = 2 := hcap.1 rfl
        omega
      | false =>
        simp only
        have hk1c : k1 ≤ 1 := hcap.2 rfl
        have hk1m : k ≤ k1 := by
          have := hrecm (setCell b r c (some n)) k
          rw [hrec2] at this
          exact this
        have hbb1 : b1 = setCell b r c (some n) := hrecr _ _ _ _ hrec2
        have hreset : setCell b1 r c none = b := by
          rw [hbb1, setCell_setCell, ← hrc, setCell_self]
        rw [hreset]
        by_cases hn1 : n = v1
        · by_cases hn2 : n = v2
          · exfalso
            have hc1 : IsCompletion (setCell b r c (some n)) s1 :=
              IsCompletion_setCell b s1 r c n hr hc hrc (hn1 ▸ hs1) hcomp1
            have hc2 : IsCompletion (setCell b r c (some n)) s2 :=
              IsCompletion_setCell b s2 r c n hr hc hrc (hn2 ▸ hs2) hcomp2
            have := hrect (setCell b r c (some n)) k hsubcnt hsubvalid hk
              ⟨s1, s2, hc1, hc2, hne⟩
            rw [hrec2] at this
            have h2 : k1 ≥ 2 := this
            omega
          · have hv2rest : v2 ∈ rest := by
              rcases List.mem_cons.mp hv2 with h | h
              · exact absurd h.symm hn2
              · exact h
            have hc1 : IsCompletion (setCell b r c (some n)) s1 :=
              IsCompletion_setCell b s1 r c n hr hc hrc (hn1 ▸ hs1) hcomp1
            have hge := hreca (setCell b r c (some n)) k hsubcnt hsubvalid hk
              ⟨s1, hc1⟩
            rw [hrec2] at hge
            have hge2 : k1 ≥ k + 1 := hge
            have := tryCount_atleast rec fuel r c hr hc hrecm hrecr hreccap
              hreca rest b k1 s2 v2 hrc hfuel hvalid hk1c hcomp2 hs2 hv2rest
            omega
        · by_cases hn2 : n = v2
          · have hv1rest : v1 ∈ rest := by
              rcases List.mem_cons.mp hv1 with h | h
              · exact absurd h.symm hn1
              · exact h
            have hc2 : IsCompletion (setCell b r c (some n)) s2 :=
              IsCompletion_setCell b s2 r c n hr hc hrc (hn2 ▸ hs2) hcomp2
            have hge := hreca (setCell b r c (some n)) k hsubcnt hsubvalid hk
              ⟨s2, hc2⟩
            rw [hrec2] at hge
            have hge2 : k1 ≥ k + 1 := hge
            have := tryCount_atleast rec fuel r c hr hc hrecm hrecr hreccap
              hreca rest b k1 s1 v1 hrc hfuel hvalid hk1c hcomp1 hs1 hv1rest
            omega
          · have hv1rest : v1 ∈ rest := by
              rcases List.mem_cons.mp hv1 with h | h
              · exact absurd h.symm hn1
              · exact h
            have hv2rest : v2 ∈ rest := by
              rcases List.mem_cons.mp hv2 with h | h
              · exact absurd h.symm hn2
              · exact h
            exact ih b k1 s1 s2 v1 v2 hrc hfuel hvalid hk1c hcomp1 hcomp2 hne
              hs1 hs2 hv1rest hv2rest
    · rw [if_neg hmv]
      have hn1 : n ≠ v1 := by
        intro h
        apply hmv
        rw [h]
        exact isValidMove_of_completion b s1 r c v1 hr hc hcomp1 hs1
      have hn2 : n ≠ v2 := by
        intro h
        apply hmv
        rw [h]
        exact isValidMove_of_completion b s2 r c v2 hr hc hcomp2 hs2
      have hv1rest : v1 ∈ rest := by
        rcases List.mem_cons.mp hv1 with h | h
        · exact absurd h.symm hn1
        · exact h
      have hv2rest : v2 ∈ rest := by
        rcases List.mem_cons.mp hv2 with h | h
        · exact absurd h.symm hn2
        · exact h
      exact ih b k s1 s2 v1 v2 hrc hfuel hvalid hk hcomp1 hcomp2 hne hs1 hs2
        hv1rest hv2rest

theorem countAux_two :
    ∀ (fuel : Nat) (b : Board) (k : Nat), emptyCount b < fuel →
      isBoardValid b = true → k ≤ 1 →
      (∃ s1 s2, IsCompletion b s1 ∧ IsCompletion b s2 ∧ s1 ≠ s2) →
      (countAux fuel b k).2.2 ≥ 2 := by
  intro fuel
  induction fuel with
  | zero => intro b k hfuel _ _ _; omega
  | succ fuel ih =>
    intro b k hfuel hvalid hk hex
    obtain ⟨s1, s2, hcomp1, hcomp2, hne⟩ := hex
    rw [countAux]
    cases hfe : firstEmpty b with
    | none =>
      exfalso
      apply hne
      funext r2 c2
      by_cases hin : r2 < 9 ∧ c2 < 9
      · have hnn := (firstEmpty_eq_none_iff b).mp hfe r2 c2 hin.1 hin.2
        rw [hcomp1.1 r2 c2 hnn, hcomp2.1 r2 c2 hnn]
      · rw [hcomp1.2.1 r2 c2 hin, hcomp2.2.1 r2 c2 hin]
    | some p =>
      obtain ⟨r, c⟩ := p
      obtain ⟨hr, hc, hrc⟩ := firstEmpty_spec b r c hfe
      obtain ⟨v1, _, _, hs1⟩ := hcomp1.2.2.1 r c hr hc
      obtain ⟨v2, _, _, hs2⟩ := hcomp2.2.2.1 r c hr hc
      exact tryCount_two (countAux fuel) fuel r c hr hc
        (fun b0 k0 => countAux_mono fuel b0 k0)
        (fun b0 k0 b1 k1 hx => countAux_restore fuel b0 k0 b1 k1 hx)
        (fun b0 k0 hk0 => countAux_cap fuel b0 k0 hk0)
        (fun b0 k0 h1 h2 h3 h4 => countAux_atleast fuel b0 k0 h1 h2 h3 h4)
        (fun b0 k0 h1 h2 h3 h4 => ih b0 k0 h1 h2 h3 h4)
        nums19 b k s1 s2 v1 v2 hrc (by omega) hvalid hk hcomp1 hcomp2 hne
        hs1 hs2 (mem_nums19 (by omega) (by omega))
        (mem_nums19 (by omega) (by omega))

/-- With exactly one completion available, the digit loop adds exactly one to
the counter (and nothing at all if the completion's digit is not in the trial
list). -/
theorem tryCount_unique (rec : Board → Nat → Bool × Board × Nat)
    (fuel r c : Nat) (hr : r < 9) (hc : c < 9)
    (hreccap : ∀ b0 k0, k0 ≤ 1 →
      ((rec b0 k0).1 = true → (rec b0 k0).2.2 = 2) ∧
      ((rec b0 k0).1 = false → (rec b0 k0).2.2 ≤ 1))
    (hrecr : ∀ b0 k0 b1 k1, rec b0 k0 = (false, b1, k1) → b1 = b0)
    (hrecz : ∀ b0 k0, WellFormedBoard b0 → isBoardValid b0 = true →
      (∀ s, ¬IsCompletion b0 s) → rec b0 k0 = (false, b0, k0))
    (hrecu : ∀ b0 k0 s0, emptyCount b0 < fuel → WellFormedBoard b0 →
      isBoardValid b0 = true → k0 ≤ 1 → IsCompletion b0 s0 →
      (∀ s2, IsCompletion b0 s2 → s2 = s0) → (rec b0 k0).2.2 = k0 + 1) :
    ∀ (nums : List Nat) (b : Board) (k : Nat) (s : Board) (v : Nat),
      (∀ n, n ∈ nums → n ∈ nums19) → nums.Nodup →
      b r c = none → emptyCount b ≤ fuel → WellFormedBoard b →
      isBoardValid b = true → k ≤ 1 →
      IsCompletion b s → (∀ s2, IsCompletion b s2 → s2 = s) →
      s r c = some v →
      (v ∈ nums → (tryCount rec r c nums b k).2.2 = k + 1) ∧
      (v ∉ nums → tryCount rec r c nums b k = (false, b, k)) := by
  intro nums
  induction nums with
  | nil =>
    intro b k s v _ _ _ _ _ _ _ _ _ _
    exact ⟨fun hv => by simp at hv, fun _ => by rw [tryCount]⟩
  | cons n rest ih =>
    intro b k s v hsub hnd hrc hfuel hwf hvalid hk hcomp huniq hsv
    rw [List.nodup_cons] at hnd
    have hbnd := nums19_bounds (hsub n (List.mem_cons_self n rest))
    have hsubcnt : emptyCount (setCell b r c (some n)) < fuel := by
      have h1 := emptyCount_setCell_some b r c n hr hc hrc
      have h2 := emptyCount_pos b r c hr hc hrc
      omega
    by_cases hnv : n = v
    · subst hnv
      have hmv : isValidMove b r c n = true :=
        isValidMove_of_completion b s r c n hr hc hcomp hsv
      have hsubwf : WellFormedBoard (setCell b r c (some n)) :=
        WF_setCell b r c n hwf hbnd.1 hbnd.2
      have hsubvalid := isBoardValid_setCell b r c n hr hc hmv hvalid
      have hsubcomp : IsCompletion (setCell b r c (some n)) s :=
        IsCompletion_setCell b s r c n hr hc hrc hsv hcomp
      have hsubuniq : ∀ s2, IsCompletion (setCell b r c (some n)) s2 →
          s2 = s := by
        intro s2 hs2
        exact huniq s2 (IsCompletion_unset b s2 r c n hr hc hrc hs2).1
      have hval := hrecu (setCell b r c (some n)) k s hsubcnt hsubwf hsubvalid
        hk hsubcomp hsubuniq
      constructor
      · intro _
        rw [tryCount, if_pos hmv]
        rcases hrec2 : rec (setCell b r c (some n)) k with ⟨fl, b1, k1⟩
        rw [hrec2] at hval
        have hk1 : k1 = k + 1 := hval
        have hcap := hreccap (setCell b r c (some n)) k hk
        rw [hrec2] at hcap
        cases fl with
        | true => exact hk1
        | false =>
          simp only
          have hbb1 : b1 = setCell b r c (some n) := hrecr _ _ _ _ hrec2
          have hreset : setCell b1 r c none = b := by
            rw [hbb1, setCell_setCell, ← hrc, setCell_self]
          rw [hreset]
          have hk1c : k1 ≤ 1 := hcap.2 rfl
          have hrest := (ih b k1 s n
            (fun m hm => hsub m (List.mem_cons_of_mem n hm)) hnd.2 hrc hfuel
            hwf hvalid hk1c hcomp huniq hsv).2 hnd.1
          rw [hrest, hk1]
      · intro hnotin
        exact absurd (List.mem_cons_self n rest) hnotin
    · have hnocomp : ∀ s2, ¬IsCompletion (setCell b r c (some n)) s2 := by
        intro s2 hs2
        obtain ⟨hs2b, hs2rc⟩ := IsCompletion_unset b s2 r c n hr hc hrc hs2
        have := huniq s2 hs2b
        rw [this, hsv] at hs2rc
        exact hnv (by simpa using hs2rc.symm)
      have hstep : tryCount rec r c (n :: rest) b k =
          tryCount rec r c rest b k := by
        rw [tryCount]
        by_cases hmv : isValidMove b r c n = true
        · rw [if_pos hmv]
          rw [hrecz (setCell b r c (some n)) k
            (WF_setCell b r c n hwf hbnd.1 hbnd.2)
            (isBoardValid_setCell b r c n hr hc hmv hvalid) hnocomp]
          show tryCount rec r c rest
            (setCell (setCell b r c (some n)) r c none) k =
            tryCount rec r c rest b k
          rw [setCell_setCell, ← hrc, setCell_self]
        · rw [if_neg hmv]
      have hrest := ih b k s v
        (fun m hm => hsub m (List.mem_cons_of_mem n hm)) hnd.2 hrc hfuel hwf
        hvalid hk hcomp huniq hsv
      constructor
      · intro hv
        rcases List.mem_cons.mp hv with h | h
        · exact absurd h.symm hnv
        · rw [hstep]
          exact hrest.1 h
      · intro hnotin
        rw [hstep]
        exact hrest.2 (fun h => hnotin (List.mem_cons_of_mem n h))

theorem nums19_nodup : nums19.Nodup := by decide

theorem countAux_unique :
    ∀ (fuel : Nat) (b : Board) (k : Nat) (s : Board), emptyCount b < fuel →
      WellFormedBoard b → isBoardValid b = true → k ≤ 1 →
      IsCompletion b s → (∀ s2, IsCompletion b s2 → s2 = s) →
      (countAux fuel b k).2.2 = k + 1 := by
  intro fuel
  induction fuel with
  | zero => intro b k s hfuel _ _ _ _ _; omega
  | succ fuel ih =>
    intro b k s hfuel hwf hvalid hk hcomp huniq
    rw [countAux]
    cases hfe : firstEmpty b with
    | none => simp
    | some p =>
      obtain ⟨r, c⟩ := p
      obtain ⟨hr, hc, hrc⟩ := firstEmpty_spec b r c hfe
      obtain ⟨v, hv1, hv9, hsv⟩ := hcomp.2.2.1 r c hr hc
      exact (tryCount_unique (countAux fuel) fuel r c hr hc
        (fun b0 k0 hk0 => countAux_cap fuel b0 k0 hk0)
        (fun b0 k0 b1 k1 hx => countAux_restore fuel b0 k0 b1 k1 hx)
        (fun b0 k0 h1 h2 h3 => countAux_zero fuel b0 k0 h1 h2 h3)
        (fun b0 k0 s0 h1 h2 h3 h4 h5 h6 => ih b0 k0 s0 h1 h2 h3 h4 h5 h6)
        nums19 b k s v (fun n hn => hn) nums19_nodup hrc (by omega) hwf hvalid
        hk hcomp huniq hsv).1 (mem_nums19 hv1 hv9)

/-! ## Generator (`sudokuGenerator.ts`) -/

/-- One Fisher-Yates swap `[arr[i], arr[j]] = [arr[j], arr[i]]`. -/
def swapIdx {α : Type} (xs : List α) (i j : Nat) : List α :=
  match xs[i]?, xs[j]? with
  | some a, some b => (xs.set i b).set j a
  | _, _ => xs

theorem cons_set_perm {α : Type} (t : List α) (m : Nat) (a b : α)
    (hm : m < t.length) (hb : t[m] = b) : (b :: t.set m a).Perm (a :: t) := by
  rw [List.set_eq_take_cons_drop a hm]
  conv_rhs => rw [← List.take_append_drop m t, ← List.getElem_cons_drop t m hm,
    hb]
  exact (List.Perm.cons b List.perm_middle).trans
    ((List.Perm.swap a b _).trans (List.Perm.cons a List.perm_middle.symm))

theorem set_swap_perm {α : Type} :
    ∀ (xs : List α) (i j : Nat) (a b : α), xs[i]? = some a →
      xs[j]? = some b → ((xs.set i b).set j a).Perm xs := by
  intro xs
  induction xs with
  | nil => intro i j a b hi _; simp at hi
  | cons x t ih =>
    intro i j a b hi hj
    match i, j with
    | 0, 0 =>
      simp only [List.getElem?_cons_zero, Option.some.injEq] at hi hj
      simp [← hi]
    | 0, m + 1 =>
      simp only [List.getElem?_cons_zero, Option.some.injEq] at hi
      simp only [List.getElem?_cons_succ] at hj
      obtain ⟨hm, hb⟩ := List.getElem?_eq_some_iff.mp hj
      simp only [List.set_cons_zero, List.set_cons_succ]
      rw [← hi]
      exact cons_set_perm t m x b hm hb
    | m + 1, 0 =>
      simp only [List.getElem?_cons_zero, Option.some.injEq] at hj
      simp only [List.getElem?_cons_succ] at hi
      obtain ⟨hm, ha⟩ := List.getElem?_eq_some_iff.mp hi
      simp only [List.set_cons_zero, List.set_cons_succ]
      rw [← hj]
      exact cons_set_perm t m x a hm ha
    | m + 1, l + 1 =>
      simp only [List.getElem?_cons_succ] at hi hj
      simp only [List.set_cons_succ]
      exact List.Perm.cons x (ih m l a b hi hj)

theorem swapIdx_perm {α : Type} (xs : List α) (i j : Nat) :
    (swapIdx xs i j).Perm xs := by
  rw [swapIdx]
  split
  · rename_i a b hi hj
    exact set_swap_perm xs i j a b hi hj
  · exact List.Perm.refl xs

/-- The descending swap loop of `shuffleArray`; `k` indexes the entropy
stream, the second argument is the current loop index `i`. -/
def shuffleAux {α : Type} (g : Nat → Nat) : Nat → Nat → List α → List α
  | _, 0, xs => xs
  | k, i + 1, xs => shuffleAux g (k + 1) i (swapIdx xs (i + 1) (g k % (i + 2)))

/-- `shuffleArray` (Fisher-Yates), parameterised by the entropy stream `g`
standing for the successive `Math.random()` draws. -/
def shuffleArray {α : Type} (g : Nat → Nat) (xs : List α) : List α :=
  shuffleAux g 0 (xs.length - 1) xs

theorem shuffleAux_perm {α : Type} (g : Nat → Nat) :
    ∀ (i k : Nat) (xs : List α), (shuffleAux g k i xs).Perm xs := by
  intro i
  induction i with
  | zero => intro k xs; exact List.Perm.refl xs
  | succ i ih =>
    intro k xs
    rw [shuffleAux]
    exact (ih (k + 1) _).trans (swapIdx_perm xs (i + 1) (g k % (i + 2)))

theorem shuffleArray_perm {α : Type} (g : Nat → Nat) (xs : List α) :
    (shuffleArray g xs).Perm xs := shuffleAux_perm g _ 0 xs

/-- The `Difficulty` enum. -/
inductive Difficulty : Type
  | easy
  | medium
  | hard
  | expert
deriving DecidableEq

/-- `getBoxConstraints(difficulty)`: (min, max) clues per 3×3 box. -/
def getBoxConstraints : Difficulty → Nat × Nat
  | .easy => (3, 6)
  | .medium => (2, 5)
  | .hard => (1, 4)
  | .expert => (0, 3)

/-- `getCluesRange(difficulty)`: (min, max) total clues. -/
def getCluesRange : Difficulty → Nat × Nat
  | .easy => (36, 41)
  | .medium => (27, 32)
  | .hard => (22, 27)
  | .expert => (17, 22)

/-- `countFilledInBox(board, boxRow, boxCol)`. -/
def countFilledInBox (b : Board) (boxRow boxCol : Nat) : Nat :=
  ((List.range 3).flatMap fun i => (List.range 3).map fun j =>
    (boxRow * 3 + i, boxCol * 3 + j)).countP fun p => b p.1 p.2 != none

/-- The digit trial loop of the `fillBoard` recursion inside
`generateCompleteSudoku`, abstracted over the recursive call (which receives
the updated entropy counter). -/
def tryNums (rec : Nat → Board → Bool × Board × Nat) (row col : Nat) :
    List Nat → Nat → Board → Bool × Board × Nat
  | [], cnt, b => (false, b, cnt)
  | n :: rest, cnt, b =>
    if isValidMove b row col n then
      match rec cnt (setCell b row col (some n)) with
      | (true, b2, c2) => (true, b2, c2)
      | (false, b2, c2) => tryNums rec row col rest c2 (setCell b2 row col none)
    else tryNums rec row col rest cnt b

/-- `fillBoard(row, col)` of `generateCompleteSudoku`: scan positions in
row-major order, trying the digits `perms cnt` (a fresh shuffle per dynamic
call in the source; `cnt` numbers the calls) at each cell.  Fuel bounds the
position recursion; 82 suffices from `(0, 0)`. -/
def fillCell (perms : Nat → List Nat) :
    Nat → Nat → Nat → Nat → Board → Bool × Board × Nat
  | 0, _, _, cnt, b => (false, b, cnt)
  | fuel + 1, row, col, cnt, b =>
    if row = 9 then (true, b, cnt)
    else
      tryNums (fillCell perms fuel (if col = 8 then row + 1 else row)
        (if col = 8 then 0 else col + 1)) row col (perms cnt) (cnt + 1) b

/-- `generateCompleteSudoku()`: run `fillBoard(0, 0)` on an empty board with a
fresh shuffle of 1..9 per call, and return the board (the source ignores the
boolean result). -/
def generateCompleteSudoku (g : Nat → Nat → Nat) : Board :=
  (fillCell (fun k => shuffleArray (g k) nums19) 82 0 0 0 emptyBoard).2.1

/-- All cells at row-major positions at or after `(row, col)` are empty. -/
def SuffixEmpty (row col : Nat) (b : Board) : Prop :=
  ∀ r2 c2, r2 < 9 → c2 < 9 → 9 * row + col ≤ 9 * r2 + c2 → b r2 c2 = none

theorem suffixEmpty_cell (row col : Nat) (b : Board) (hrow : row < 9)
    (hcol : col < 9) (h : SuffixEmpty row col b) : b row col = none :=
  h row col hrow hcol (le_refl _)

theorem suffixEmpty_next (row col n : Nat) (b : Board) (hcol : col < 9)
    (h : SuffixEmpty row col b) :
    SuffixEmpty (if col = 8 then row + 1 else row)
      (if col = 8 then 0 else col + 1) (setCell b row col (some n)) := by
  intro r2 c2 hr2 hc2 hpos
  have hposx : 9 * row + col + 1 ≤ 9 * r2 + c2 := by
    by_cases h8 : col = 8 <;> simp [h8] at hpos <;> omega
  have hne : ¬(r2 = row ∧ c2 = col) := by
    rintro ⟨rfl, rfl⟩
    omega
  rw [setCell_other _ _ _ _ _ _ hne]
  exact h r2 c2 hr2 hc2 (by omega)

theorem isBoardValid_emptyBoard : isBoardValid emptyBoard = true := by decide

theorem tryNumsF_restore (rec : Nat → Board → Bool × Board × Nat)
    (row col : Nat) (hrow : row < 9) (hcol : col < 9)
    (hrec : ∀ cnt0 b0 b1 c1,
      SuffixEmpty (if col = 8 then row + 1 else row)
        (if col = 8 then 0 else col + 1) b0 →
      rec cnt0 b0 = (false, b1, c1) → b1 = b0) :
    ∀ (nums : List Nat) (cnt : Nat) (b b2 : Board) (c2 : Nat),
      SuffixEmpty row col b →
      tryNums rec row col nums cnt b = (false, b2, c2) → b2 = b := by
  intro nums
  induction nums with
  | nil =>
    intro cnt b b2 c2 _ h
    rw [tryNums] at h
    exact (congrArg (fun x : Bool × Board × Nat => x.2.1) h).symm
  | cons n rest ih =>
    intro cnt b b2 c2 hsuf h
    have hrc : b row col = none := suffixEmpty_cell row col b hrow hcol hsuf
    rw [tryNums] at h
    by_cases hmv : isValidMove b row col n = true
    · rw [if_pos hmv] at h
      rcases hrec2 : rec cnt (setCell b row col (some n)) with ⟨fl, b1, c1⟩
      rw [hrec2] at h
      cases fl with
      | true => simp at h
      | false =>
        simp only at h
        have hb1 : b1 = setCell b row col (some n) :=
          hrec cnt _ b1 c1 (suffixEmpty_next row col n b hcol hsuf) hrec2
        have hreset : setCell b1 row col none = b := by
          rw [hb1, setCell_setCell, ← hrc, setCell_self]
        rw [hreset] at h
        exact ih c1 b b2 c2 hsuf h
    · rw [if_neg hmv] at h
      exact ih cnt b b2 c2 hsuf h

theorem fillCell_restore (perms : Nat → List Nat) :
    ∀ (fuel row col cnt : Nat) (b : Board) (b2 : Board) (c2 : Nat),
      row ≤ 9 → col < 9 → SuffixEmpty row col b →
      fillCell perms fuel row col cnt b = (false, b2, c2) → b2 = b := by
  intro fuel
  induction fuel with
  | zero =>
    intro row col cnt b b2 c2 _ _ _ h
    rw [fillCell] at h
    exact (congrArg (fun x : Bool × Board × Nat => x.2.1) h).symm
  | succ fuel ih =>
    intro row col cnt b b2 c2 hrow hcol hsuf h
    rw [fillCell] at h
    by_cases h9 : row = 9
    · rw [if_pos h9] at h; simp at h
    · rw [if_neg h9] at h
      have hrow9 : row < 9 := by omega
      have hnextrow : (if col = 8 then row + 1 else row) ≤ 9 := by
        by_cases h8 : col = 8 <;> simp [h8] <;> omega
      have hnextcol : (if col = 8 then 0 else col + 1) < 9 := by
        by_cases h8 : col = 8 <;> simp [h8] <;> omega
      exact tryNumsF_restore _ row col hrow9 hcol
        (fun cnt0 b0 b1 c1 hs0 hx => ih _ _ cnt0 b0 b1 c1 hnextrow hnextcol
          hs0 hx)
        (perms cnt) (cnt + 1) b b2 c2 hsuf h

/-- What a successful `fillBoard` run from position `(row, col)` guarantees:
earlier and out-of-range cells are untouched, every cell from `(row, col)` on
is filled with a digit from the trial lists, and validity is preserved. -/
def FillSound (row col : Nat) (b b2 : Board) : Prop :=
  (∀ r2 c2, (¬(r2 < 9 ∧ c2 < 9) ∨ 9 * r2 + c2 < 9 * row + col) →
    b2 r2 c2 = b r2 c2) ∧
  (∀ r2 c2, r2 < 9 → c2 < 9 → 9 * row + col ≤ 9 * r2 + c2 →
    ∃ v, v ∈ nums19 ∧ b2 r2 c2 = some v) ∧
  (isBoardValid b = true → isBoardValid b2 = true)

theorem fillSound_base (row col : Nat) (b : Board) (h9 : row = 9) :
    FillSound row col b b := by
  refine ⟨fun _ _ _ => rfl, fun r2 c2 hr2 hc2 hpos => ?_, fun h => h⟩
  omega

theorem fillSound_step (row col n : Nat) (b b2 : Board) (hrow : row < 9)
    (hcol : col < 9) (hrc : b row col = none) (hn : n ∈ nums19)
    (hmv : isValidMove b row col n = true)
    (h : FillSound (if col = 8 then row + 1 else row)
      (if col = 8 then 0 else col + 1) (setCell b row col (some n)) b2) :
    FillSound row col b b2 := by
  obtain ⟨hpre, hfill, hval⟩ := h
  have hposnext : 9 * (if col = 8 then row + 1 else row) +
      (if col = 8 then 0 else col + 1) = 9 * row + col + 1 := by
    by_cases h8 : col = 8 <;> simp [h8] <;> omega
  refine ⟨fun r2 c2 hq => ?_, fun r2 c2 hr2 hc2 hpos => ?_, fun hv =>
    hval (isBoardValid_setCell b row col n hrow hcol hmv hv)⟩
  · have hne : ¬(r2 = row ∧ c2 = col) := by
      rintro ⟨rfl, rfl⟩
      rcases hq with hq | hq
      · exact hq ⟨hrow, hcol⟩
      · omega
    have harg : ¬(r2 < 9 ∧ c2 < 9) ∨ 9 * r2 + c2 <
        9 * (if col = 8 then row + 1 else row) +
          (if col = 8 then 0 else col + 1) := by
      rw [hposnext]
      rcases hq with hq | hq
      · exact Or.inl hq
      · exact Or.inr (by omega)
    rw [hpre r2 c2 harg, setCell_other _ _ _ _ _ _ hne]
  · by_cases heq : r2 = row ∧ c2 = col
    · refine ⟨n, hn, ?_⟩
      have harg : ¬(row < 9 ∧ col < 9) ∨ 9 * row + col <
          9 * (if col = 8 then row + 1 else row) +
            (if col = 8 then 0 else col + 1) := by
        rw [hposnext]
        exact Or.inr (by omega)
      rw [heq.1, heq.2, hpre row col harg, setCell_same]
    · have hgt : 9 * row + col < 9 * r2 + c2 := by
        rcases Nat.lt_or_ge (9 * row + col) (9 * r2 + c2) with h | h
        · exact h
        · exfalso
          have : 9 * row + col = 9 * r2 + c2 := by omega
          exact heq ⟨by omega, by omega⟩
      exact hfill r2 c2 hr2 hc2 (by rw [hposnext]; omega)

theorem tryNumsF_sound (rec : Nat → Board → Bool × Board × Nat)
    (row col : Nat) (hrow : row < 9) (hcol : col < 9)
    (hrecs : ∀ cnt0 b0 b1 c1,
      SuffixEmpty (if col = 8 then row + 1 else row)
        (if col = 8 then 0 else col + 1) b0 →
      rec cnt0 b0 = (true, b1, c1) →
      FillSound (if col = 8 then row + 1 else row)
        (if col = 8 then 0 else col + 1) b0 b1)
    (hrecr : ∀ cnt0 b0 b1 c1,
      SuffixEmpty (if col = 8 then row + 1 else row)
        (if col = 8 then 0 else col + 1) b0 →
      rec cnt0 b0 = (false, b1, c1) → b1 = b0) :
    ∀ (nums : List Nat) (cnt : Nat) (b b2 : Board) (c2 : Nat),
      SuffixEmpty row col b → (∀ n, n ∈ nums → n ∈ nums19) →
      tryNums rec row col nums cnt b = (true, b2, c2) →
      FillSound row col b b2 := by
  intro nums
  induction nums with
  | nil => intro cnt b b2 c2 _ _ h; simp [tryNums] at h
  | cons n rest ih =>
    intro cnt b b2 c2 hsuf hsub h
    have hrc : b row col = none := suffixEmpty_cell row col b hrow hcol hsuf
    rw [tryNums] at h
    by_cases hmv : isValidMove b row col n = true
    · rw [if_pos hmv] at h
      rcases hrec2 : rec cnt (setCell b row col (some n)) with ⟨fl, b1, c1⟩
      rw [hrec2] at h
      cases fl with
      | true =>
        simp only [Prod.mk.injEq] at h
        rw [← h.2.1]
        exact fillSound_step row col n b b1 hrow hcol hrc
          (hsub n (List.mem_cons_self n rest)) hmv
          (hrecs _ _ _ _ (suffixEmpty_next row col n b hcol hsuf) hrec2)
      | false =>
        simp only at h
        have hb1 : b1 = setCell b row col (some n) :=
          hrecr cnt _ b1 c1 (suffixEmpty_next row col n b hcol hsuf) hrec2
        have hreset : setCell b1 row col none = b := by
          rw [hb1, setCell_setCell, ← hrc, setCell_self]
        rw [hreset] at h
        exact ih c1 b b2 c2 hsuf
          (fun m hm => hsub m (List.mem_cons_of_mem n hm)) h
    · rw [if_neg hmv] at h
      exact ih cnt b b2 c2 hsuf
        (fun m hm => hsub m (List.mem_cons_of_mem n hm)) h

theorem fillCell_sound (perms : Nat → List Nat)
    (hperms : ∀ k n, n ∈ perms k → n ∈ nums19) :
    ∀ (fuel row col cnt : Nat) (b : Board) (b2 : Board) (c2 : Nat),
      row ≤ 9 → col < 9 → SuffixEmpty row col b →
      fillCell perms fuel row col cnt b = (true, b2, c2) →
      FillSound row col b b2 := by
  intro fuel
  induction fuel with
  | zero => intro row col cnt b b2 c2 _ _ _ h; simp [fillCell] at h
  | succ fuel ih =>
    intro row col cnt b b2 c2 hrow hcol hsuf h
    rw [fillCell] at h
    by_cases h9 : row = 9
    · rw [if_pos h9] at h
      simp only [Prod.mk.injEq] at h
      rw [← h.2.1]
      exact fillSound_base row col b h9
    · rw [if_neg h9] at h
      have hrow9 : row < 9 := by omega
      have hnextrow : (if col = 8 then row + 1 else row) ≤ 9 := by
        by_cases h8 : col = 8 <;> simp [h8] <;> omega
      have hnextcol : (if col = 8 then 0 else col + 1) < 9 := by
        by_cases h8 : col = 8 <;> simp [h8] <;> omega
      exact tryNumsF_sound _ row col hrow9 hcol
        (fun cnt0 b0 b1 c1 hs0 hx => ih _ _ cnt0 b0 b1 c1 hnextrow hnextcol
          hs0 hx)
        (fun cnt0 b0 b1 c1 hs0 hx => fillCell_restore perms fuel _ _ cnt0 b0
          b1 c1 hnextrow hnextcol hs0 hx)
        (perms cnt) (cnt + 1) b b2 c2 hsuf (fun m hm => hperms cnt m hm) h

/-- Completeness of the fill search: from any position, if the remaining cells
are all empty, the board so far is valid and a completion exists, the fill
succeeds for every entropy stream. -/
theorem fillCell_complete (perms : Nat → List Nat)
    (hperms : ∀ k n, 1 ≤ n → n ≤ 9 → n ∈ perms k) :
    ∀ (fuel row col cnt : Nat) (b : Board), row ≤ 9 → col < 9 →
      9 * row + col ≤ 81 → 82 ≤ fuel + 9 * row + col →
      SuffixEmpty row col b → isBoardValid b = true →
      (∃ s, IsCompletion b s) →
      (fillCell perms fuel row col cnt b).1 = true := by
  intro fuel
  induction fuel with
  | zero => intro row col cnt b _ _ hpos hfuel _ _ _; omega
  | succ fuel ih =>
    intro row col cnt b hrow hcol hpos hfuel hsuf hvalid hex
    rw [fillCell]
    by_cases h9 : row = 9
    · rw [if_pos h9]
    · rw [if_neg h9]
      have hrow9 : row < 9 := by omega
      have hrc : b row col = none := suffixEmpty_cell row col b hrow9 hcol hsuf
      obtain ⟨s, hcomp⟩ := hex
      obtain ⟨v, hv1, hv9, hsv⟩ := hcomp.2.2.1 row col hrow9 hcol
      have hnextrow : (if col = 8 then row + 1 else row) ≤ 9 := by
        by_cases h8 : col = 8 <;> simp [h8] <;> omega
      have hnextcol : (if col = 8 then 0 else col + 1) < 9 := by
        by_cases h8 : col = 8 <;> simp [h8] <;> omega
      have hposnext : 9 * (if col = 8 then row + 1 else row) +
          (if col = 8 then 0 else col + 1) = 9 * row + col + 1 := by
        by_cases h8 : col = 8 <;> simp [h8] <;> omega
      have hinner : ∀ (nums : List Nat) (cnt2 : Nat),
          (∃ n ∈ nums, s row col = some n) →
          (tryNums (fillCell perms fuel (if col = 8 then row + 1 else row)
            (if col = 8 then 0 else col + 1)) row col nums cnt2 b).1 =
            true := by
        intro nums
        induction nums with
        | nil => rintro cnt2 ⟨n, hn, _⟩; simp at hn
        | cons n rest ihn =>
          rintro cnt2 ⟨m, hm, hsm⟩
          rw [tryNums]
          by_cases hmv : isValidMove b row col n = true
          · rw [if_pos hmv]
            rcases hrec : fillCell perms fuel (if col = 8 then row + 1 else row)
              (if col = 8 then 0 else col + 1) cnt2
              (setCell b row col (some n)) with ⟨fl, b2, c2⟩
            cases fl with
            | true => simp
            | false =>
              simp only
              have hb2 : b2 = setCell b row col (some n) :=
                fillCell_restore perms fuel _ _ cnt2 _ b2 c2 hnextrow hnextcol
                  (suffixEmpty_next row col n b hcol hsuf) hrec
              have hreset : setCell b2 row col none = b := by
                rw [hb2, setCell_setCell, ← hrc, setCell_self]
              rw [hreset]
              have hmne : s row col ≠ some n := by
                intro hsn
                have := ih (if col = 8 then row + 1 else row)
                  (if col = 8 then 0 else col + 1) cnt2
                  (setCell b row col (some n)) hnextrow hnextcol
                  (by omega) (by omega)
                  (suffixEmpty_next row col n b hcol hsuf)
                  (isBoardValid_setCell b row col n hrow9 hcol hmv hvalid)
                  ⟨s, IsCompletion_setCell b s row col n hrow9 hcol hrc hsn
                    hcomp⟩
                rw [hrec] at this
                simp at this
              rcases List.mem_cons.mp hm with rfl | hm2
              · exact absurd hsm hmne
              · exact ihn c2 ⟨m, hm2, hsm⟩
          · rw [if_neg hmv]
            have hmne : s row col ≠ some n := by
              intro hsn
              exact hmv (isValidMove_of_completion b s row col n hrow9 hcol
                hcomp hsn)
            rcases List.mem_cons.mp hm with rfl | hm2
            · exact absurd hsm hmne
            · exact ihn cnt2 ⟨m, hm2, hsm⟩
      exact hinner (perms cnt) (cnt + 1) ⟨v, hperms cnt v hv1 hv9, hsv⟩

theorem isBoardSolved_iff (b : Board) :
    isBoardSolved b = true ↔
      (∀ r c, r < 9 → c < 9 → b r c ≠ none) ∧ isBoardValid b = true := by
  simp only [isBoardSolved, Bool.and_eq_true, List.all_eq_true, List.mem_range,
    Bool.not_eq_true', beq_eq_false_iff_ne]
  constructor
  · rintro ⟨h1, h2⟩
    exact ⟨fun r c hr hc => h1 r hr c hc, h2⟩
  · rintro ⟨h1, h2⟩
    exact ⟨fun r hr c hc => h1 r c hr hc, h2⟩

/-- A fixed valid complete grid (the standard shift pattern), used as a
witness completion of the empty board. -/
def pat (r c : Nat) : Nat := (3 * (r % 3) + r / 3 + c) % 9 + 1

def G0 : Board := fun r c => if r < 9 ∧ c < 9 then some (pat r c) else none

/-- A second valid complete grid, obtained from `G0` by cycling digits. -/
def G1 : Board := fun r c => if r < 9 ∧ c < 9 then some (pat r c % 9 + 1)
  else none

theorem G0_completion_empty : IsCompletion emptyBoard G0 := by
  refine ⟨fun r c h => absurd rfl h, fun r c h => ?_, fun r c hr hc => ?_, ?_⟩
  · simp only [G0, emptyBoard, if_neg h]
  · refine ⟨pat r c, ?_, ?_, by simp [G0, hr, hc]⟩
    · simp [pat]
    · have := Nat.mod_lt (3 * (r % 3) + r / 3 + c) (show 0 < 9 by omega)
      simp only [pat]
      omega
  · decide

theorem G1_completion_empty : IsCompletion emptyBoard G1 := by
  refine ⟨fun r c h => absurd rfl h, fun r c h => ?_, fun r c hr hc => ?_, ?_⟩
  · simp only [G1, emptyBoard, if_neg h]
  · refine ⟨pat r c % 9 + 1, by omega, ?_, by simp [G1, hr, hc]⟩
    have := Nat.mod_lt (pat r c) (show 0 < 9 by omega)
    omega
  · decide

theorem G0_ne_G1 : G0 ≠ G1 := by
  intro h
  have := congrFun (congrFun h 0) 0
  simp [G0, G1, pat] at this

/-- `generateCompleteSudoku` always returns a solved board that is well formed
and empty outside the grid — for every outcome of the random shuffles. -/
theorem generateComplete_props (g : Nat → Nat → Nat) :
    isBoardSolved (generateCompleteSudoku g) = true ∧
    WellFormedBoard (generateCompleteSudoku g) ∧
    (∀ r c, ¬(r < 9 ∧ c < 9) → generateCompleteSudoku g r c = none) := by
  have hperm : ∀ k, (shuffleArray (g k) nums19).Perm nums19 :=
    fun k => shuffleArray_perm (g k) nums19
  have hp1 : ∀ k n, n ∈ shuffleArray (g k) nums19 → n ∈ nums19 :=
    fun k n hn => ((hperm k).mem_iff).mp hn
  have hp2 : ∀ k n, 1 ≤ n → n ≤ 9 → n ∈ shuffleArray (g k) nums19 :=
    fun k n h1 h9 => ((hperm k).mem_iff).mpr (mem_nums19 h1 h9)
  have hsuf : SuffixEmpty 0 0 emptyBoard := fun _ _ _ _ _ => rfl
  have htrue := fillCell_complete _ hp2 82 0 0 0 emptyBoard (by omega)
    (by omega) (by omega) (by omega) hsuf isBoardValid_emptyBoard
    ⟨G0, G0_completion_empty⟩
  rcases hres : fillCell (fun k => shuffleArray (g k) nums19) 82 0 0 0
    emptyBoard with ⟨fl, b2, c2⟩
  rw [hres] at htrue
  have hfl : fl = true := htrue
  rw [hfl] at hres
  have hsound := fillCell_sound _ hp1 82 0 0 0 emptyBoard b2 c2 (by omega)
    (by omega) hsuf hres
  obtain ⟨hpre, hfill, hval⟩ := hsound
  have hgen : generateCompleteSudoku g = b2 := by
    rw [generateCompleteSudoku, hres]
  rw [hgen]
  refine ⟨(isBoardSolved_iff b2).mpr ⟨fun r c hr hc => ?_, 
    hval isBoardValid_emptyBoard⟩, fun r c hr hc => ?_, fun r c h => ?_⟩
  · obtain ⟨v, _, hv⟩ := hfill r c hr hc (by omega)
    rw [hv]
    simp
  · obtain ⟨v, hvmem, hv⟩ := hfill r c hr hc (by omega)
    obtain ⟨h1, h9⟩ := nums19_bounds hvmem
    exact Or.inr ⟨v, h1, h9, hv⟩
  · rw [hpre r c (Or.inl h)]
    rfl

/-- The cells of box `(br, bc)` in the order the source collects them into
`cellsByBox`. -/
def boxCellsList (br bc : Nat) : List (Nat × Nat) :=
  (List.range 3).flatMap fun i => (List.range 3).map fun j =>
    (br * 3 + i, bc * 3 + j)

/-- The nine box indices in the iteration order of the source's nested box
loops. -/
def boxIdxList : List (Nat × Nat) :=
  (List.range 3).flatMap fun br => (List.range 3).map fun bc => (br, bc)

theorem countFilledInBox_eq (b : Board) (br bc : Nat) :
    countFilledInBox b br bc =
      (boxCellsList br bc).countP fun p => b p.1 p.2 != none := rfl

/-- Blank out the listed cells one after the other. -/
def removeList : List (Nat × Nat) → Board → Board
  | [], b => b
  | (r, c) :: rest, b => removeList rest (setCell b r c none)

/-- Increment one entry of the per-box removal table. -/
def bump (f : Nat → Nat → Nat) (a b : Nat) : Nat → Nat → Nat :=
  fun x y => if x = a ∧ y = b then f x y + 1 else f x y

/-- The second removal pass of `removeCellsImproved`: remove listed cells until
the target is reached, skipping cells whose box is at its removal cap.  State:
(puzzle, per-box removals, total removed). -/
def phase2 (targetEmpty maxRemovedPerBox : Nat) :
    List (Nat × Nat × Nat × Nat) → Board × (Nat → Nat → Nat) × Nat →
    Board × (Nat → Nat → Nat) × Nat
  | [], st => st
  | (r, c, br, bc) :: rest, (pz, boxRem, tot) =>
    if targetEmpty ≤ tot then (pz, boxRem, tot)
    else if maxRemovedPerBox ≤ boxRem br bc then
      phase2 targetEmpty maxRemovedPerBox rest (pz, boxRem, tot)
    else
      phase2 targetEmpty maxRemovedPerBox rest
        (setCell pz r c none, bump boxRem br bc, tot + 1)

/-- `removeCellsImproved(board, difficulty)`.  The entropy stream `gr` models
the random draws: `gr 0` the target-clue draw, `gr (1 + 3*br + bc)` the
shuffle of box `(br, bc)`, `gr 10` the shuffle of the pooled cells. -/
def removeCellsImproved (board : Board) (gr : Nat → Nat → Nat)
    (d : Difficulty) : Board :=
  let bcons := getBoxConstraints d
  let cr := getCluesRange d
  let targetClues := cr.1 + gr 0 0 % (cr.2 - cr.1 + 1)
  let targetEmpty := 81 - targetClues
  let maxRemovedPerBox := 9 - bcons.1
  let minRemovedPerBox := 9 - bcons.2
  let shuffledBox := fun br bc =>
    shuffleArray (gr (1 + 3 * br + bc)) (boxCellsList br bc)
  let phase1Cells := boxIdxList.flatMap fun bi =>
    (shuffledBox bi.1 bi.2).take minRemovedPerBox
  let puzzle1 := removeList phase1Cells board
  let allCells := boxIdxList.flatMap fun bi =>
    ((shuffledBox bi.1 bi.2).drop minRemovedPerBox).map fun p =>
      (p.1, p.2, bi.1, bi.2)
  let shuffledCells := shuffleArray (gr 10) allCells
  (phase2 targetEmpty maxRemovedPerBox shuffledCells
    (puzzle1,
      fun br bc => ((shuffledBox br bc).take minRemovedPerBox).length,
      phase1Cells.length)).1

/-- `generateSudokuPuzzle(difficulty)`: a fresh complete grid with cells
removed.  `gf` is the entropy of the fill, `gr` that of the removal. -/
def generateSudokuPuzzle (gf gr : Nat → Nat → Nat) (d : Difficulty) : Board :=
  removeCellsImproved (generateCompleteSudoku gf) gr d

/-- The candidate positions of the symmetric generator (upper half of the
grid, centre excluded), in source order. -/
def mkPositions : List (Nat × Nat) :=
  (List.range 5).flatMap fun row => (List.range 9).filterMap fun col =>
    if row = 4 ∧ col = 4 then none
    else if row < 4 ∨ (row = 4 ∧ col < 4) then some (row, col) else none

/-- The pair-removal loop of `generateSymmetricPuzzle`.  State: (puzzle,
per-box removals, number of removed cells). -/
def symLoop (cellsToRemove maxRemovedPerBox : Nat) :
    List (Nat × Nat) → Board × (Nat → Nat → Nat) × Nat →
    Board × (Nat → Nat → Nat) × Nat
  | [], st => st
  | (row, col) :: rest, (pz, boxRem, removed) =>
    if cellsToRemove ≤ removed then (pz, boxRem, removed)
    else
      if maxRemovedPerBox ≤ boxRem (row / 3) (col / 3) ∨
          maxRemovedPerBox ≤ boxRem ((8 - row) / 3) ((8 - col) / 3) then
        symLoop cellsToRemove maxRemovedPerBox rest (pz, boxRem, removed)
      else
        symLoop cellsToRemove maxRemovedPerBox rest
          (setCell (setCell pz row col none) (8 - row) (8 - col) none,
            bump (bump boxRem (row / 3) (col / 3)) ((8 - row) / 3)
              ((8 - col) / 3), removed + 2)

/-- `generateSymmetricPuzzle(difficulty)`. -/
def generateSymmetricPuzzle (gf gr : Nat → Nat → Nat) (d : Difficulty) :
    Board :=
  let completeSudoku := generateCompleteSudoku gf
  let cr := getCluesRange d
  let targetClues := cr.1 + gr 0 0 % (cr.2 - cr.1 + 1)
  let targetEmpty := 81 - targetClues
  let cellsToRemove := if targetEmpty % 2 = 0 then targetEmpty
    else targetEmpty - 1
  let maxRemovedPerBox := 9 - (getBoxConstraints d).1
  let shuffledPositions := shuffleArray (gr 1) mkPositions
  (symLoop cellsToRemove maxRemovedPerBox shuffledPositions
    (completeSudoku, fun _ _ => 0, 0)).1

/-- Does some 3×3 box have all 9 cells filled? -/
def hasCompleteBox (b : Board) : Bool :=
  boxIdxList.any fun p => countFilledInBox b p.1 p.2 == 9

/-- The retry loop of `generateBalancedPuzzle`; `k` numbers the generation
attempts (each consuming fresh entropy). -/
def balLoop (gf gr : Nat → Nat → Nat → Nat) (d : Difficulty) :
    Nat → Nat → Board
  | 0, k => generateSudokuPuzzle (gf k) (gr k) d
  | n + 1, k =>
    let puzzle := generateSudokuPuzzle (gf k) (gr k) d
    if hasCompleteBox puzzle then balLoop gf gr d n (k + 1) else puzzle

/-- `generateBalancedPuzzle(difficulty)`: up to 10 attempts to avoid a fully
filled box, then one final unconditional generation. -/
def generateBalancedPuzzle (gf gr : Nat → Nat → Nat → Nat) (d : Difficulty) :
    Board :=
  balLoop gf gr d 10 0

/-- `b1` is `b2` with some cells blanked. -/
def Sub (b1 b2 : Board) : Prop :=
  ∀ r c, b1 r c = b2 r c ∨ b1 r c = none

theorem sub_refl (b : Board) : Sub b b := fun _ _ => Or.inl rfl

theorem sub_setCell_none (b1 b2 : Board) (r c : Nat) (h : Sub b1 b2) :
    Sub (setCell b1 r c none) b2 := by
  intro r2 c2
  by_cases hne : r2 = r ∧ c2 = c
  · rw [hne.1, hne.2, setCell_same]
    exact Or.inr rfl
  · rw [setCell_other _ _ _ _ _ _ hne]
    exact h r2 c2

theorem removeList_sub (b2 : Board) :
    ∀ (L : List (Nat × Nat)) (b1 : Board), Sub b1 b2 →
      Sub (removeList L b1) b2 := by
  intro L
  induction L with
  | nil => intro b1 h; exact h
  | cons p rest ih =>
    intro b1 h
    obtain ⟨r, c⟩ := p
    exact ih _ (sub_setCell_none b1 b2 r c h)

theorem phase2_sub (targetEmpty maxRemovedPerBox : Nat) (b2 : Board) :
    ∀ (L : List (Nat × Nat × Nat × Nat)) (st : Board × (Nat → Nat → Nat) × Nat),
      Sub st.1 b2 →
      Sub (phase2 targetEmpty maxRemovedPerBox L st).1 b2 := by
  intro L
  induction L with
  | nil => intro st h; exact h
  | cons q rest ih =>
    intro st h
    obtain ⟨r, c, br, bc⟩ := q
    obtain ⟨pz, boxRem, tot⟩ := st
    rw [phase2]
    by_cases h1 : targetEmpty ≤ tot
    · rw [if_pos h1]; exact h
    · rw [if_neg h1]
      by_cases h2 : maxRemovedPerBox ≤ boxRem br bc
      · rw [if_pos h2]
        exact ih _ h
      · rw [if_neg h2]
        exact ih _ (sub_setCell_none pz b2 r c h)

theorem symLoop_sub (cellsToRemove maxRemovedPerBox : Nat) (b2 : Board) :
    ∀ (L : List (Nat × Nat)) (st : Board × (Nat → Nat → Nat) × Nat),
      Sub st.1 b2 →
      Sub (symLoop cellsToRemove maxRemovedPerBox L st).1 b2 := by
  intro L
  induction L with
  | nil => intro st h; exact h
  | cons q rest ih =>
    intro st h
    obtain ⟨row, col⟩ := q
    obtain ⟨pz, boxRem, removed⟩ := st
    rw [symLoop]
    by_cases h1 : cellsToRemove ≤ removed
    · rw [if_pos h1]; exact h
    · rw [if_neg h1]
      by_cases h2 : maxRemovedPerBox ≤ boxRem (row / 3) (col / 3) ∨
          maxRemovedPerBox ≤ boxRem ((8 - row) / 3) ((8 - col) / 3)
      · rw [if_pos h2]
        exact ih _ h
      · rw [if_neg h2]
        exact ih _ (sub_setCell_none _ b2 (8 - row) (8 - col)
          (sub_setCell_none pz b2 row col h))

/-- The target number of empty cells drawn by `removeCellsImproved`. -/
def rcTargetEmpty (gr : Nat → Nat → Nat) (d : Difficulty) : Nat :=
  81 - ((getCluesRange d).1 + gr 0 0 % ((getCluesRange d).2 -
    (getCluesRange d).1 + 1))

/-- The shuffled cell list of one box in `removeCellsImproved`. -/
def rcShuffledBox (gr : Nat → Nat → Nat) (br bc : Nat) : List (Nat × Nat) :=
  shuffleArray (gr (1 + 3 * br + bc)) (boxCellsList br bc)

/-- The cells removed in the first pass of `removeCellsImproved`. -/
def rcPhase1Cells (gr : Nat → Nat → Nat) (d : Difficulty) :
    List (Nat × Nat) :=
  boxIdxList.flatMap fun bi =>
    (rcShuffledBox gr bi.1 bi.2).take (9 - (getBoxConstraints d).2)

/-- The pooled not-yet-removed cells offered to the second pass, tagged with
their box. -/
def rcAllCells (gr : Nat → Nat → Nat) (d : Difficulty) :
    List (Nat × Nat × Nat × Nat) :=
  boxIdxList.flatMap fun bi =>
    ((rcShuffledBox gr bi.1 bi.2).drop (9 - (getBoxConstraints d).2)).map
      fun p => (p.1, p.2, bi.1, bi.2)

theorem removeCellsImproved_eq (board : Board) (gr : Nat → Nat → Nat)
    (d : Difficulty) :
    removeCellsImproved board gr d =
      (phase2 (rcTargetEmpty gr d) (9 - (getBoxConstraints d).1)
        (shuffleArray (gr 10) (rcAllCells gr d))
        (removeList (rcPhase1Cells gr d) board,
          fun br bc => ((rcShuffledBox gr br bc).take
            (9 - (getBoxConstraints d).2)).length,
          (rcPhase1Cells gr d).length)).1 := rfl

theorem generateSudokuPuzzle_sub (gf gr : Nat → Nat → Nat) (d : Difficulty) :
    Sub (generateSudokuPuzzle gf gr d) (generateCompleteSudoku gf) := by
  rw [generateSudokuPuzzle, removeCellsImproved_eq]
  exact phase2_sub _ _ _ _ _ (removeList_sub _ _ _ (sub_refl _))

/-- The (even-rounded) removal target of the symmetric generator. -/
def symTarget (gr : Nat → Nat → Nat) (d : Difficulty) : Nat :=
  if (81 - ((getCluesRange d).1 + gr 0 0 % ((getCluesRange d).2 -
      (getCluesRange d).1 + 1))) % 2 = 0 then
    81 - ((getCluesRange d).1 + gr 0 0 % ((getCluesRange d).2 -
      (getCluesRange d).1 + 1))
  else
    81 - ((getCluesRange d).1 + gr 0 0 % ((getCluesRange d).2 -
      (getCluesRange d).1 + 1)) - 1

set_option maxHeartbeats 1000000 in
set_option maxHeartbeats 1000000 in
theorem generateSymmetricPuzzle_eq (gf gr : Nat → Nat → Nat) (d : Difficulty) :
    generateSymmetricPuzzle gf gr d =
      (symLoop (symTarget gr d) (9 - (getBoxConstraints d).1)
        (shuffleArray (gr 1) mkPositions)
        (generateCompleteSudoku gf, fun _ _ => 0, 0)).1 := rfl

section SlowDefeq

attribute [local irreducible] generateCompleteSudoku fillCell tryNums
  shuffleArray shuffleAux swapIdx solveAux trySolve countAux tryCount
  solveSudoku hasUniqueSolution getNextHint removeCellsImproved
  generateSymmetricPuzzle generateSudokuPuzzle

theorem generateSymmetricPuzzle_sub (gf gr : Nat → Nat → Nat)
    (d : Difficulty) :
    Sub (generateSymmetricPuzzle gf gr d) (generateCompleteSudoku gf) := by
  rw [generateSymmetricPuzzle_eq]
  exact symLoop_sub (symTarget gr d) (9 - (getBoxConstraints d).1)
    (generateCompleteSudoku gf) (shuffleArray (gr 1) mkPositions)
    (generateCompleteSudoku gf, fun _ _ => 0, 0)
    (sub_refl (generateCompleteSudoku gf))


/-- All the facts needed about a puzzle obtained by blanking cells of a
generated complete grid. -/
theorem puzzle_of_sub (p G : Board) (hsub : Sub p G)
    (hG : isBoardSolved G = true) (hGwf : WellFormedBoard G)
    (hGframe : ∀ r c, ¬(r < 9 ∧ c < 9) → G r c = none) :
    WellFormedBoard p ∧ isBoardValid p = true ∧ IsCompletion p G := by
  obtain ⟨hGfull, hGvalid⟩ := (isBoardSolved_iff G).mp hG
  have hpvalid : isBoardValid p = true :=
    isBoardValid_subboard p G (fun r c => hsub r c) hGvalid
  have hpwf : WellFormedBoard p := by
    intro r c hr hc
    rcases hsub r c with h | h
    · rcases hGwf r c hr hc with h2 | ⟨v, hv1, hv9, h2⟩
      · exact Or.inl (h.trans h2)
      · exact Or.inr ⟨v, hv1, hv9, h.trans h2⟩
    · exact Or.inl h
  refine ⟨hpwf, hpvalid, ⟨fun r c hne => ?_, fun r c hout => ?_,
    fun r c hr hc => ?_, hGvalid⟩⟩
  · rcases hsub r c with h | h
    · exact h.symm
    · exact absurd h hne
  · rcases hsub r c with h | h
    · exact h.symm
    · rw [hGframe r c hout, h]
  · rcases hGwf r c hr hc with h2 | ⟨v, hv1, hv9, h2⟩
    · exact absurd h2 (hGfull r c hr hc)
    · exact ⟨v, hv1, hv9, h2⟩

/-- Core round-trip fact: solving a puzzle cut from a complete grid succeeds
and yields a valid solved board, which is exactly the original grid whenever
the puzzle has a unique solution. -/
theorem puzzle_roundtrip (p G : Board) (hsub : Sub p G)
    (hG : isBoardSolved G = true) (hGwf : WellFormedBoard G)
    (hGframe : ∀ r c, ¬(r < 9 ∧ c < 9) → G r c = none) :
    (solveSudoku p).1 = true ∧ isBoardSolved (solveSudoku p).2 = true ∧
    (hasUniqueSolution p = true → (solveSudoku p).2 = G) := by
  obtain ⟨hpwf, hpvalid, hpcomp⟩ := puzzle_of_sub p G hsub hG hGwf hGframe
  have hsolve : (solveSudoku p).1 = true := solve_complete p hpvalid ⟨G, hpcomp⟩
  obtain ⟨hext, hframe, hvals, hfull, hvalid2⟩ := solve_sound p hsolve
  have hsolved : isBoardSolved (solveSudoku p).2 = true :=
    (isBoardSolved_iff _).mpr
      ⟨(firstEmpty_eq_none_iff _).mp hfull, hvalid2 hpvalid⟩
  refine ⟨hsolve, hsolved, fun huniq => ?_⟩
  have hrescomp : IsCompletion p (solveSudoku p).2 :=
    solve_completion p hpwf hpvalid hsolve
  by_contra hne
  have hcount : (countAux 82 p 0).2.2 ≥ 2 :=
    countAux_two 82 p 0 (emptyCount_lt_fuel p) hpvalid (by omega)
      ⟨(solveSudoku p).2, G, hrescomp, hpcomp, hne⟩
  rw [hasUniqueSolution] at huniq
  simp only [beq_iff_eq] at huniq
  omega


/-- C3: for every entropy stream and difficulty, solving the puzzle produced
by `generateSudokuPuzzle` or by `generateSymmetricPuzzle` from the internally
generated complete grid `G` succeeds and yields a board with `isBoardValid`
true; and whenever the puzzle satisfies `hasUniqueSolution`, the solved board
is exactly `G`. -/
theorem claim_C3 (gf gr : Nat → Nat → Nat) (d : Difficulty) :
    ((solveSudoku (generateSudokuPuzzle gf gr d)).1 = true ∧
      isBoardValid (solveSudoku (generateSudokuPuzzle gf gr d)).2 = true ∧
      (hasUniqueSolution (generateSudokuPuzzle gf gr d) = true →
        (solveSudoku (generateSudokuPuzzle gf gr d)).2 =
          generateCompleteSudoku gf)) ∧
    ((solveSudoku (generateSymmetricPuzzle gf gr d)).1 = true ∧
      isBoardValid (solveSudoku (generateSymmetricPuzzle gf gr d)).2 = true ∧
      (hasUniqueSolution (generateSymmetricPuzzle gf gr d) = true →
        (solveSudoku (generateSymmetricPuzzle gf gr d)).2 =
          generateCompleteSudoku gf)) := by
  obtain ⟨hG, hGwf, hGframe⟩ := generateComplete_props gf
  have h1 := puzzle_roundtrip (generateSudokuPuzzle gf gr d)
    (generateCompleteSudoku gf) (generateSudokuPuzzle_sub gf gr d) hG hGwf
    hGframe
  have h2 := puzzle_roundtrip (generateSymmetricPuzzle gf gr d)
    (generateCompleteSudoku gf) (generateSymmetricPuzzle_sub gf gr d) hG hGwf
    hGframe
  exact ⟨⟨h1.1, ((isBoardSolved_iff _).mp h1.2.1).2, h1.2.2⟩,
    ⟨h2.1, ((isBoardSolved_iff _).mp h2.2.1).2, h2.2.2⟩⟩

theorem balLoop_eq (gf gr : Nat → Nat → Nat → Nat) (d : Difficulty) :
    ∀ n k, ∃ m, balLoop gf gr d n k = generateSudokuPuzzle (gf m) (gr m) d := by
  intro n
  induction n with
  | zero => intro k; exact ⟨k, rfl⟩
  | succ n ih =>
    intro k
    rw [balLoop]
    by_cases h : hasCompleteBox (generateSudokuPuzzle (gf k) (gr k) d) = true
    · simp only [h, if_true]
      exact ih (k + 1)
    · simp only [h, if_false]
      exact ⟨k, rfl⟩

/-- C10: every puzzle returned by `generateSudokuPuzzle`,
`generateSymmetricPuzzle` or `generateBalancedPuzzle` — for every entropy and
difficulty — is a valid grid: every non-empty cell holds a digit 1..9 (the
board is well formed) and `isBoardValid` is true. -/
theorem claim_C10 :
    (∀ (gf gr : Nat → Nat → Nat) (d : Difficulty),
      WellFormedBoard (generateSudokuPuzzle gf gr d) ∧
      isBoardValid (generateSudokuPuzzle gf gr d) = true) ∧
    (∀ (gf gr : Nat → Nat → Nat) (d : Difficulty),
      WellFormedBoard (generateSymmetricPuzzle gf gr d) ∧
      isBoardValid (generateSymmetricPuzzle gf gr d) = true) ∧
    (∀ (gf gr : Nat → Nat → Nat → Nat) (d : Difficulty),
      WellFormedBoard (generateBalancedPuzzle gf gr d) ∧
      isBoardValid (generateBalancedPuzzle gf gr d) = true) := by
  have key : ∀ (gf gr : Nat → Nat → Nat) (d : Difficulty),
      WellFormedBoard (generateSudokuPuzzle gf gr d) ∧
      isBoardValid (generateSudokuPuzzle gf gr d) = true := by
    intro gf gr d
    obtain ⟨hG, hGwf, hGframe⟩ := generateComplete_props gf
    obtain ⟨hwf, hvalid, _⟩ := puzzle_of_sub _ _
      (generateSudokuPuzzle_sub gf gr d) hG hGwf hGframe
    exact ⟨hwf, hvalid⟩
  refine ⟨key, fun gf gr d => ?_, fun gf gr d => ?_⟩
  · obtain ⟨hG, hGwf, hGframe⟩ := generateComplete_props gf
    obtain ⟨hwf, hvalid, _⟩ := puzzle_of_sub _ _
      (generateSymmetricPuzzle_sub gf gr d) hG hGwf hGframe
    exact ⟨hwf, hvalid⟩
  · obtain ⟨m, hm⟩ := balLoop_eq gf gr d 10 0
    rw [generateBalancedPuzzle, hm]
    exact key (gf m) (gr m) d

/-- The blank pattern is invariant under 180° rotation. -/
def SymBlank (b : Board) : Prop :=
  ∀ r c, r < 9 → c < 9 → (b r c = none ↔ b (8 - r) (8 - c) = none)

theorem symBlank_step (pz : Board) (row col : Nat) (hrow : row < 9)
    (hcol : col < 9) (h : SymBlank pz) :
    SymBlank (setCell (setCell pz row col none) (8 - row) (8 - col) none) := by
  have hN : ∀ r2 c2,
      setCell (setCell pz row col none) (8 - row) (8 - col) none r2 c2 =
      if (r2 = 8 - row ∧ c2 = 8 - col) ∨ (r2 = row ∧ c2 = col) then none
      else pz r2 c2 := by
    intro r2 c2
    by_cases hA : r2 = 8 - row ∧ c2 = 8 - col
    · rw [hA.1, hA.2, setCell_same, if_pos (Or.inl ⟨rfl, rfl⟩)]
    · rw [setCell_other _ _ _ _ _ _ hA]
      by_cases hB : r2 = row ∧ c2 = col
      · rw [hB.1, hB.2, setCell_same, if_pos (Or.inr ⟨rfl, rfl⟩)]
      · rw [setCell_other _ _ _ _ _ _ hB, if_neg (by tauto)]
  intro r c hr hc
  have hiff : ((r = 8 - row ∧ c = 8 - col) ∨ (r = row ∧ c = col)) ↔
      ((8 - r = 8 - row ∧ 8 - c = 8 - col) ∨ (8 - r = row ∧ 8 - c = col)) := by
    omega
  by_cases hA : (r = 8 - row ∧ c = 8 - col) ∨ (r = row ∧ c = col)
  · rw [hN r c, hN (8 - r) (8 - c), if_pos hA, if_pos (hiff.mp hA)]
  · rw [hN r c, hN (8 - r) (8 - c), if_neg hA,
      if_neg (fun hx => hA (hiff.mpr hx))]
    exact h r c hr hc

theorem symLoop_symBlank (cellsToRemove maxRemovedPerBox : Nat) :
    ∀ (L : List (Nat × Nat)) (st : Board × (Nat → Nat → Nat) × Nat),
      (∀ p ∈ L, p.1 < 9 ∧ p.2 < 9) → SymBlank st.1 →
      SymBlank (symLoop cellsToRemove maxRemovedPerBox L st).1 := by
  intro L
  induction L with
  | nil => intro st _ h; exact h
  | cons q rest ih =>
    intro st hmem h
    obtain ⟨row, col⟩ := q
    obtain ⟨pz, boxRem, removed⟩ := st
    have hq := hmem (row, col) (List.mem_cons_self _ _)
    rw [symLoop]
    by_cases h1 : cellsToRemove ≤ removed
    · rw [if_pos h1]; exact h
    · rw [if_neg h1]
      by_cases h2 : maxRemovedPerBox ≤ boxRem (row / 3) (col / 3) ∨
          maxRemovedPerBox ≤ boxRem ((8 - row) / 3) ((8 - col) / 3)
      · rw [if_pos h2]
        exact ih _ (fun p hp => hmem p (List.mem_cons_of_mem _ hp)) h
      · rw [if_neg h2]
        exact ih _ (fun p hp => hmem p (List.mem_cons_of_mem _ hp))
          (symBlank_step pz row col hq.1 hq.2 h)

theorem mkPositions_bounds : ∀ p ∈ mkPositions, p.1 < 9 ∧ p.2 < 9 := by decide

set_option maxHeartbeats 1000000 in
/-- C7: in every puzzle produced by `generateSymmetricPuzzle` — for every
entropy and difficulty — the set of empty cells is invariant under 180°
rotation: cell `(r, c)` is empty iff cell `(8-r, 8-c)` is. -/
theorem claim_C7 (gf gr : Nat → Nat → Nat) (d : Difficulty) (r c : Nat)
    (hr : r < 9) (hc : c < 9) :
    (generateSymmetricPuzzle gf gr d r c = none ↔
      generateSymmetricPuzzle gf gr d (8 - r) (8 - c) = none) := by
  obtain ⟨hG, hGwf, hGframe⟩ := generateComplete_props gf
  have hGfull := ((isBoardSolved_iff _).mp hG).1
  have hstart : SymBlank (generateCompleteSudoku gf) := by
    intro r2 c2 hr2 hc2
    constructor
    · intro hx
      exact absurd hx (hGfull r2 c2 hr2 hc2)
    · intro hx
      exact absurd hx (hGfull (8 - r2) (8 - c2) (by omega) (by omega))
  have hmem : ∀ p ∈ shuffleArray (gr 1) mkPositions, p.1 < 9 ∧ p.2 < 9 :=
    fun p hp => mkPositions_bounds p
      (((shuffleArray_perm (gr 1) mkPositions).mem_iff).mp hp)
  rw [generateSymmetricPuzzle_eq]
  exact symLoop_symBlank (symTarget gr d) (9 - (getBoxConstraints d).1)
    (shuffleArray (gr 1) mkPositions)
    (generateCompleteSudoku gf, fun _ _ => 0, 0) hmem hstart r c hr hc

/-- Witness for C7 at concrete entropy and position. -/
theorem claim_C7_witness :
    (generateSymmetricPuzzle (fun _ _ => 0) (fun _ _ => 0) Difficulty.easy 0 0
        = none ↔
      generateSymmetricPuzzle (fun _ _ => 0) (fun _ _ => 0) Difficulty.easy 8 8
        = none) := by
  have := claim_C7 (fun _ _ => 0) (fun _ _ => 0) Difficulty.easy 0 0
    (by decide) (by decide)
  simpa using this


/-! ## Per-box removal accounting for the symmetric generator -/

/-- Number of empty cells in box `(br, bc)`. -/
def countEmptyInBox (b : Board) (br bc : Nat) : Nat :=
  (boxCellsList br bc).countP fun p => b p.1 p.2 == none

theorem boxCellsList_nodup (br bc : Nat) (hbr : br < 3) (hbc : bc < 3) :
    (boxCellsList br bc).Nodup := by
  interval_cases br <;> interval_cases bc <;> decide

theorem mem_boxCellsList (r c br bc : Nat) (hbr : br < 3) (hbc : bc < 3) :
    (r, c) ∈ boxCellsList br bc ↔ r / 3 = br ∧ c / 3 = bc := by
  simp only [boxCellsList, List.mem_flatMap, List.mem_map, List.mem_range,
    Prod.mk.injEq]
  constructor
  · rintro ⟨i, hi, j, hj, he1, he2⟩
    omega
  · rintro ⟨h1, h2⟩
    exact ⟨r % 3, by omega, c % 3, by omega, by omega, by omega⟩

theorem countP_compl {α : Type} (p : α → Bool) :
    ∀ l : List α, l.countP p + l.countP (fun a => !p a) = l.length := by
  intro l
  induction l with
  | nil => rfl
  | cons x xs ih =>
    rw [List.countP_cons, List.countP_cons, List.length_cons]
    cases hx : p x <;> simp [hx] <;> omega

theorem countFilled_add_countEmpty (b : Board) (br bc : Nat) :
    countFilledInBox b br bc + countEmptyInBox b br bc = 9 := by
  have hlen : (boxCellsList br bc).length = 9 := by rfl
  have hcompl := countP_compl (fun p : Nat × Nat => b p.1 p.2 != none)
    (boxCellsList br bc)
  rw [hlen] at hcompl
  have hsame : (boxCellsList br bc).countP
      (fun p => !(b p.1 p.2 != none)) =
      (boxCellsList br bc).countP (fun p => b p.1 p.2 == none) := by
    apply List.countP_congr
    intro p _
    cases b p.1 p.2 <;> simp
  rw [countFilledInBox_eq, countEmptyInBox, ← hsame]
  omega

/-- Blanking one in-range cell raises a box's empty count by at most the
indicator of the cell belonging to that box. -/
theorem countEmptyInBox_setCell_le (pz : Board) (r c br bc : Nat) (hr : r < 9)
    (hc : c < 9) (hbr : br < 3) (hbc : bc < 3) :
    countEmptyInBox (setCell pz r c none) br bc ≤
      countEmptyInBox pz br bc + (if r / 3 = br ∧ c / 3 = bc then 1 else 0) := by
  by_cases hmem : r / 3 = br ∧ c / 3 = bc
  · have hin : (r, c) ∈ boxCellsList br bc :=
      (mem_boxCellsList r c br bc hbr hbc).mpr hmem
    have := countP_setCell (boxCellsList_nodup br bc hbr hbc) pz r c none hin
      (fun o => o == none)
    rw [if_pos hmem]
    simp only [beq_self_eq_true, if_true] at this
    rw [countEmptyInBox, countEmptyInBox]
    omega
  · have heq : countEmptyInBox (setCell pz r c none) br bc =
        countEmptyInBox pz br bc := by
      rw [countEmptyInBox, countEmptyInBox]
      apply List.countP_congr
      intro q hq
      have hqbox := (mem_boxCellsList q.1 q.2 br bc hbr hbc).mp (by
        obtain ⟨q1, q2⟩ := q
        exact hq)
      have hne : ¬(q.1 = r ∧ q.2 = c) := by
        rintro ⟨h1, h2⟩
        rw [h1, h2] at hqbox
        exact hmem hqbox
      rw [setCell_other _ _ _ _ _ _ hne]
    rw [if_neg hmem]
    omega

theorem bump_eval (f : Nat → Nat → Nat) (a b x y : Nat) :
    bump f a b x y = f x y + (if x = a ∧ y = b then 1 else 0) := by
  rw [bump]
  by_cases h : x = a ∧ y = b <;> simp [h]

theorem mem_boxCellsList_bounds (q : Nat × Nat) (br bc : Nat) (hbr : br < 3)
    (hbc : bc < 3) (hq : q ∈ boxCellsList br bc) : q.1 < 9 ∧ q.2 < 9 := by
  simp only [boxCellsList, List.mem_flatMap, List.mem_map, List.mem_range] at hq
  obtain ⟨i, hi, j, hj, hpe⟩ := hq
  have h1 := congrArg Prod.fst hpe
  have h2 := congrArg Prod.snd hpe
  simp only at h1 h2
  omega

/-- The two geometric facts about candidate positions that drive the box
accounting: a position's box is the centre box iff its mirror's box is, and a
position shares its box with its mirror iff that box is the centre box. -/
theorem mkPositions_boxfacts : ∀ p ∈ mkPositions,
    ((p.1 / 3 = 1 ∧ p.2 / 3 = 1) ↔
      ((8 - p.1) / 3 = 1 ∧ (8 - p.2) / 3 = 1)) ∧
    ((p.1 / 3 = (8 - p.1) / 3 ∧ p.2 / 3 = (8 - p.2) / 3) ↔
      (p.1 / 3 = 1 ∧ p.2 / 3 = 1)) := by decide

/-- Invariant of the symmetric removal loop: each box's empty-cell count is
bounded by its removal counter; off-centre counters never exceed the cap; the
centre counter is even and exceeds the cap by at most one. -/
def SymInv (cap : Nat) (st : Board × (Nat → Nat → Nat) × Nat) : Prop :=
  (∀ br bc, br < 3 → bc < 3 → countEmptyInBox st.1 br bc ≤ st.2.1 br bc) ∧
  (∀ br bc, br < 3 → bc < 3 → ¬(br = 1 ∧ bc = 1) → st.2.1 br bc ≤ cap) ∧
  st.2.1 1 1 % 2 = 0 ∧ st.2.1 1 1 ≤ cap + 1

theorem symLoop_inv (cellsToRemove cap : Nat) :
    ∀ (L : List (Nat × Nat)) (st : Board × (Nat → Nat → Nat) × Nat),
      (∀ p ∈ L, p ∈ mkPositions) → SymInv cap st →
      SymInv cap (symLoop cellsToRemove cap L st) := by
  intro L
  induction L with
  | nil => intro st _ h; exact h
  | cons q rest ih =>
    intro st hmem h
    obtain ⟨row, col⟩ := q
    obtain ⟨pz, boxRem, removed⟩ := st
    have hqmem := hmem (row, col) (List.mem_cons_self _ _)
    have hbounds := mkPositions_bounds (row, col) hqmem
    obtain ⟨hfact1, hfact2⟩ := mkPositions_boxfacts (row, col) hqmem
    simp only at hbounds hfact1 hfact2
    rw [symLoop]
    by_cases h1 : cellsToRemove ≤ removed
    · rw [if_pos h1]; exact h
    · rw [if_neg h1]
      by_cases h2 : cap ≤ boxRem (row / 3) (col / 3) ∨
          cap ≤ boxRem ((8 - row) / 3) ((8 - col) / 3)
      · rw [if_pos h2]
        exact ih _ (fun p hp => hmem p (List.mem_cons_of_mem _ hp)) h
      · rw [if_neg h2]
        push_neg at h2
        obtain ⟨hcount, hcap, heven, hctr⟩ := h
        simp only at hcount hcap heven hctr
        apply ih _ (fun p hp => hmem p (List.mem_cons_of_mem _ hp))
        have hbump : ∀ x y,
            bump (bump boxRem (row / 3) (col / 3)) ((8 - row) / 3)
              ((8 - col) / 3) x y =
            boxRem x y + (if x = row / 3 ∧ y = col / 3 then 1 else 0) +
              (if x = (8 - row) / 3 ∧ y = (8 - col) / 3 then 1 else 0) := by
          intro x y
          rw [bump_eval, bump_eval]
        refine ⟨fun br bc hbr hbc => ?_, fun br bc hbr hbc hnc => ?_, ?_, ?_⟩
        · have hstep1 := countEmptyInBox_setCell_le pz row col br bc
            hbounds.1 hbounds.2 hbr hbc
          have hstep2 := countEmptyInBox_setCell_le
            (setCell pz row col none) (8 - row) (8 - col) br bc
            (by omega) (by omega) hbr hbc
          have hc0 := hcount br bc hbr hbc
          show countEmptyInBox
            (setCell (setCell pz row col none) (8 - row) (8 - col) none)
            br bc ≤ bump (bump boxRem (row / 3) (col / 3)) ((8 - row) / 3)
              ((8 - col) / 3) br bc
          rw [hbump br bc]
          by_cases e1 : br = row / 3 ∧ bc = col / 3
          · rw [if_pos ⟨e1.1.symm, e1.2.symm⟩] at hstep1
            rw [if_pos e1]
            by_cases e2 : br = (8 - row) / 3 ∧ bc = (8 - col) / 3
            · rw [if_pos ⟨e2.1.symm, e2.2.symm⟩] at hstep2
              rw [if_pos e2]
              omega
            · rw [if_neg (fun hx => e2 ⟨hx.1.symm, hx.2.symm⟩)] at hstep2
              rw [if_neg e2]
              omega
          · rw [if_neg (fun hx => e1 ⟨hx.1.symm, hx.2.symm⟩)] at hstep1
            rw [if_neg e1]
            by_cases e2 : br = (8 - row) / 3 ∧ bc = (8 - col) / 3
            · rw [if_pos ⟨e2.1.symm, e2.2.symm⟩] at hstep2
              rw [if_pos e2]
              omega
            · rw [if_neg (fun hx => e2 ⟨hx.1.symm, hx.2.symm⟩)] at hstep2
              rw [if_neg e2]
              omega
        · show bump (bump boxRem (row / 3) (col / 3)) ((8 - row) / 3)
            ((8 - col) / 3) br bc ≤ cap
          rw [hbump br bc]
          by_cases e1 : br = row / 3 ∧ bc = col / 3
          · by_cases e2 : br = (8 - row) / 3 ∧ bc = (8 - col) / 3
            · exfalso
              have hsame : row / 3 = (8 - row) / 3 ∧ col / 3 = (8 - col) / 3 :=
                ⟨e1.1.symm.trans e2.1, e1.2.symm.trans e2.2⟩
              have hcen := hfact2.mp hsame
              exact hnc ⟨e1.1.trans hcen.1, e1.2.trans hcen.2⟩
            · rw [if_pos e1, if_neg e2]
              have hlt := h2.1
              rw [← e1.1, ← e1.2] at hlt
              omega
          · by_cases e2 : br = (8 - row) / 3 ∧ bc = (8 - col) / 3
            · rw [if_neg e1, if_pos e2]
              have hlt := h2.2
              rw [← e2.1, ← e2.2] at hlt
              omega
          
            · rw [if_neg e1, if_neg e2]
              have := hcap br bc hbr hbc hnc
              omega
        · show bump (bump boxRem (row / 3) (col / 3)) ((8 - row) / 3)
            ((8 - col) / 3) 1 1 % 2 = 0
          rw [hbump 1 1]
          by_cases hc1 : row / 3 = 1 ∧ col / 3 = 1
          · have hc2 := hfact1.mp hc1
            rw [if_pos ⟨hc1.1.symm, hc1.2.symm⟩,
              if_pos ⟨hc2.1.symm, hc2.2.symm⟩]
            omega
          · have hc2 : ¬((8 - row) / 3 = 1 ∧ (8 - col) / 3 = 1) :=
              fun hx => hc1 (hfact1.mpr hx)
            rw [if_neg (fun hx => hc1 ⟨hx.1.symm, hx.2.symm⟩),
              if_neg (fun hx => hc2 ⟨hx.1.symm, hx.2.symm⟩)]
            omega
        · show bump (bump boxRem (row / 3) (col / 3)) ((8 - row) / 3)
            ((8 - col) / 3) 1 1 ≤ cap + 1
          rw [hbump 1 1]
          by_cases hc1 : row / 3 = 1 ∧ col / 3 = 1
          · have hc2 := hfact1.mp hc1
            rw [if_pos ⟨hc1.1.symm, hc1.2.symm⟩,
              if_pos ⟨hc2.1.symm, hc2.2.symm⟩]
            have hlt := h2.1
            rw [hc1.1, hc1.2] at hlt
            omega
          · have hc2 : ¬((8 - row) / 3 = 1 ∧ (8 - col) / 3 = 1) :=
              fun hx => hc1 (hfact1.mpr hx)
            rw [if_neg (fun hx => hc1 ⟨hx.1.symm, hx.2.symm⟩),
              if_neg (fun hx => hc2 ⟨hx.1.symm, hx.2.symm⟩)]
            omega

set_option maxHeartbeats 2000000 in
/-- C6 (amended): in every puzzle returned by `generateSymmetricPuzzle`, every
3×3 box other than the centre box retains at least the difficulty's per-box
minimum number of clues (Easy 3, Medium 2, Hard 1, Expert 0); the centre box
also does except at Medium difficulty, where it retains at least 1 clue (one
fewer than the per-box minimum 2), because a centre-box pair increments the
centre box's removal counter by two after a single cap check. -/
theorem claim_C6_amended (gf gr : Nat → Nat → Nat) (d : Difficulty)
    (br bc : Nat) (hbr : br < 3) (hbc : bc < 3) :
    (if d = Difficulty.medium ∧ br = 1 ∧ bc = 1 then 1
      else (getBoxConstraints d).1) ≤
      countFilledInBox (generateSymmetricPuzzle gf gr d) br bc := by
  obtain ⟨hG, _, _⟩ := generateComplete_props gf
  have hGfull := ((isBoardSolved_iff _).mp hG).1
  have hzero : ∀ br2 bc2, br2 < 3 → bc2 < 3 →
      countEmptyInBox (generateCompleteSudoku gf) br2 bc2 = 0 := by
    intro br2 bc2 hbr2 hbc2
    rw [countEmptyInBox, List.countP_eq_zero]
    intro q hq
    have hb := mem_boxCellsList_bounds q br2 bc2 hbr2 hbc2 hq
    simp only [beq_iff_eq]
    exact hGfull q.1 q.2 hb.1 hb.2
  have hmem : ∀ p ∈ shuffleArray (gr 1) mkPositions, p ∈ mkPositions :=
    fun p hp => ((shuffleArray_perm (gr 1) mkPositions).mem_iff).mp hp
  have hinv := symLoop_inv (symTarget gr d) (9 - (getBoxConstraints d).1)
    (shuffleArray (gr 1) mkPositions)
    (generateCompleteSudoku gf, fun _ _ => 0, 0) hmem
    ⟨fun br2 bc2 h2 h3 => le_of_eq (hzero br2 bc2 h2 h3),
      fun _ _ _ _ _ => Nat.zero_le _, rfl, Nat.zero_le _⟩
  obtain ⟨hcnt, hcapb, heven, hctr⟩ := hinv
  rw [generateSymmetricPuzzle_eq]
  have hsum := countFilled_add_countEmpty
    ((symLoop (symTarget gr d) (9 - (getBoxConstraints d).1)
      (shuffleArray (gr 1) mkPositions)
      (generateCompleteSudoku gf, fun _ _ => 0, 0)).1) br bc
  have hc := hcnt br bc hbr hbc
  by_cases hcen : br = 1 ∧ bc = 1
  · rw [hcen.1, hcen.2] at hc hsum ⊢
    cases d with
    | easy =>
      rw [if_neg (by simp)]
      simp only [getBoxConstraints] at hctr heven hc hsum ⊢
      omega
    | medium =>
      rw [if_pos ⟨rfl, rfl, rfl⟩]
      simp only [getBoxConstraints] at hctr heven hc hsum ⊢
      omega
    | hard =>
      rw [if_neg (by simp)]
      simp only [getBoxConstraints] at hctr heven hc hsum ⊢
      omega
    | expert =>
      rw [if_neg (by simp)]
      simp only [getBoxConstraints] at hctr heven hc hsum ⊢
      omega
  · have hcb := hcapb br bc hbr hbc hcen
    rw [if_neg (fun hx => hcen hx.2)]
    cases d <;> simp only [getBoxConstraints] at hcb hc hsum ⊢ <;> omega


/-! ## Clue accounting for `removeCellsImproved` -/

theorem boxIdxList_nodup : boxIdxList.Nodup := by decide

theorem mem_boxIdxList (bi : Nat × Nat) :
    bi ∈ boxIdxList ↔ bi.1 < 3 ∧ bi.2 < 3 := by
  obtain ⟨b1, b2⟩ := bi
  simp only [boxIdxList, List.mem_flatMap, List.mem_map, List.mem_range,
    Prod.mk.injEq]
  constructor
  · rintro ⟨i, hi, j, hj, he1, he2⟩
    omega
  · rintro ⟨h1, h2⟩
    exact ⟨b1, h1, b2, h2, rfl, rfl⟩

theorem sum_map_le {α : Type} (f g : α → Nat) :
    ∀ l : List α, (∀ x ∈ l, f x ≤ g x) → (l.map f).sum ≤ (l.map g).sum := by
  intro l
  induction l with
  | nil => intro _; exact Nat.le_refl 0
  | cons x t ih =>
    intro h
    rw [List.map_cons, List.sum_cons, List.map_cons, List.sum_cons]
    exact Nat.add_le_add (h x (List.mem_cons_self _ _))
      (ih fun y hy => h y (List.mem_cons_of_mem _ hy))

theorem sum_map_add {α : Type} (f g : α → Nat) :
    ∀ l : List α,
      (l.map fun x => f x + g x).sum = (l.map f).sum + (l.map g).sum := by
  intro l
  induction l with
  | nil => rfl
  | cons x t ih =>
    simp only [List.map_cons, List.sum_cons, ih]
    omega

theorem sum_map_zero {α : Type} (g : α → Nat) :
    ∀ l : List α, (∀ b ∈ l, g b = 0) → (l.map g).sum = 0 := by
  intro l
  induction l with
  | nil => intro _; rfl
  | cons x t ih =>
    intro h
    rw [List.map_cons, List.sum_cons, h x (List.mem_cons_self _ _),
      ih (fun b hb => h b (List.mem_cons_of_mem _ hb))]

/-- A sum over a duplicate-free list with at most one nonzero entry. -/
theorem sum_single {α : Type} (g : α → Nat) (a : α) :
    ∀ l : List α, l.Nodup → a ∈ l → (∀ b ∈ l, b ≠ a → g b = 0) →
      (l.map g).sum = g a := by
  intro l
  induction l with
  | nil => intro _ h _; simp at h
  | cons x t ih =>
    intro hnd hmem hz
    rw [List.nodup_cons] at hnd
    rw [List.map_cons, List.sum_cons]
    rcases List.mem_cons.mp hmem with he | ht
    · have hzt : ∀ b ∈ t, g b = 0 := by
        intro b hb
        apply hz b (List.mem_cons_of_mem _ hb)
        intro hba
        apply hnd.1
        rw [hba] at hb
        rw [he] at hb
        exact hb
      rw [← he, sum_map_zero g t hzt]
      omega
    · have hgx : g x = 0 := hz x (List.mem_cons_self _ _)
        (fun hxa => hnd.1 (by rw [hxa]; exact ht))
      rw [hgx, ih hnd.2 ht
        (fun b hb hba => hz b (List.mem_cons_of_mem _ hb) hba)]
      omega

theorem sum_map_indicator_pairs (a b : Nat) :
    (boxIdxList.map fun bi =>
      if bi.1 = a ∧ bi.2 = b then 1 else 0).sum ≤ 1 := by
  by_cases hab : a < 3 ∧ b < 3
  · obtain ⟨ha, hb⟩ := hab
    interval_cases a <;> interval_cases b <;> decide
  · have hz : ∀ bi ∈ boxIdxList,
        (if bi.1 = a ∧ bi.2 = b then 1 else 0) = 0 := by
      intro bi hbi
      have hbi3 := (mem_boxIdxList bi).mp hbi
      rw [if_neg]
      rintro ⟨h1, h2⟩
      exact hab ⟨by omega, by omega⟩
    rw [List.map_congr_left hz, sum_map_zero _ _ (fun _ _ => rfl)]
    omega

theorem countP_flatMap {α β : Type} (p : α → Bool) :
    ∀ (L : List β) (f : β → List α),
      (L.flatMap f).countP p = (L.map fun b => (f b).countP p).sum := by
  intro L
  induction L with
  | nil => intro f; rfl
  | cons b t ih =>
    intro f
    rw [List.flatMap_cons, List.countP_append, List.map_cons, List.sum_cons,
      ih f]

theorem length_flatMap_sum {α β : Type} :
    ∀ (L : List β) (f : β → List α),
      (L.flatMap f).length = (L.map fun b => (f b).length).sum := by
  intro L
  induction L with
  | nil => intro f; rfl
  | cons b t ih =>
    intro f
    rw [List.flatMap_cons, List.length_append, List.map_cons, List.sum_cons,
      ih f]

/-- A flat map over distinct keys is duplicate-free when each chunk is and
every chunk element recovers its key. -/
theorem nodup_flatMap_key {α β : Type} (key : α → β) :
    ∀ (L : List β) (f : β → List α), L.Nodup →
      (∀ b ∈ L, (f b).Nodup) → (∀ b ∈ L, ∀ a ∈ f b, key a = b) →
      (L.flatMap f).Nodup := by
  intro L
  induction L with
  | nil => intro f _ _ _; simp
  | cons b t ih =>
    intro f hnd hchunk hkey
    rw [List.nodup_cons] at hnd
    rw [List.flatMap_cons]
    apply List.Nodup.append
    · exact hchunk b (List.mem_cons_self _ _)
    · exact ih f hnd.2 (fun x hx => hchunk x (List.mem_cons_of_mem _ hx))
        (fun x hx a ha => hkey x (List.mem_cons_of_mem _ hx) a ha)
    · intro a ha hat
      rw [List.mem_flatMap] at hat
      obtain ⟨b2, hb2, hab2⟩ := hat
      have h1 := hkey b (List.mem_cons_self _ _) a ha
      have h2 := hkey b2 (List.mem_cons_of_mem _ hb2) a hab2
      rw [h1] at h2
      apply hnd.1
      rw [h2]
      exact hb2

/-- Blanking a filled listed cell raises the listed empty-cell count by
one. -/
theorem countP_setCell_empty {l : List (Nat × Nat)} (hnd : l.Nodup)
    (b : Board) (r c : Nat) (hm : (r, c) ∈ l) (hfill : b r c ≠ none) :
    l.countP (fun q => setCell b r c none q.1 q.2 == none) =
      l.countP (fun q => b q.1 q.2 == none) + 1 := by
  have h := countP_setCell hnd b r c none hm (fun o => o == none)
  simp only [] at h
  have hb : (b r c == none) = false := by
    cases hbb : b r c with
    | none => exact absurd hbb hfill
    | some v => rfl
  rw [hb] at h
  have h1 : (if ((none : Option Nat) == none) = true then 1 else 0) = 1 := rfl
  have h2 : (if (false = true) then 1 else 0) = 0 := rfl
  rw [h1, h2] at h
  omega

theorem emptyCount_setCell_none (b : Board) (r c : Nat) (hr : r < 9)
    (hc : c < 9) (hfill : b r c ≠ none) :
    emptyCount (setCell b r c none) = emptyCount b + 1 :=
  countP_setCell_empty cellList_nodup b r c
    ((mem_cellList r c).mpr ⟨hr, hc⟩) hfill

/-- Blanking one filled cell raises a box's empty count by the indicator of
the cell lying in the box. -/
theorem countEmptyInBox_setCell_filled (pz : Board) (r c x y : Nat)
    (hx : x < 3) (hy : y < 3) (hfill : pz r c ≠ none) :
    countEmptyInBox (setCell pz r c none) x y =
      countEmptyInBox pz x y + (if r / 3 = x ∧ c / 3 = y then 1 else 0) := by
  by_cases hmem : r / 3 = x ∧ c / 3 = y
  · rw [if_pos hmem]
    exact countP_setCell_empty (boxCellsList_nodup x y hx hy) pz r c
      ((mem_boxCellsList r c x y hx hy).mpr hmem) hfill
  · rw [if_neg hmem, Nat.add_zero]
    rw [countEmptyInBox, countEmptyInBox]
    apply List.countP_congr
    intro q hq
    have hqbox := (mem_boxCellsList q.1 q.2 x y hx hy).mp (by
      obtain ⟨q1, q2⟩ := q
      exact hq)
    have hne : ¬(q.1 = r ∧ q.2 = c) := by
      rintro ⟨e1, e2⟩
      rw [e1, e2] at hqbox
      exact hmem hqbox
    rw [setCell_other _ _ _ _ _ _ hne]

theorem cluesCount_add_emptyCount (b : Board) :
    cluesCount b + emptyCount b = 81 := by
  have h := countP_compl (fun p : Nat × Nat => b p.1 p.2 != none) cellList
  rw [cellList_length] at h
  have hsame : cellList.countP (fun p => !(b p.1 p.2 != none)) =
      cellList.countP (fun p => b p.1 p.2 == none) := by
    apply List.countP_congr
    intro p _
    cases b p.1 p.2 <;> simp
  rw [cluesCount, emptyCount, ← hsame]
  omega

theorem removeList_outside :
    ∀ (L : List (Nat × Nat)) (b : Board) (r c : Nat), (r, c) ∉ L →
      removeList L b r c = b r c := by
  intro L
  induction L with
  | nil => intro b r c _; rfl
  | cons q rest ih =>
    intro b r c hmem
    obtain ⟨qr, qc⟩ := q
    rw [removeList,
      ih (setCell b qr qc none) r c
        (fun hx => hmem (List.mem_cons_of_mem _ hx))]
    have hne : ¬(r = qr ∧ c = qc) := by
      rintro ⟨e1, e2⟩
      exact hmem (by rw [e1, e2]; exact List.mem_cons_self _ _)
    exact setCell_other _ _ _ _ _ _ hne

/-- Blanking a list of distinct filled in-range cells raises `emptyCount`
by the list length. -/
theorem removeList_emptyCount :
    ∀ (L : List (Nat × Nat)) (b : Board), L.Nodup →
      (∀ p ∈ L, p.1 < 9 ∧ p.2 < 9 ∧ b p.1 p.2 ≠ none) →
      emptyCount (removeList L b) = emptyCount b + L.length := by
  intro L
  induction L with
  | nil => intro b _ _; rfl
  | cons q rest ih =>
    intro b hnd hfacts
    obtain ⟨qr, qc⟩ := q
    obtain ⟨hq9r, hq9c, hqfill⟩ := hfacts (qr, qc) (List.mem_cons_self _ _)
    rw [List.nodup_cons] at hnd
    have hrest : ∀ p ∈ rest, p.1 < 9 ∧ p.2 < 9 ∧
        setCell b qr qc none p.1 p.2 ≠ none := by
      intro p hp
      obtain ⟨h1, h2, h3⟩ := hfacts p (List.mem_cons_of_mem _ hp)
      refine ⟨h1, h2, ?_⟩
      have hne : ¬(p.1 = qr ∧ p.2 = qc) := by
        rintro ⟨e1, e2⟩
        apply hnd.1
        have hpe : p = (qr, qc) := Prod.ext e1 e2
        rwa [← hpe]
      rw [setCell_other _ _ _ _ _ _ hne]
      exact h3
    rw [removeList, ih (setCell b qr qc none) hnd.2 hrest,
      emptyCount_setCell_none b qr qc hq9r hq9c hqfill, List.length_cons]
    omega

/-- Blanking a list of distinct filled cells raises a box's empty count by
the number of listed cells lying in that box. -/
theorem removeList_boxCount :
    ∀ (L : List (Nat × Nat)) (b : Board) (x y : Nat), x < 3 → y < 3 →
      L.Nodup → (∀ p ∈ L, b p.1 p.2 ≠ none) →
      countEmptyInBox (removeList L b) x y =
        countEmptyInBox b x y +
          L.countP (fun p => (p.1 / 3 == x) && (p.2 / 3 == y)) := by
  intro L
  induction L with
  | nil => intro b x y _ _ _ _; rfl
  | cons q rest ih =>
    intro b x y hx hy hnd hfill
    obtain ⟨qr, qc⟩ := q
    have hqfill := hfill (qr, qc) (List.mem_cons_self _ _)
    rw [List.nodup_cons] at hnd
    have hrest : ∀ p ∈ rest, setCell b qr qc none p.1 p.2 ≠ none := by
      intro p hp
      have hne : ¬(p.1 = qr ∧ p.2 = qc) := by
        rintro ⟨e1, e2⟩
        apply hnd.1
        have hpe : p = (qr, qc) := Prod.ext e1 e2
        rwa [← hpe]
      rw [setCell_other _ _ _ _ _ _ hne]
      exact hfill p (List.mem_cons_of_mem _ hp)
    rw [removeList, ih (setCell b qr qc none) x y hx hy hnd.2 hrest,
      countEmptyInBox_setCell_filled b qr qc x y hx hy hqfill,
      List.countP_cons]
    by_cases hin : qr / 3 = x ∧ qc / 3 = y
    · rw [if_pos hin]
      have hb2 : ((fun p : Nat × Nat => (p.1 / 3 == x) && (p.2 / 3 == y))
          (qr, qc)) = true := by
        simp only [Bool.and_eq_true, beq_iff_eq]
        exact hin
      rw [if_pos hb2]
      omega
    · rw [if_neg hin]
      have hb2 : ¬(((fun p : Nat × Nat => (p.1 / 3 == x) && (p.2 / 3 == y))
          (qr, qc)) = true) := by
        simp only [Bool.and_eq_true, beq_iff_eq]
        exact hin
      rw [if_neg hb2]
      omega

theorem mem_rcShuffledBox (gr : Nat → Nat → Nat) (x y : Nat)
    (p : Nat × Nat) (hp : p ∈ rcShuffledBox gr x y) :
    p ∈ boxCellsList x y :=
  ((shuffleArray_perm _ _).mem_iff).mp hp

theorem rcShuffledBox_length (gr : Nat → Nat → Nat) (x y : Nat) :
    (rcShuffledBox gr x y).length = 9 := by
  rw [rcShuffledBox,
    (shuffleArray_perm (gr (1 + 3 * x + y)) (boxCellsList x y)).length_eq]
  rfl

theorem rcShuffledBox_nodup (gr : Nat → Nat → Nat) (x y : Nat)
    (hx : x < 3) (hy : y < 3) : (rcShuffledBox gr x y).Nodup :=
  ((shuffleArray_perm _ _).nodup_iff).mpr (boxCellsList_nodup x y hx hy)

/-- Number of pooled cells tagged with a given box. -/
def tagCount (l : List (Nat × Nat × Nat × Nat)) (x y : Nat) : Nat :=
  l.countP fun q => (q.2.2.1 == x) && (q.2.2.2 == y)

/-- Remaining removal capacity of the second pass: for each box, how many
more cells the pass can still blank there, bounded by the pooled supply. -/
def capSum (cap : Nat) (f : Nat → Nat → Nat)
    (l : List (Nat × Nat × Nat × Nat)) : Nat :=
  (boxIdxList.map fun bi =>
    min (cap - f bi.1 bi.2) (tagCount l bi.1 bi.2)).sum

theorem tagCount_cons (r c br bc x y : Nat)
    (rest : List (Nat × Nat × Nat × Nat)) :
    tagCount ((r, c, br, bc) :: rest) x y =
      tagCount rest x y + (if br = x ∧ bc = y then 1 else 0) := by
  rw [tagCount, tagCount, List.countP_cons]
  simp only [Bool.and_eq_true, beq_iff_eq]

theorem capSum_nil (cap : Nat) (f : Nat → Nat → Nat) :
    capSum cap f [] = 0 := by
  rw [capSum]
  apply sum_map_zero
  intro bi _
  rw [tagCount]
  simp

theorem capSum_cons_skip (cap : Nat) (f : Nat → Nat → Nat) (r c br bc : Nat)
    (rest : List (Nat × Nat × Nat × Nat)) (h : cap ≤ f br bc) :
    capSum cap f ((r, c, br, bc) :: rest) = capSum cap f rest := by
  rw [capSum, capSum]
  apply congrArg List.sum
  apply List.map_congr_left
  intro bi _
  rw [tagCount_cons]
  by_cases hbi : br = bi.1 ∧ bc = bi.2
  · rw [if_pos hbi]
    have hz : cap - f bi.1 bi.2 = 0 := by
      rw [← hbi.1, ← hbi.2]
      omega
    rw [hz]
    omega
  · rw [if_neg hbi, Nat.add_zero]

theorem capSum_cons_remove (cap : Nat) (f : Nat → Nat → Nat)
    (r c br bc : Nat) (rest : List (Nat × Nat × Nat × Nat)) :
    capSum cap f ((r, c, br, bc) :: rest) ≤
      capSum cap (bump f br bc) rest + 1 := by
  have hpt : ∀ bi ∈ boxIdxList,
      min (cap - f bi.1 bi.2)
          (tagCount ((r, c, br, bc) :: rest) bi.1 bi.2) ≤
        min (cap - bump f br bc bi.1 bi.2) (tagCount rest bi.1 bi.2) +
          (if bi.1 = br ∧ bi.2 = bc then 1 else 0) := by
    intro bi _
    rw [tagCount_cons, bump_eval]
    split_ifs <;> omega
  rw [capSum, capSum]
  refine Nat.le_trans (sum_map_le _ _ boxIdxList hpt) ?_
  rw [sum_map_add]
  exact Nat.add_le_add_left (sum_map_indicator_pairs br bc) _

/-- Master invariant of the second removal pass: the per-box removal
counters track the boxes' empty-cell counts and stay within their bounds,
the running total tracks `emptyCount`, and — as long as the pooled cells
retain enough capacity — the pass ends with exactly `targetEmpty` empty
cells. -/
theorem phase2_main (targetEmpty cap minR : Nat) :
    ∀ (L : List (Nat × Nat × Nat × Nat)) (pz : Board)
      (boxRem : Nat → Nat → Nat) (tot : Nat),
      (∀ q ∈ L, q.2.2.1 < 3 ∧ q.2.2.2 < 3 ∧ q.1 / 3 = q.2.2.1 ∧
        q.2.1 / 3 = q.2.2.2 ∧ q.1 < 9 ∧ q.2.1 < 9 ∧
        pz q.1 q.2.1 ≠ none) →
      (L.map fun q => (q.1, q.2.1)).Nodup →
      (∀ x y, x < 3 → y < 3 → countEmptyInBox pz x y = boxRem x y) →
      (∀ x y, x < 3 → y < 3 → minR ≤ boxRem x y ∧ boxRem x y ≤ cap) →
      emptyCount pz = tot → tot ≤ targetEmpty →
      targetEmpty ≤ tot + capSum cap boxRem L →
      (∀ x y, x < 3 → y < 3 →
        minR ≤ countEmptyInBox
            (phase2 targetEmpty cap L (pz, boxRem, tot)).1 x y ∧
        countEmptyInBox
            (phase2 targetEmpty cap L (pz, boxRem, tot)).1 x y ≤ cap) ∧
      emptyCount (phase2 targetEmpty cap L (pz, boxRem, tot)).1 =
        targetEmpty := by
  intro L
  induction L with
  | nil =>
    intro pz boxRem tot hmem hnd hcnt hbnd hemp htle hcap
    rw [capSum_nil] at hcap
    rw [phase2]
    constructor
    · intro x y hx hy
      show minR ≤ countEmptyInBox pz x y ∧ countEmptyInBox pz x y ≤ cap
      rw [hcnt x y hx hy]
      exact hbnd x y hx hy
    · show emptyCount pz = targetEmpty
      omega
  | cons q rest ih =>
    intro pz boxRem tot hmem hnd hcnt hbnd hemp htle hcap
    obtain ⟨r, c, br, bc⟩ := q
    obtain ⟨hbr3, hbc3, hrdiv, hcdiv, hr9, hc9, hfill⟩ :=
      hmem (r, c, br, bc) (List.mem_cons_self _ _)
    simp only at hbr3 hbc3 hrdiv hcdiv hr9 hc9 hfill
    rw [List.map_cons, List.nodup_cons] at hnd
    rw [phase2]
    by_cases h1 : targetEmpty ≤ tot
    · rw [if_pos h1]
      constructor
      · intro x y hx hy
        show minR ≤ countEmptyInBox pz x y ∧ countEmptyInBox pz x y ≤ cap
        rw [hcnt x y hx hy]
        exact hbnd x y hx hy
      · show emptyCount pz = targetEmpty
        omega
    · rw [if_neg h1]
      by_cases h2 : cap ≤ boxRem br bc
      · rw [if_pos h2]
        apply ih pz boxRem tot
          (fun p hp => hmem p (List.mem_cons_of_mem _ hp)) hnd.2 hcnt hbnd
          hemp htle
        rw [capSum_cons_skip cap boxRem r c br bc rest h2] at hcap
        exact hcap
      · rw [if_neg h2]
        have hmem2 : ∀ p ∈ rest, p.2.2.1 < 3 ∧ p.2.2.2 < 3 ∧
            p.1 / 3 = p.2.2.1 ∧ p.2.1 / 3 = p.2.2.2 ∧ p.1 < 9 ∧
            p.2.1 < 9 ∧ setCell pz r c none p.1 p.2.1 ≠ none := by
          intro p hp
          obtain ⟨a1, a2, a3, a4, a5, a6, a7⟩ :=
            hmem p (List.mem_cons_of_mem _ hp)
          refine ⟨a1, a2, a3, a4, a5, a6, ?_⟩
          have hne2 : ¬(p.1 = r ∧ p.2.1 = c) := by
            rintro ⟨e1, e2⟩
            apply hnd.1
            have hpe : (p.1, p.2.1) = (r, c) := by rw [e1, e2]
            rw [← hpe]
            exact List.mem_map_of_mem _ hp
          rw [setCell_other _ _ _ _ _ _ hne2]
          exact a7
        have hcnt2 : ∀ x y, x < 3 → y < 3 →
            countEmptyInBox (setCell pz r c none) x y =
              bump boxRem br bc x y := by
          intro x y hx hy
          rw [countEmptyInBox_setCell_filled pz r c x y hx hy hfill,
            bump_eval, hcnt x y hx hy]
          congr 1
          by_cases hxy : r / 3 = x ∧ c / 3 = y
          · rw [if_pos hxy, if_pos ⟨by omega, by omega⟩]
          · rw [if_neg hxy, if_neg ?_]
            rintro ⟨e1, e2⟩
            exact hxy ⟨by omega, by omega⟩
        have hbnd2 : ∀ x y, x < 3 → y < 3 →
            minR ≤ bump boxRem br bc x y ∧ bump boxRem br bc x y ≤ cap := by
          intro x y hx hy
          rw [bump_eval]
          have hb0 := hbnd x y hx hy
          by_cases hxy : x = br ∧ y = bc
          · rw [if_pos hxy]
            have hlt : boxRem x y < cap := by
              rw [hxy.1, hxy.2]
              omega
            omega
          · rw [if_neg hxy]
            omega
        have hemp2 : emptyCount (setCell pz r c none) = tot + 1 := by
          rw [emptyCount_setCell_none pz r c hr9 hc9 hfill, hemp]
        have hcap2 : targetEmpty ≤
            (tot + 1) + capSum cap (bump boxRem br bc) rest := by
          have hrem := capSum_cons_remove cap boxRem r c br bc rest
          omega
        exact ih (setCell pz r c none) (bump boxRem br bc) (tot + 1)
          hmem2 hnd.2 hcnt2 hbnd2 hemp2 (by omega) hcap2

set_option maxHeartbeats 1000000 in
/-- Master accounting for `removeCellsImproved` on a freshly generated
complete grid: the result has exactly the drawn number of empty cells, and
every box's empty-cell count lies between the per-box minimum and maximum
removal counts. -/
theorem removeCellsImproved_counts (gf gr : Nat → Nat → Nat)
    (d : Difficulty) :
    emptyCount (removeCellsImproved (generateCompleteSudoku gf) gr d) =
      rcTargetEmpty gr d ∧
    ∀ x y, x < 3 → y < 3 →
      9 - (getBoxConstraints d).2 ≤
        countEmptyInBox
          (removeCellsImproved (generateCompleteSudoku gf) gr d) x y ∧
      countEmptyInBox
          (removeCellsImproved (generateCompleteSudoku gf) gr d) x y ≤
        9 - (getBoxConstraints d).1 := by
  have hG := generateComplete_props gf
  have hGfill : ∀ r c, r < 9 → c < 9 →
      generateCompleteSudoku gf r c ≠ none :=
    fun r c hr hc => ((isBoardSolved_iff _).mp hG.1).1 r c hr hc
  have hGempty : emptyCount (generateCompleteSudoku gf) = 0 := by
    rw [emptyCount, List.countP_eq_zero]
    intro p hp
    have hb := (mem_cellList p.1 p.2).mp (by
      obtain ⟨p1, p2⟩ := p
      exact hp)
    simp only [beq_iff_eq]
    exact hGfill p.1 p.2 hb.1 hb.2
  have hGbox : ∀ x y, x < 3 → y < 3 →
      countEmptyInBox (generateCompleteSudoku gf) x y = 0 := by
    intro x y hx hy
    rw [countEmptyInBox, List.countP_eq_zero]
    intro p hp
    have hb := mem_boxCellsList_bounds p x y hx hy hp
    simp only [beq_iff_eq]
    exact hGfill p.1 p.2 hb.1 hb.2
  have hb29 : (getBoxConstraints d).2 ≤ 9 := by
    cases d <;> simp [getBoxConstraints]
  have hb12 : (getBoxConstraints d).1 ≤ (getBoxConstraints d).2 := by
    cases d <;> simp [getBoxConstraints]
  have hchunknd : ∀ bi ∈ boxIdxList,
      ((rcShuffledBox gr bi.1 bi.2).take
        (9 - (getBoxConstraints d).2)).Nodup := by
    intro bi hbi
    have hbi3 := (mem_boxIdxList bi).mp hbi
    exact List.Nodup.sublist (List.take_sublist _ _)
      (rcShuffledBox_nodup gr bi.1 bi.2 hbi3.1 hbi3.2)
  have hchunkkey : ∀ bi ∈ boxIdxList,
      ∀ p ∈ (rcShuffledBox gr bi.1 bi.2).take
        (9 - (getBoxConstraints d).2), (p.1 / 3, p.2 / 3) = bi := by
    intro bi hbi p hp
    have hbi3 := (mem_boxIdxList bi).mp hbi
    have hpm := mem_rcShuffledBox gr bi.1 bi.2 p (List.take_subset _ _ hp)
    have hbox := (mem_boxCellsList p.1 p.2 bi.1 bi.2 hbi3.1 hbi3.2).mp (by
      obtain ⟨p1, p2⟩ := p
      exact hpm)
    exact Prod.ext hbox.1 hbox.2
  have hP1nd : (rcPhase1Cells gr d).Nodup := by
    rw [rcPhase1Cells]
    exact nodup_flatMap_key (fun p => (p.1 / 3, p.2 / 3)) boxIdxList _
      boxIdxList_nodup hchunknd hchunkkey
  have hP1mem : ∀ p ∈ rcPhase1Cells gr d, p.1 < 9 ∧ p.2 < 9 ∧
      generateCompleteSudoku gf p.1 p.2 ≠ none := by
    intro p hp
    rw [rcPhase1Cells, List.mem_flatMap] at hp
    obtain ⟨bi, hbi, hpin⟩ := hp
    have hbi3 := (mem_boxIdxList bi).mp hbi
    have hpm := mem_rcShuffledBox gr bi.1 bi.2 p
      (List.take_subset _ _ hpin)
    have hb := mem_boxCellsList_bounds p bi.1 bi.2 hbi3.1 hbi3.2 hpm
    exact ⟨hb.1, hb.2, hGfill p.1 p.2 hb.1 hb.2⟩
  have hchunklen : ∀ bi ∈ boxIdxList,
      ((rcShuffledBox gr bi.1 bi.2).take
        (9 - (getBoxConstraints d).2)).length =
      9 - (getBoxConstraints d).2 := by
    intro bi _
    rw [List.length_take, rcShuffledBox_length]
    omega
  have hP1len : (rcPhase1Cells gr d).length =
      9 * (9 - (getBoxConstraints d).2) := by
    rw [rcPhase1Cells, length_flatMap_sum, List.map_congr_left hchunklen]
    have hbil : boxIdxList =
        [(0, 0), (0, 1), (0, 2), (1, 0), (1, 1), (1, 2),
          (2, 0), (2, 1), (2, 2)] := rfl
    rw [hbil]
    simp only [List.map_cons, List.map_nil, List.sum_cons, List.sum_nil]
    omega
  have hP1box : ∀ x y, x < 3 → y < 3 →
      (rcPhase1Cells gr d).countP
        (fun p => (p.1 / 3 == x) && (p.2 / 3 == y)) =
      9 - (getBoxConstraints d).2 := by
    intro x y hx hy
    have hxy : (x, y) ∈ boxIdxList := (mem_boxIdxList (x, y)).mpr ⟨hx, hy⟩
    have hz : ∀ bi ∈ boxIdxList, bi ≠ (x, y) →
        ((rcShuffledBox gr bi.1 bi.2).take
          (9 - (getBoxConstraints d).2)).countP
          (fun p => (p.1 / 3 == x) && (p.2 / 3 == y)) = 0 := by
      intro bi hbi hne
      rw [List.countP_eq_zero]
      intro p hp
      have he := hchunkkey bi hbi p hp
      simp only [Bool.and_eq_true, beq_iff_eq, not_and]
      intro e1 e2
      exact hne (by rw [← he, e1, e2])
    have hall : ∀ p ∈ (rcShuffledBox gr x y).take
        (9 - (getBoxConstraints d).2),
        ((p.1 / 3 == x) && (p.2 / 3 == y)) = true := by
      intro p hp
      have he := hchunkkey (x, y) hxy p hp
      simp only [Bool.and_eq_true, beq_iff_eq]
      exact ⟨congrArg Prod.fst he, congrArg Prod.snd he⟩
    rw [rcPhase1Cells, countP_flatMap,
      sum_single _ (x, y) boxIdxList boxIdxList_nodup hxy hz,
      List.countP_eq_length.mpr hall]
    exact hchunklen (x, y) hxy
  have hpool : ∀ q ∈ shuffleArray (gr 10) (rcAllCells gr d),
      q.2.2.1 < 3 ∧ q.2.2.2 < 3 ∧ q.1 / 3 = q.2.2.1 ∧
      q.2.1 / 3 = q.2.2.2 ∧ q.1 < 9 ∧ q.2.1 < 9 ∧
      removeList (rcPhase1Cells gr d) (generateCompleteSudoku gf)
        q.1 q.2.1 ≠ none := by
    intro q hq
    have hq2 : q ∈ rcAllCells gr d :=
      ((shuffleArray_perm _ _).mem_iff).mp hq
    rw [rcAllCells, List.mem_flatMap] at hq2
    obtain ⟨bi, hbi, hqin⟩ := hq2
    rw [List.mem_map] at hqin
    obtain ⟨p, hpdrop, hqe⟩ := hqin
    have hbi3 := (mem_boxIdxList bi).mp hbi
    have hpm := mem_rcShuffledBox gr bi.1 bi.2 p
      (List.drop_subset _ _ hpdrop)
    have hpbox := (mem_boxCellsList p.1 p.2 bi.1 bi.2 hbi3.1 hbi3.2).mp (by
      obtain ⟨p1, p2⟩ := p
      exact hpm)
    have hpb := mem_boxCellsList_bounds p bi.1 bi.2 hbi3.1 hbi3.2 hpm
    have hnotp1 : p ∉ rcPhase1Cells gr d := by
      intro hp1
      rw [rcPhase1Cells, List.mem_flatMap] at hp1
      obtain ⟨bj, hbj, hptake⟩ := hp1
      have hbj3 := (mem_boxIdxList bj).mp hbj
      have hpm2 := mem_rcShuffledBox gr bj.1 bj.2 p
        (List.take_subset _ _ hptake)
      have hpbox2 := (mem_boxCellsList p.1 p.2 bj.1 bj.2
        hbj3.1 hbj3.2).mp (by
          obtain ⟨p1, p2⟩ := p
          exact hpm2)
      have hbieq : bi = bj := by
        obtain ⟨bi1, bi2⟩ := bi
        obtain ⟨bj1, bj2⟩ := bj
        simp only at hpbox hpbox2
        rw [Prod.mk.injEq]
        omega
      rw [← hbieq] at hptake
      exact List.disjoint_take_drop
        (rcShuffledBox_nodup gr bi.1 bi.2 hbi3.1 hbi3.2)
        (Nat.le_refl _) hptake hpdrop
    have hout : removeList (rcPhase1Cells gr d) (generateCompleteSudoku gf)
        p.1 p.2 = generateCompleteSudoku gf p.1 p.2 := by
      apply removeList_outside
      intro hmem2
      apply hnotp1
      have hpp : (p.1, p.2) = p := by
        obtain ⟨p1, p2⟩ := p
        rfl
      rwa [hpp] at hmem2
    rw [← hqe]
    refine ⟨hbi3.1, hbi3.2, hpbox.1, hpbox.2, hpb.1, hpb.2, ?_⟩
    show removeList (rcPhase1Cells gr d) (generateCompleteSudoku gf)
      p.1 p.2 ≠ none
    rw [hout]
    exact hGfill p.1 p.2 hpb.1 hpb.2
  have hre : ∀ bi ∈ boxIdxList,
      ((((rcShuffledBox gr bi.1 bi.2).drop
          (9 - (getBoxConstraints d).2)).map
        fun p => (p.1, p.2, bi.1, bi.2)).map fun q => (q.1, q.2.1)) =
      (rcShuffledBox gr bi.1 bi.2).drop (9 - (getBoxConstraints d).2) := by
    intro bi _
    rw [List.map_map]
    have hco : ((fun q : Nat × Nat × Nat × Nat => (q.1, q.2.1)) ∘
        fun p : Nat × Nat => (p.1, p.2, bi.1, bi.2)) =
        (id : Nat × Nat → Nat × Nat) := by
      funext p
      rfl
    rw [hco, List.map_id]
  have hpoolnd : ((shuffleArray (gr 10) (rcAllCells gr d)).map
      fun q => (q.1, q.2.1)).Nodup := by
    have hperm : ((shuffleArray (gr 10) (rcAllCells gr d)).map
        fun q => (q.1, q.2.1)).Perm
        ((rcAllCells gr d).map fun q => (q.1, q.2.1)) :=
      (shuffleArray_perm _ _).map _
    rw [List.Perm.nodup_iff hperm, rcAllCells, List.map_flatMap]
    apply nodup_flatMap_key (fun p : Nat × Nat => (p.1 / 3, p.2 / 3))
      boxIdxList _ boxIdxList_nodup
    · intro bi hbi
      rw [hre bi hbi]
      have hbi3 := (mem_boxIdxList bi).mp hbi
      exact List.Nodup.sublist (List.drop_sublist _ _)
        (rcShuffledBox_nodup gr bi.1 bi.2 hbi3.1 hbi3.2)
    · intro bi hbi a ha
      rw [hre bi hbi] at ha
      have hbi3 := (mem_boxIdxList bi).mp hbi
      have hpm := mem_rcShuffledBox gr bi.1 bi.2 a
        (List.drop_subset _ _ ha)
      have hbox := (mem_boxCellsList a.1 a.2 bi.1 bi.2
        hbi3.1 hbi3.2).mp (by
          obtain ⟨a1, a2⟩ := a
          exact hpm)
      exact Prod.ext hbox.1 hbox.2
  have hdroplen : ∀ x y, ((rcShuffledBox gr x y).drop
      (9 - (getBoxConstraints d).2)).length = (getBoxConstraints d).2 := by
    intro x y
    rw [List.length_drop, rcShuffledBox_length]
    omega
  have hpooltag : ∀ x y, x < 3 → y < 3 →
      tagCount (shuffleArray (gr 10) (rcAllCells gr d)) x y =
        (getBoxConstraints d).2 := by
    intro x y hx hy
    have hxy : (x, y) ∈ boxIdxList := (mem_boxIdxList (x, y)).mpr ⟨hx, hy⟩
    have hz : ∀ bi ∈ boxIdxList, bi ≠ (x, y) →
        (((rcShuffledBox gr bi.1 bi.2).drop
            (9 - (getBoxConstraints d).2)).map
          fun p => (p.1, p.2, bi.1, bi.2)).countP
          (fun q => (q.2.2.1 == x) && (q.2.2.2 == y)) = 0 := by
      intro bi hbi hne
      rw [List.countP_eq_zero]
      intro q hq
      rw [List.mem_map] at hq
      obtain ⟨p, _, hqe⟩ := hq
      rw [← hqe]
      simp only [Bool.and_eq_true, beq_iff_eq, not_and]
      intro e1 e2
      apply hne
      obtain ⟨bi1, bi2⟩ := bi
      simp only at e1 e2
      rw [e1, e2]
    have hall : (((rcShuffledBox gr x y).drop
        (9 - (getBoxConstraints d).2)).map
        fun p => (p.1, p.2, x, y)).countP
        (fun q => (q.2.2.1 == x) && (q.2.2.2 == y)) =
        (getBoxConstraints d).2 := by
      rw [List.countP_eq_length.mpr ?_]
      · rw [List.length_map]
        exact hdroplen x y
      · intro q hq
        rw [List.mem_map] at hq
        obtain ⟨p, _, hqe⟩ := hq
        rw [← hqe]
        simp
    rw [tagCount, (shuffleArray_perm _ _).countP_eq, rcAllCells,
      countP_flatMap,
      sum_single _ (x, y) boxIdxList boxIdxList_nodup hxy hz]
    exact hall
  have hBR0 : ∀ x y,
      ((rcShuffledBox gr x y).take (9 - (getBoxConstraints d).2)).length =
        9 - (getBoxConstraints d).2 := by
    intro x y
    rw [List.length_take, rcShuffledBox_length]
    omega
  have hQ1box : ∀ x y, x < 3 → y < 3 →
      countEmptyInBox (removeList (rcPhase1Cells gr d)
        (generateCompleteSudoku gf)) x y =
      9 - (getBoxConstraints d).2 := by
    intro x y hx hy
    rw [removeList_boxCount (rcPhase1Cells gr d) _ x y hx hy hP1nd
      (fun p hp => (hP1mem p hp).2.2), hGbox x y hx hy,
      hP1box x y hx hy]
    omega
  have hcnt0 : ∀ x y, x < 3 → y < 3 →
      countEmptyInBox (removeList (rcPhase1Cells gr d)
        (generateCompleteSudoku gf)) x y =
      ((rcShuffledBox gr x y).take (9 - (getBoxConstraints d).2)).length := by
    intro x y hx hy
    rw [hQ1box x y hx hy, hBR0 x y]
  have hbnd0 : ∀ x y, x < 3 → y < 3 →
      9 - (getBoxConstraints d).2 ≤
        ((rcShuffledBox gr x y).take
          (9 - (getBoxConstraints d).2)).length ∧
      ((rcShuffledBox gr x y).take
          (9 - (getBoxConstraints d).2)).length ≤
        9 - (getBoxConstraints d).1 := by
    intro x y _ _
    rw [hBR0 x y]
    omega
  have hQ1empty : emptyCount (removeList (rcPhase1Cells gr d)
      (generateCompleteSudoku gf)) = (rcPhase1Cells gr d).length := by
    rw [removeList_emptyCount (rcPhase1Cells gr d) _ hP1nd hP1mem, hGempty]
    omega
  have hmod : gr 0 0 % ((getCluesRange d).2 - (getCluesRange d).1 + 1) <
      (getCluesRange d).2 - (getCluesRange d).1 + 1 :=
    Nat.mod_lt _ (by omega)
  have htle0 : (rcPhase1Cells gr d).length ≤ rcTargetEmpty gr d := by
    rw [hP1len, rcTargetEmpty]
    cases d <;> simp only [getCluesRange, getBoxConstraints] at hmod ⊢ <;>
      omega
  have hcacheck : (boxIdxList.map fun _ =>
      (9 - (getBoxConstraints d).1) - (9 - (getBoxConstraints d).2)).sum ≤
      capSum (9 - (getBoxConstraints d).1)
        (fun x y => ((rcShuffledBox gr x y).take
          (9 - (getBoxConstraints d).2)).length)
        (shuffleArray (gr 10) (rcAllCells gr d)) := by
    rw [capSum]
    apply sum_map_le
    intro bi hbi
    have hbi3 := (mem_boxIdxList bi).mp hbi
    show (9 - (getBoxConstraints d).1) - (9 - (getBoxConstraints d).2) ≤
      min ((9 - (getBoxConstraints d).1) -
          ((rcShuffledBox gr bi.1 bi.2).take
            (9 - (getBoxConstraints d).2)).length)
        (tagCount (shuffleArray (gr 10) (rcAllCells gr d)) bi.1 bi.2)
    rw [hBR0 bi.1 bi.2, hpooltag bi.1 bi.2 hbi3.1 hbi3.2]
    omega
  have hcap0 : rcTargetEmpty gr d ≤ (rcPhase1Cells gr d).length +
      capSum (9 - (getBoxConstraints d).1)
        (fun x y => ((rcShuffledBox gr x y).take
          (9 - (getBoxConstraints d).2)).length)
        (shuffleArray (gr 10) (rcAllCells gr d)) := by
    have hconst : (boxIdxList.map fun _ =>
        (9 - (getBoxConstraints d).1) - (9 - (getBoxConstraints d).2)).sum =
        9 * ((9 - (getBoxConstraints d).1) -
          (9 - (getBoxConstraints d).2)) := by
      have hbil : boxIdxList =
          [(0, 0), (0, 1), (0, 2), (1, 0), (1, 1), (1, 2),
            (2, 0), (2, 1), (2, 2)] := rfl
      rw [hbil]
      simp only [List.map_cons, List.map_nil, List.sum_cons, List.sum_nil]
      omega
    have h1 := hcacheck
    rw [hconst] at h1
    have h2 : rcTargetEmpty gr d ≤ 9 * (9 - (getBoxConstraints d).2) +
        9 * ((9 - (getBoxConstraints d).1) -
          (9 - (getBoxConstraints d).2)) := by
      rw [rcTargetEmpty]
      cases d <;> simp only [getCluesRange, getBoxConstraints] at hmod ⊢ <;>
        omega
    rw [hP1len]
    omega
  rw [removeCellsImproved_eq]
  have hmain := phase2_main (rcTargetEmpty gr d)
    (9 - (getBoxConstraints d).1) (9 - (getBoxConstraints d).2)
    (shuffleArray (gr 10) (rcAllCells gr d))
    (removeList (rcPhase1Cells gr d) (generateCompleteSudoku gf))
    (fun br bc => ((rcShuffledBox gr br bc).take
      (9 - (getBoxConstraints d).2)).length)
    ((rcPhase1Cells gr d).length)
    hpool hpoolnd hcnt0 hbnd0 hQ1empty htle0 hcap0
  exact ⟨hmain.2, hmain.1⟩

/-- C4: for every difficulty level and every outcome of the random draws,
the puzzle returned by `generateSudokuPuzzle` has a total clue count within
the level's global clue range, and every 3×3 box has a clue count within
the level's per-box range. -/
theorem claim_C4 (gf gr : Nat → Nat → Nat) (d : Difficulty) (br bc : Nat)
    (hbr : br < 3) (hbc : bc < 3) :
    ((getCluesRange d).1 ≤ cluesCount (generateSudokuPuzzle gf gr d) ∧
      cluesCount (generateSudokuPuzzle gf gr d) ≤ (getCluesRange d).2) ∧
    ((getBoxConstraints d).1 ≤
        countFilledInBox (generateSudokuPuzzle gf gr d) br bc ∧
      countFilledInBox (generateSudokuPuzzle gf gr d) br bc ≤
        (getBoxConstraints d).2) := by
  have hco := removeCellsImproved_counts gf gr d
  have hglob := cluesCount_add_emptyCount (generateSudokuPuzzle gf gr d)
  have hbox := countFilled_add_countEmpty (generateSudokuPuzzle gf gr d)
    br bc
  rw [generateSudokuPuzzle] at hglob hbox ⊢
  obtain ⟨hemp, hboxes⟩ := hco
  have hbb := hboxes br bc hbr hbc
  have hmod : gr 0 0 % ((getCluesRange d).2 - (getCluesRange d).1 + 1) <
      (getCluesRange d).2 - (getCluesRange d).1 + 1 :=
    Nat.mod_lt _ (by omega)
  rw [rcTargetEmpty] at hemp
  cases d <;>
    simp only [getCluesRange, getBoxConstraints] at hmod hemp hbb ⊢ <;>
    omega

/-- Witness for C4 at concrete entropy, difficulty and box. -/
theorem claim_C4_witness :
    (0 < 3 ∧ 0 < 3) ∧
    (((getCluesRange Difficulty.easy).1 ≤
        cluesCount (generateSudokuPuzzle (fun _ _ => 0) (fun _ _ => 0)
          Difficulty.easy) ∧
      cluesCount (generateSudokuPuzzle (fun _ _ => 0) (fun _ _ => 0)
          Difficulty.easy) ≤ (getCluesRange Difficulty.easy).2) ∧
     ((getBoxConstraints Difficulty.easy).1 ≤
        countFilledInBox (generateSudokuPuzzle (fun _ _ => 0)
          (fun _ _ => 0) Difficulty.easy) 0 0 ∧
      countFilledInBox (generateSudokuPuzzle (fun _ _ => 0)
          (fun _ _ => 0) Difficulty.easy) 0 0 ≤
        (getBoxConstraints Difficulty.easy).2)) :=
  ⟨⟨by decide, by decide⟩, claim_C4 (fun _ _ => 0) (fun _ _ => 0)
    Difficulty.easy 0 0 (by decide) (by decide)⟩

end SlowDefeq

/-! ## A concrete entropy outcome of the symmetric generator at Medium -/

/-- Fill entropy that reproduces the pattern grid `G0`: at dynamic call `cnt`
(equal to the row-major cell index, since no backtracking occurs) the
Fisher-Yates draws move the digit `pat (cnt / 9) (cnt % 9)` to the front of
the shuffled candidate list, so every cell is filled at the first attempt. -/
def gFillCex : Nat → Nat → Nat := fun cnt k =>
  if k = 9 - pat (cnt / 9) (cnt % 9) then 0 else 8 - k

/-- Removal entropy for `generateSymmetricPuzzle`: the clue-target draw is 0
(27 clues at Medium, hence 54 cells to remove), and the position shuffle
brings the four centre-box candidates `(3,3), (3,4), (3,5), (4,3)` to the
front of the candidate list, keeping all other candidates in source order. -/
def gRemCex : Nat → Nat → Nat := fun slot k =>
  if slot = 1 then
    if k ≤ 5 then 38 - k
    else if k ≤ 35 then 35 - k
    else if k = 37 then 0 else 1
  else 0

set_option maxRecDepth 40000 in
set_option maxHeartbeats 1000000 in
/-- C6 counterexample: at Medium difficulty the per-box minimum is 2 clues,
but for the entropy outcome `gFillCex`/`gRemCex` the centre box of the
puzzle returned by `generateSymmetricPuzzle` retains only 1 clue: each
centre-box pair raises the centre box's removal counter by two after a
single `< 7` cap check, so the counter runs 0, 2, 4, 6, 8 and overshoots
the cap of 7. -/
theorem claim_C6_counterexample :
    countFilledInBox
        (generateSymmetricPuzzle gFillCex gRemCex Difficulty.medium) 1 1 <
      (getBoxConstraints Difficulty.medium).1 := by decide

/-- Witness for C6 (amended) at concrete entropy and the centre box at
Medium difficulty. -/
theorem claim_C6_witness :
    1 < 3 ∧
      (if Difficulty.medium = Difficulty.medium ∧ 1 = 1 ∧ 1 = 1 then 1
        else (getBoxConstraints Difficulty.medium).1) ≤
        countFilledInBox
          (generateSymmetricPuzzle gFillCex gRemCex Difficulty.medium) 1 1 :=
  ⟨by decide, claim_C6_amended gFillCex gRemCex Difficulty.medium 1 1
    (by decide) (by decide)⟩

/-! ## Concrete boards for counterexamples and witnesses -/

/-- The fully filled board with every in-range cell holding 1. -/
def allOnes : Board := fun r c => if r < 9 ∧ c < 9 then some 1 else none

/-- `allOnes` with the corner cell blanked. -/
def onesHole : Board := fun r c => if r = 0 ∧ c = 0 then none else allOnes r c

/-- `G0` with the corner cell blanked. -/
def G0hole : Board := fun r c => if r = 0 ∧ c = 0 then none else G0 r c

/-- A board whose single row-major-first empty cell `(0,0)` admits no digit:
row 0 holds 1..8 and the cell below holds 9. -/
def bStuck : Board := fun r c =>
  if r = 0 ∧ c = 0 then none
  else if r = 0 ∧ c < 9 then some c
  else if r = 1 ∧ c = 0 then some 9
  else none

theorem isBoardValid_false_of_row_dup (b : Board) (r c c2 v : Nat)
    (hr : r < 9) (hc : c < 9) (hc2 : c2 < 9) (hne : c ≠ c2)
    (h1 : b r c = some v) (h2 : b r c2 = some v) :
    isBoardValid b = false := by
  cases hbv : isBoardValid b with
  | false => rfl
  | true =>
    exfalso
    have := (isBoardValid_iff b).mp hbv r c r c2 hr hc hr hc2
      (by simp [hne]) (Or.inl rfl) (by rw [h1]; simp)
    rw [h1, h2] at this
    exact this rfl

theorem allOnes_no_completion : ∀ s, ¬IsCompletion allOnes s := by
  intro s hcomp
  obtain ⟨hext, _, _, hvalid⟩ := hcomp
  have h1 : s 0 0 = some 1 := by
    rw [hext 0 0 (by simp [allOnes])]
    simp [allOnes]
  have h2 : s 0 1 = some 1 := by
    rw [hext 0 1 (by simp [allOnes])]
    simp [allOnes]
  rw [isBoardValid_false_of_row_dup s 0 0 1 1 (by omega) (by omega) (by omega)
    (by omega) h1 h2] at hvalid
  exact Bool.false_ne_true hvalid

theorem onesHole_no_completion : ∀ s, ¬IsCompletion onesHole s := by
  intro s hcomp
  obtain ⟨hext, _, _, hvalid⟩ := hcomp
  have h1 : s 0 1 = some 1 := by
    rw [hext 0 1 (by simp [onesHole, allOnes])]
    simp [onesHole, allOnes]
  have h2 : s 0 2 = some 1 := by
    rw [hext 0 2 (by simp [onesHole, allOnes])]
    simp [onesHole, allOnes]
  rw [isBoardValid_false_of_row_dup s 0 1 2 1 (by omega) (by omega) (by omega)
    (by omega) h1 h2] at hvalid
  exact Bool.false_ne_true hvalid

theorem G0_wf : WellFormedBoard G0 := by
  intro r c hr hc
  refine Or.inr ⟨pat r c, by simp [pat], ?_, by simp [G0, hr, hc]⟩
  have := Nat.mod_lt (3 * (r % 3) + r / 3 + c) (show 0 < 9 by omega)
  simp only [pat]
  omega

theorem G0hole_wf : WellFormedBoard G0hole := by
  intro r c hr hc
  by_cases h0 : r = 0 ∧ c = 0
  · rw [h0.1, h0.2]
    exact Or.inl (by simp [G0hole])
  · rw [show G0hole r c = G0 r c by simp [G0hole, h0]]
    exact G0_wf r c hr hc

theorem G0hole_completion : IsCompletion G0hole G0 := by
  refine ⟨fun r c hne => ?_, fun r c hout => ?_, fun r c hr hc => ?_, by decide⟩
  · by_cases h0 : r = 0 ∧ c = 0
    · rw [h0.1, h0.2] at hne
      exact absurd (by simp [G0hole]) hne
    · simp [G0hole, h0]
  · have h0 : ¬(r = 0 ∧ c = 0) := by
      rintro ⟨rfl, rfl⟩
      exact hout ⟨by omega, by omega⟩
    simp [G0hole, h0]
  · rcases G0_wf r c hr hc with h | h
    · exact absurd h (by simp [G0, hr, hc])
    · exact h

/-! ## Claim theorems -/

/-- C2: every board returned by `generateCompleteSudoku` — for every possible
sequence of random shuffles — satisfies `isBoardSolved`: all 81 cells are
filled and no row, column or 3×3 box contains the same digit twice. -/
theorem claim_C2 (g : Nat → Nat → Nat) :
    isBoardSolved (generateCompleteSudoku g) = true :=
  (generateComplete_props g).1

/-- C9: `solveSudoku` never changes a cell that was non-empty in the input
(whether it succeeds or fails), and whenever it returns false the board is
left exactly equal to its input state: every tentative placement is undone on
backtracking. -/
theorem claim_C9 (b : Board) :
    ((solveSudoku b).1 = false → (solveSudoku b).2 = b) ∧
    (∀ r c, b r c ≠ none → (solveSudoku b).2 r c = b r c) := by
  refine ⟨solve_restore b, fun r c hne => ?_⟩
  cases hfl : (solveSudoku b).1 with
  | true => exact (solve_sound b hfl).1 r c hne
  | false => rw [solve_restore b hfl]

/-- Witness for C9 at a concrete unsolvable board. -/
theorem claim_C9_witness :
    (solveSudoku bStuck).2 = bStuck ∧
    (solveSudoku bStuck).2 0 1 = bStuck 0 1 :=
  ⟨(claim_C9 bStuck).1 (by decide),
    (claim_C9 bStuck).2 0 1 (by decide)⟩

/-- C1 counterexample: the fully filled all-ones board has a conflict among
its filled cells (`isBoardValid` is false) and admits no completion, yet
`solveSudoku` returns true on it — refuting both the claimed equivalence and
the claim that `isBoardValid = false` forces `solveSudoku = false`. -/
theorem claim_C1_counterexample :
    (solveSudoku allOnes).1 = true ∧ isBoardValid allOnes = false ∧
    ∀ s, ¬IsCompletion allOnes s :=
  ⟨by decide, by decide, allOnes_no_completion⟩

/-- C1 (amended): for every 9×9 board in the data model (cells empty or
holding 1..9) whose filled cells are conflict-free, `solveSudoku` returns true
exactly when a completion of the non-empty cells exists, and in that case the
board is mutated into a full valid solution.  (For boards that already
contain a conflict the solver may still return true, e.g. on a fully filled
invalid board, so the original claim's second half is dropped.) -/
theorem claim_C1_amended (b : Board) (hwf : WellFormedBoard b)
    (hvalid : isBoardValid b = true) :
    ((solveSudoku b).1 = true ↔ ∃ s, IsCompletion b s) ∧
    ((solveSudoku b).1 = true → isBoardSolved (solveSudoku b).2 = true) := by
  constructor
  · constructor
    · intro h
      exact ⟨(solveSudoku b).2, solve_completion b hwf hvalid h⟩
    · intro hex
      exact solve_complete b hvalid hex
  · intro h
    obtain ⟨_, _, _, hfull, hvalid2⟩ := solve_sound b h
    exact (isBoardSolved_iff _).mpr
      ⟨(firstEmpty_eq_none_iff _).mp hfull, hvalid2 hvalid⟩

/-- Witness for C1 (amended) at the concrete grid `G0` with one cell blanked. -/
theorem claim_C1_witness :
    (((solveSudoku G0hole).1 = true ↔ ∃ s, IsCompletion G0hole s) ∧
      ((solveSudoku G0hole).1 = true →
        isBoardSolved (solveSudoku G0hole).2 = true)) :=
  claim_C1_amended G0hole G0hole_wf (by decide)

/-- C5 counterexample: the all-ones board is fully filled and invalid, so it
has no completion at all, yet `hasUniqueSolution` returns true on it (the
counting solver counts the invalid full board itself as a solution). -/
theorem claim_C5_counterexample :
    hasUniqueSolution allOnes = true ∧ ¬∃! s, IsCompletion allOnes s := by
  refine ⟨by decide, ?_⟩
  rintro ⟨s, hs, _⟩
  exact allOnes_no_completion s hs

/-- C5 (amended): for every well-formed board whose filled cells are
conflict-free, `hasUniqueSolution` returns true iff the board has exactly one
completion; in particular it returns false on the fully empty board, which
has at least two completions. -/
theorem claim_C5_amended :
    (∀ b, WellFormedBoard b → isBoardValid b = true →
      (hasUniqueSolution b = true ↔ ∃! s, IsCompletion b s)) ∧
    hasUniqueSolution emptyBoard = false := by
  have hmain : ∀ b, WellFormedBoard b → isBoardValid b = true →
      (hasUniqueSolution b = true ↔ ∃! s, IsCompletion b s) := by
    intro b hwf hvalid
    rw [hasUniqueSolution]
    simp only [beq_iff_eq]
    constructor
    · intro hone
      obtain ⟨s, hs⟩ := countAux_ex 82 b 0 hwf hvalid (by omega)
      refine ⟨s, hs, fun s2 hs2 => ?_⟩
      by_contra hne
      have := countAux_two 82 b 0 (emptyCount_lt_fuel b) hvalid (by omega)
        ⟨s2, s, hs2, hs, hne⟩
      omega
    · rintro ⟨s, hs, huniq⟩
      exact countAux_unique 82 b 0 s (emptyCount_lt_fuel b) hwf hvalid
        (by omega) hs huniq
  refine ⟨hmain, ?_⟩
  cases hu : hasUniqueSolution emptyBoard with
  | false => rfl
  | true =>
    exfalso
    have hwf : WellFormedBoard emptyBoard := fun _ _ _ _ => Or.inl rfl
    obtain ⟨s, _, huniq⟩ := (hmain emptyBoard hwf isBoardValid_emptyBoard).mp hu
    have h0 := huniq G0 G0_completion_empty
    have h1 := huniq G1 G1_completion_empty
    exact G0_ne_G1 (h0.trans h1.symm)

/-- Witness for C5 (amended) at the concrete complete grid `G0`. -/
theorem claim_C5_witness :
    hasUniqueSolution G0 = true ↔ ∃! s, IsCompletion G0 s :=
  claim_C5_amended.1 G0 G0_wf (by decide)

/-- C8 counterexample: `onesHole` (all ones, corner blanked) is unsolvable —
it has no completion — yet `getNextHint` returns a hint, because the
backtracking solver "solves" the copy by filling the corner with 2 without
noticing the pre-existing conflicts. -/
theorem claim_C8_counterexample :
    getNextHint onesHole = some (0, 0, 2) ∧
    ∀ s, ¬IsCompletion onesHole s :=
  ⟨by decide, onesHole_no_completion⟩

/-- C8 (amended): for every well-formed board whose filled cells are
conflict-free: if it has no completion, `getNextHint` returns none; if it has
a completion and an empty cell, `getNextHint` returns the first empty cell in
row-major order (`firstEmpty`) together with the value the solved copy
assigns there.  (The input board is never modified: `getNextHint` solves a
copy, which the embedding reflects by being a pure function.) -/
theorem claim_C8_amended (b : Board) (hwf : WellFormedBoard b)
    (hvalid : isBoardValid b = true) :
    ((¬∃ s, IsCompletion b s) → getNextHint b = none) ∧
    (∀ r c, firstEmpty b = some (r, c) → (∃ s, IsCompletion b s) →
      ∃ v, getNextHint b = some (r, c, v) ∧
        (solveSudoku b).2 r c = some v) := by
  constructor
  · intro hnone
    apply getNextHint_of_unsolvable
    cases hfl : (solveSudoku b).1 with
    | false => rfl
    | true =>
      exact absurd ⟨(solveSudoku b).2, solve_completion b hwf hvalid hfl⟩
        hnone
  · intro r c hfe hex
    exact getNextHint_of_solvable b r c (solve_complete b hvalid hex) hfe

/-- Witness for C8 (amended) at the concrete board `G0hole`. -/
theorem claim_C8_witness :
    ∃ v, getNextHint G0hole = some (0, 0, v) ∧
      (solveSudoku G0hole).2 0 0 = some v :=
  (claim_C8_amended G0hole G0hole_wf (by decide)).2 0 0 (by decide)
    ⟨G0, G0hole_completion⟩

end Sudoku
